import Mathlib

/-!
Verification development for the layer-management / incremental-paint engine of
`src/canvas/Painter.ts` (class `CanvasPainter`).

Modelling conventions (shallow embedding):
* JS numbers used as z-level keys are modelled as `Rat` (the code adds the
  fractional offsets `0.001` and `0.01` to z-levels; exact rational arithmetic
  mirrors the intended ordering of those keys).
* Indices stored on layers (`__startIndex`, `__endIndex`, `__drawIndex`) are
  JS numbers that can hold the sentinel `-1`, so they are modelled as `Int`.
* The mutable painter object is modelled as an explicit state record
  (`Painter`); every method becomes a function from state to state.
* External side effects (clearing a canvas, rasterizing one element via the
  external `brush` primitive, `console.error`) are modelled as a trace of
  events (`PaintEv`).
* `Date.now()` inside `_doPaintList` is modelled by a clock oracle giving the
  elapsed time observed after each successive paint of a layer's loop.
* `requestAnimationFrame` rescheduling in `_paintList` is modelled by
  fuel-bounded recursion (`paintListN`).
-/

set_option allowUnsafeReducibility true

attribute [semireducible] Rat.add Rat.mul Rat.inv Rat.sub Rat.div Rat.neg Rat.ofScientific

namespace ZRender

/-- Per-zlevel extra render configuration (the `LayerConfig` consumed by
`configLayer`).  Fields are optional; `util.merge(target, source, true)`
overwrites a target field exactly when the source carries that field. -/
structure LayerConfig where
  clearColor : Option String := none
  motionBlur : Option Bool := none
  lastFrameAlpha : Option Int := none
deriving Repr, DecidableEq, Inhabited

/-- One drawing surface plus its bookkeeping state, as used by the painter:
`__builtin__`, `virtual`, `incremental`, `__dirty`, `__used`, `__startIndex`,
`__endIndex`, `__drawIndex`.  `hasResize` / `hasRefresh` record whether the
(possibly externally supplied) layer object carries `resize` / `refresh`
functions, which is what `isLayerValid` duck-checks.  The configuration
fields mirror what `util.merge` copies from a `LayerConfig`. -/
structure Layer where
  id : String := ""
  zlevel : Rat := 0
  builtin : Bool := false
  virtual : Bool := false
  incremental : Bool := false
  dirty : Bool := false
  used : Bool := false
  startIndex : Int := 0
  endIndex : Int := 0
  drawIndex : Int := 0
  hasResize : Bool := true
  hasRefresh : Bool := true
  clearColor : Option String := none
  motionBlur : Option Bool := none
  lastFrameAlpha : Option Int := none
deriving Repr, DecidableEq, Inhabited

/-- The slice of a drawable element that `_updateLayerStatus` / `_doPaintList`
read: its coarse priority `zlevel`, the `incremental` flag, the
`notClear` flag of incremental displayables, and the `__dirty` flag. -/
structure Element where
  zlevel : Rat := 0
  incremental : Bool := false
  notClear : Bool := false
  dirty : Bool := false
deriving Repr, DecidableEq, Inhabited

/-- Externally observable effects of a paint pass: clearing a layer's canvas,
painting one element (a call of the external `brush` primitive) recorded by
its index in the display list, and an error log. -/
inductive PaintEv where
  | clear : Rat → PaintEv
  | paintEl : Int → PaintEv
  | logErr : String → PaintEv
deriving Repr, DecidableEq

/-- The mutable state of a `CanvasPainter`: `_singleCanvas`,
`_needsManuallyCompositing`, `_zlevelList`, `_layers` (keyed by z-level),
`_layerConfig`, `_redrawId` and (the key of) `_hoverlayer`. -/
structure Painter where
  singleCanvas : Bool := false
  needsManuallyCompositing : Bool := false
  zlevelList : List Rat := []
  layers : List (Rat × Layer) := []
  layerConfig : List (Rat × LayerConfig) := []
  redrawId : Nat := 0
  hoverZ : Option Rat := none
deriving Repr, DecidableEq, Inhabited

/-! ### Association-list primitives modelling the JS object used as a map -/

/-- Lookup in the layer map (`this._layers[z]` etc.). -/
def alookup {α : Type} (k : Rat) : List (Rat × α) → Option α
  | [] => none
  | (k', v) :: rest => if k' = k then some v else alookup k rest

/-- Assignment `map[k] = v` (replaces an existing binding, else appends). -/
def aset {α : Type} (k : Rat) (v : α) : List (Rat × α) → List (Rat × α)
  | [] => [(k, v)]
  | (k', v') :: rest => if k' = k then (k, v) :: rest else (k', v') :: aset k v rest

/-- In-place mutation of the object stored at key `k` (JS layers are mutated
through the reference held in the map). -/
def amodify {α : Type} (k : Rat) (f : α → α) : List (Rat × α) → List (Rat × α)
  | [] => []
  | (k', v') :: rest => if k' = k then (k', f v') :: rest else (k', v') :: amodify k f rest

/-- Deletion `delete map[k]`. -/
def aremove {α : Type} (k : Rat) : List (Rat × α) → List (Rat × α)
  | [] => []
  | (k', v') :: rest => if k' = k then rest else (k', v') :: aremove k rest

/-! ### Constants from the head of Painter.ts -/

def HOVER_LAYER_ZLEVEL : Rat := 100000

def CANVAS_ZLEVEL : Rat := 314159

def EL_AFTER_INCREMENTAL_INC : Rat := 1/100

def INCREMENTAL_INC : Rat := 1/1000

/-! ### Layer construction and merge helpers -/

/-- Modelled from the spec: construction of a fresh drawing surface
(`new Layer(id, painter, dpr)`; `Layer.ts` is not among the sources).  Per §3
a layer starts with an empty assigned range, is not yet `used`, and — being
freshly created in the middle of a classification pass — has to be painted,
so it starts out dirty.  An engine-built layer carries `resize`/`refresh`. -/
def Layer.new (id : String) : Layer :=
  { id := id, zlevel := 0, builtin := false, virtual := false,
    incremental := false, dirty := true, used := false,
    startIndex := 0, endIndex := 0, drawIndex := 0,
    hasResize := true, hasRefresh := true,
    clearColor := none, motionBlur := none, lastFrameAlpha := none }

/-- Modelled from the spec: `layer.getElementCount()` (`Layer.ts` is not among
the sources).  §4.2 step 7 tests whether a layer "still holds elements", i.e.
whether the drawable range `[startIndex, endIndex)` it owns is non-empty. -/
def Layer.getElementCount (L : Layer) : Int :=
  L.endIndex - L.startIndex

/-- Effect of `util.merge(layer, config, true)`: each field present on the
config overwrites the corresponding layer field. -/
def mergeConfigIntoLayer (L : Layer) (c : LayerConfig) : Layer :=
  { L with
    clearColor := match c.clearColor with | some v => some v | none => L.clearColor,
    motionBlur := match c.motionBlur with | some v => some v | none => L.motionBlur,
    lastFrameAlpha := match c.lastFrameAlpha with | some v => some v | none => L.lastFrameAlpha }

/-- Effect of `util.merge(storedConfig, config, true)` on two configs. -/
def mergeConfig (old c : LayerConfig) : LayerConfig :=
  { clearColor := match c.clearColor with | some v => some v | none => old.clearColor,
    motionBlur := match c.motionBlur with | some v => some v | none => old.motionBlur,
    lastFrameAlpha := match c.lastFrameAlpha with | some v => some v | none => old.lastFrameAlpha }

/-! ### isLayerValid, insertLayer, delLayer (lines 29–45, 530–591, 767–778) -/

/-- `isLayerValid(layer)`: false for a missing object; engine-built layers are
always valid; an external layer must carry `resize` and `refresh`. -/
def isLayerValid : Option Layer → Bool
  | none => false
  | some layer =>
    if layer.builtin then true
    else if ¬layer.hasResize ∨ ¬layer.hasRefresh then false
    else true

/-- The predecessor scan of `insertLayer`: `for (i = 0; i < len - 1; i++)
if (zlevelList[i] < zlevel && zlevelList[i+1] > zlevel) break;` — returns the
value of `i` when the loop stops (the loop body runs only while there is a
next entry). -/
def scanPos (zlevel : Rat) : List Rat → Nat
  | a :: b :: rest => if a < zlevel ∧ b > zlevel then 0 else scanPos zlevel (b :: rest) + 1
  | _ => 0

/-- `zlevelList.splice(idx, 0, zlevel)` for a non-negative index. -/
def spliceInsert (l : List Rat) (idx : Nat) (z : Rat) : List Rat :=
  l.take idx ++ z :: l.drop idx

/-- `util.indexOf(list, value)`: index of the first occurrence, `-1` if absent. -/
def jsIndexOf : List Rat → Rat → Int
  | [], _ => -1
  | a :: rest, z =>
    if a = z then 0
    else if jsIndexOf rest z = -1 then -1 else jsIndexOf rest z + 1

/-- `list.splice(start, 1)` with JS semantics: a negative start counts back
from the end (clamped at 0), a too-large start removes nothing. -/
def jsSpliceRemove1 (l : List Rat) (start : Int) : List Rat :=
  let s : Nat := if start < 0 then ((l.length : Int) + start).toNat else min start.toNat l.length
  l.take s ++ l.drop (s + 1)

/-- `insertLayer(zlevel, layer)`.  Returns the new state together with the
`util.logError` messages emitted.  The DOM attachment of the layer's canvas
is an external effect and is not part of the state. -/
def insertLayer (p : Painter) (zlevel : Rat) (layer : Layer) : Painter × List String :=
  if (alookup zlevel p.layers).isSome then
    (p, ["ZLevel " ++ toString zlevel ++ " has been used already"])
  else if ¬isLayerValid (some layer) then
    (p, ["Layer of zlevel " ++ toString zlevel ++ " is not valid"])
  else
    let i : Int :=
      match p.zlevelList with
      | [] => -1
      | z0 :: _ => if zlevel > z0 then (scanPos zlevel p.zlevelList : Int) else -1
    ({ p with
        zlevelList := spliceInsert p.zlevelList (i + 1).toNat zlevel,
        layers := aset zlevel layer p.layers }, [])

/-- `delLayer(zlevel)`: no-op when the layer is absent, else removes the map
entry and splices the key out of the z-level list. -/
def delLayer (p : Painter) (zlevel : Rat) : Painter :=
  match alookup zlevel p.layers with
  | none => p
  | some _ =>
    { p with
        layers := aremove zlevel p.layers,
        zlevelList := jsSpliceRemove1 p.zlevelList (jsIndexOf p.zlevelList zlevel) }

/-! ### getLayer (lines 501–528) -/

/-- `getLayer(zlevel, virtual)`.  On a single canvas without manual
compositing the requested z-level is replaced by `CANVAS_ZLEVEL`.  A missing
layer is created engine-built, merged with any pending per-zlevel config,
optionally marked virtual, and inserted.  Returns the new state and the key
under which the returned layer lives in the map. -/
def getLayer (p : Painter) (zlevel : Rat) (virtual : Bool) : Painter × Rat :=
  let z := if p.singleCanvas ∧ ¬p.needsManuallyCompositing then CANVAS_ZLEVEL else zlevel
  match alookup z p.layers with
  | some _ => (p, z)
  | none =>
    let l1 := { Layer.new ("zr_" ++ toString z) with zlevel := z, builtin := true }
    let l2 :=
      match alookup z p.layerConfig with
      | some cfg => mergeConfigIntoLayer l1 cfg
      | none => l1
    let l3 := if virtual then { l2 with virtual := true } else l2
    ((insertLayer p z l3).1, z)

/-! ### configLayer (lines 743–761) -/

/-- The walk over `_zlevelList` inside `configLayer`: merge the stored
config into the layer found at `zlevel` or at
`zlevel + EL_AFTER_INCREMENTAL_INC`. -/
def configApply (zlevel : Rat) (lc : LayerConfig) (zs : List Rat)
    (m : List (Rat × Layer)) : List (Rat × Layer) :=
  zs.foldl
    (fun acc z =>
      if z = zlevel ∨ z = zlevel + EL_AFTER_INCREMENTAL_INC then
        amodify z (fun L => mergeConfigIntoLayer L lc) acc
      else acc)
    m

/-- `configLayer(zlevel, config)`: merge the config into the stored
per-zlevel configuration, then merge the stored configuration into every
existing layer whose key is `zlevel` or `zlevel + EL_AFTER_INCREMENTAL_INC`. -/
def configLayer (p : Painter) (zlevel : Rat) (config : Option LayerConfig) : Painter :=
  match config with
  | none => p
  | some cfg =>
    let lc :=
      match alookup zlevel p.layerConfig with
      | none => cfg
      | some old => mergeConfig old cfg
    { p with
        layerConfig := aset zlevel lc p.layerConfig,
        layers := configApply zlevel lc p.zlevelList p.layers }

/-! ### _updateLayerStatus (lines 634–722) -/

/-- One `eachBuiltinLayer` sweep applying `f` to every engine-built layer
reachable through the z-level list. -/
def modifyAll (f : Layer → Layer) (zs : List Rat) (m : List (Rat × Layer)) : List (Rat × Layer) :=
  zs.foldl (fun acc z => amodify z (fun L => if L.builtin then f L else L) acc) m

def eachBuiltinMap (f : Layer → Layer) (p : Painter) : Painter :=
  { p with layers := modifyAll f p.zlevelList p.layers }

/-- The single-canvas scan: manual compositing becomes necessary as soon as
two adjacent elements live on different z-levels or an element (beyond the
first) is incremental. -/
def mcScan : Element → List Element → Bool
  | _, [] => false
  | prevEl, el :: rest =>
    if el.zlevel ≠ prevEl.zlevel ∨ el.incremental then true else mcScan el rest

/-- The mutation `updatePrevLayer` applies to the previous layer: mark dirty
when the recorded `__endIndex` differs from the closing index, then store it. -/
def closeUpd (idx : Int) (L : Layer) : Layer :=
  { L with dirty := if L.endIndex ≠ idx then true else L.dirty, endIndex := idx }

/-- `updatePrevLayer(idx)`: close out the previous layer's `__endIndex`,
marking it dirty when the end moved. -/
def updatePrevLayer (layers : List (Rat × Layer)) (prev : Option Rat) (idx : Int) :
    List (Rat × Layer) :=
  match prev with
  | none => layers
  | some k => amodify k (closeUpd idx) layers

/-- The mutations applied to a layer when it opens a new run at index `i`
(lines 684–696): mark it used, dirty when its start moved, store the new
start, and reset the draw index (`i` for plain layers, the `-1` sentinel for
incremental ones). -/
def runOpenUpd (i : Nat) (L : Layer) : Layer :=
  let L1 := { L with used := true }
  let L2 := if L1.startIndex ≠ (i : Int) then { L1 with dirty := true } else L1
  let L3 := { L2 with startIndex := (i : Int) }
  if ¬L3.incremental then { L3 with drawIndex := (i : Int) }
  else { L3 with drawIndex := -1 }

/-- The mutations applied to a layer holding a dirty element (lines 700–706):
mark the layer dirty, and let a sentinel-valued incremental layer start its
draw from this first dirty element. -/
def elDirtyUpd (i : Nat) (L : Layer) : Layer :=
  let L1 := { L with dirty := true }
  if L1.incremental ∧ L1.drawIndex < 0 then { L1 with drawIndex := (i : Int) } else L1

/-- The transformation one classification step applies to the layer map,
given the resolved key of the current element and the previous layer's key:
mark the layer incremental when the element is, open a new run (and close the
previous layer) when the layer changed, account for element dirtiness. -/
def stepLayers (key : Rat) (prevO : Option Rat) (i : Nat) (el : Element)
    (m : List (Rat × Layer)) : List (Rat × Layer) :=
  let lay1 :=
    if el.incremental then amodify key (fun L => { L with incremental := true }) m else m
  let runChanged : Bool := decide (some key ≠ prevO)
  let lay2 :=
    if runChanged then
      updatePrevLayer (amodify key (runOpenUpd i) lay1) prevO (i : Int)
    else lay1
  if el.dirty then amodify key (elDirtyUpd i) lay2 else lay2

/-- Loop state of the classification walk: the painter, the key of
`prevLayer` (reference identity of layers in the map coincides with key
identity), and `incrementalLayerCount`. -/
structure CAcc where
  p : Painter
  prev : Option Rat
  incCount : Nat
deriving Repr

/-- Body of the classification walk for the element at index `i`.  Mirrors
lines 662–707: resolve the element's layer (with the incremental /
post-incremental fractional offsets), mark incremental layers, open a new
run when the layer changes (setting `__used`, `__startIndex`, `__drawIndex`
and closing the previous layer), and account for element dirtiness. -/
def classifyStep (acc : CAcc) (i : Nat) (el : Element) : CAcc :=
  let fetch :=
    if el.incremental then
      getLayer acc.p (el.zlevel + INCREMENTAL_INC) acc.p.needsManuallyCompositing
    else
      getLayer acc.p
        (el.zlevel + (if acc.incCount > 0 then EL_AFTER_INCREMENTAL_INC else 0))
        acc.p.needsManuallyCompositing
  let key := fetch.2
  let inc1 : Nat := if el.incremental then 1 else acc.incCount
  let runChanged : Bool := decide (some key ≠ acc.prev)
  let prev2 := if runChanged then some key else acc.prev
  { p := { fetch.1 with layers := stepLayers key acc.prev i el fetch.1.layers },
    prev := prev2, incCount := inc1 }

def classifyLoop (acc : CAcc) (i : Nat) : List Element → CAcc
  | [] => acc
  | el :: rest => classifyLoop (classifyStep acc i el) (i + 1) rest

/-- The post-walk `eachBuiltinLayer` sweep (lines 711–721): a layer used in a
previous frame but no longer used, and still holding elements, is collapsed
to an empty dirty range; a dirty layer whose draw index is still the `-1`
sentinel falls back to its start index. -/
def sweepLayer (L : Layer) : Layer :=
  let L1 :=
    if ¬L.used ∧ Layer.getElementCount L > 0 then
      { L with dirty := true, startIndex := 0, endIndex := 0, drawIndex := 0 }
    else L
  if L1.dirty ∧ L1.drawIndex < 0 then { L1 with drawIndex := L1.startIndex } else L1

/-- `_updateLayerStatus(list)`. -/
def updateLayerStatus (p : Painter) (list : List Element) : Painter :=
  let pR := eachBuiltinMap (fun L => { L with dirty := false, used := false }) p
  let mc := pR.needsManuallyCompositing ||
    (pR.singleCanvas &&
      match list with
      | [] => false
      | e0 :: rest => mcScan e0 rest)
  let pM := { pR with needsManuallyCompositing := mc }
  let acc := classifyLoop { p := pM, prev := none, incCount := 0 } 0 list
  let pE := { acc.p with layers := updatePrevLayer acc.p.layers acc.prev (list.length : Int) }
  eachBuiltinMap sweepLayer pE

/-! ### _doPaintList (lines 394–481) -/

/-- The layers repainted by `_doPaintList`: engine-built, not the hover
layer, dirty unless `paintAll` forces everything. -/
def buildLayerList (p : Painter) (paintAll : Bool) : List Rat :=
  p.zlevelList.filter fun z =>
    match alookup z p.layers with
    | some L => L.builtin && decide (p.hoverZ ≠ some z) && (L.dirty || paintAll)
    | none => false

/-- `list[i]` with JS out-of-range access made explicit. -/
def listGet (list : List Element) (i : Int) : Option Element :=
  if i < 0 then none else list.get? i.toNat

/-- The element loop of `_doPaintList` (lines 442–455) for one layer, fuelled
by the number of remaining indices.  `dt j` is the elapsed time
`Date.now() - startTime` observed after the `j`-th paint of this call; once
it exceeds the 15 ms budget the loop breaks after the element just painted.
Returns the final value of `i` (assigned to `__drawIndex`) and the brush
events. -/
def paintLoopGo (doBrush useTimer : Bool) (dt : Nat → Nat) : Nat → Int → Nat → Int × List PaintEv
  | 0, i, _ => (i, [])
  | fuel + 1, i, j =>
    let evs : List PaintEv := if doBrush then [PaintEv.paintEl i] else []
    if useTimer ∧ dt j > 15 then (i, evs)
    else
      let r := paintLoopGo doBrush useTimer dt fuel (i + 1) (j + 1)
      (r.1, evs ++ r.2)

def paintLoop (doBrush useTimer : Bool) (dt : Nat → Nat) (endIdx start : Int) :
    Int × List PaintEv :=
  paintLoopGo doBrush useTimer dt (endIdx - start).toNat start 0

/-- Accumulator of `_doPaintList`: painter state, emitted events, and the
`finished` flag. -/
structure PaintAcc where
  p : Painter
  evs : List PaintEv
  finished : Bool
deriving Repr

/-- `let start = paintAll ? layer.__startIndex : layer.__drawIndex` (line 420). -/
def resolvedStart0 (paintAll : Bool) (L : Layer) : Int :=
  if paintAll then L.startIndex else L.drawIndex

/-- The starting index after the `-1` sentinel recovery (lines 437–440). -/
def resolvedStart (paintAll : Bool) (L : Layer) : Int :=
  if resolvedStart0 paintAll L = -1 then L.startIndex else resolvedStart0 paintAll L

/-- `useTimer = !paintAll && layer.incremental && Date.now` (line 422). -/
def layerUseTimer (paintAll : Bool) (L : Layer) : Bool :=
  decide (¬paintAll) && L.incremental

/-- The clear decision for one layer (lines 425–436): clear when the layer's
range is empty, or when painting starts at `__startIndex` and the first
element is not a keep-contents incremental element (or `paintAll` forces). -/
def layerClearEvs (list : List Element) (paintAll : Bool) (z : Rat) (L : Layer) :
    List PaintEv :=
  if L.startIndex = L.endIndex then [PaintEv.clear z]
  else if resolvedStart0 paintAll L = L.startIndex then
    match listGet list (resolvedStart0 paintAll L) with
    | some firstEl =>
      if ¬firstEl.incremental ∨ ¬firstEl.notClear ∨ paintAll then [PaintEv.clear z] else []
    | none => []
  else []

/-- The `console.error` emitted when the starting index is the `-1` sentinel. -/
def layerErrEvs (paintAll : Bool) (L : Layer) : List PaintEv :=
  if resolvedStart0 paintAll L = -1 then
    [PaintEv.logErr "For some unknown reason. drawIndex is -1"]
  else []

/-- The element loop of one layer: result index and brush events. -/
def layerPaintRes (paintAll : Bool) (clock : Rat → Nat → Nat) (z : Rat) (L : Layer) :
    Int × List PaintEv :=
  paintLoop (L.dirty || paintAll) (layerUseTimer paintAll L) (clock z) L.endIndex
    (resolvedStart paintAll L)

/-- The value stored into `layer.__drawIndex` after the element loop. -/
def layerPaintedDraw (paintAll : Bool) (clock : Rat → Nat → Nat) (z : Rat) (L : Layer) : Int :=
  (layerPaintRes paintAll clock z L).1

/-- All events emitted while processing one layer of `_doPaintList`. -/
def paintLayerEvents (list : List Element) (paintAll : Bool) (clock : Rat → Nat → Nat)
    (z : Rat) (L : Layer) : List PaintEv :=
  layerClearEvs list paintAll z L ++ layerErrEvs paintAll L ++ (layerPaintRes paintAll clock z L).2

/-- Processing of one layer inside `_doPaintList`: choose the starting index
(`__startIndex` under `paintAll`, else the resume point `__drawIndex`),
decide whether to clear, recover from the `-1` sentinel, run the element
loop, store the final index into `__drawIndex` and update `finished`. -/
def paintOneLayer (list : List Element) (paintAll : Bool) (clock : Rat → Nat → Nat)
    (acc : PaintAcc) (z : Rat) : PaintAcc :=
  match alookup z acc.p.layers with
  | none => acc
  | some L =>
    let d := layerPaintedDraw paintAll clock z L
    { p := { acc.p with layers := amodify z (fun L0 => { L0 with drawIndex := d }) acc.p.layers },
      evs := acc.evs ++ paintLayerEvents list paintAll clock z L,
      finished := acc.finished && decide (L.endIndex ≤ d) }

/-- `_doPaintList(list, paintAll)` with a clock oracle (per layer key, per
paint). -/
def doPaintList (p : Painter) (list : List Element) (paintAll : Bool)
    (clock : Rat → Nat → Nat) : PaintAcc :=
  (buildLayerList p paintAll).foldl (paintOneLayer list paintAll clock)
    { p := p, evs := [], finished := true }

/-! ### _paintList / refresh (lines 237–260, 358–379) -/

/-- `_paintList(list, paintAll, redrawId)` with explicit fuel standing in for
the chain of `requestAnimationFrame` continuations; `clocks f` is the clock
of the frame executed with `f` units of fuel left.  A stale generation token
returns immediately.  The returned flag is true when no continuation remains
pending (finished, or abandoned by the token check). -/
def paintListN (list : List Element) (paintAll : Bool) (redrawId : Nat)
    (clocks : Nat → Rat → Nat → Nat) : Nat → Painter → Painter × List PaintEv × Bool
  | 0, p => (p, [], false)
  | fuel + 1, p =>
    if p.redrawId ≠ redrawId then (p, [], true)
    else
      let q := updateLayerStatus p list
      let acc := doPaintList q list paintAll (clocks fuel)
      if acc.finished then (acc.p, acc.evs, true)
      else
        let r := paintListN list paintAll redrawId clocks fuel acc.p
        (r.1, acc.evs ++ r.2.1, r.2.2)

/-- `refresh(paintAll)` restricted to the engine state: stamp a fresh
generation token (`Math.random()` modelled as the supplied `newId`) and run
`_paintList`.  The repaint of non-builtin custom layers and `refreshHover`
only invoke external surface callbacks (and are identities on the modelled
state when no hover elements exist), so they do not appear here. -/
def refresh (p : Painter) (list : List Element) (newId : Nat) (paintAll : Bool)
    (clocks : Nat → Rat → Nat → Nat) (fuel : Nat) : Painter × List PaintEv × Bool :=
  paintListN list paintAll newId clocks fuel { p with redrawId := newId }

/-- Iterated `_doPaintList` calls of one time-sliced pass (the paint call and
its continuations, with no clear and no reclassification in between), one
clock per frame. -/
def doPaintChain (list : List Element) : List (Rat → Nat → Nat) → Painter →
    Painter × List PaintEv × List Int
  | [], p => (p, [], [])
  | c :: rest, p =>
    let acc := doPaintList p list false c
    let d : List Int :=
      match alookup (match p.zlevelList with | [] => 0 | z :: _ => z) acc.p.layers with
      | some L => [L.drawIndex]
      | none => []
    if acc.finished then (acc.p, acc.evs, d)
    else
      let r := doPaintChain list rest acc.p
      (r.1, acc.evs ++ r.2.1, d ++ r.2.2)

/-! ### The single-canvas constructor branch (lines 169–204) -/

/-- The painter state built by the constructor when the root is itself a
canvas: one engine-built main layer stored under the reserved key
`CANVAS_ZLEVEL`, which is also pushed onto the z-level list. -/
def mkSingleCanvasPainter : Painter :=
  let mainLayer := { Layer.new "main" with builtin := true, zlevel := CANVAS_ZLEVEL }
  { singleCanvas := true, needsManuallyCompositing := false,
    zlevelList := [CANVAS_ZLEVEL], layers := [(CANVAS_ZLEVEL, mainLayer)],
    layerConfig := [], redrawId := 0, hoverZ := none }

/-! ### Specification-side functions (resolved keys, runs, wellformedness) -/

/-- The z-level key the classification walk resolves for an element:
its own `zlevel`, nudged by `INCREMENTAL_INC` for incremental elements or by
`EL_AFTER_INCREMENTAL_INC` for non-incremental elements following an
incremental one (`seen`), then collapsed to `CANVAS_ZLEVEL` by `getLayer` on
a single canvas without manual compositing. -/
def elKey (single mc seen : Bool) (el : Element) : Rat :=
  let base :=
    if el.incremental then el.zlevel + INCREMENTAL_INC
    else el.zlevel + (if seen then EL_AFTER_INCREMENTAL_INC else 0)
  if single ∧ ¬mc then CANVAS_ZLEVEL else base

/-- Whether any element of the list is incremental. -/
def anyInc (l : List Element) : Bool :=
  l.any (fun el => el.incremental)

/-- The sequence of resolved keys of a display list. -/
def elKeys (single mc : Bool) : Bool → List Element → List Rat
  | _, [] => []
  | seen, el :: rest => elKey single mc seen el :: elKeys single mc (seen || el.incremental) rest

/-- The manual-compositing flag in force during the classification walk. -/
def mcAfter (p : Painter) (list : List Element) : Bool :=
  p.needsManuallyCompositing ||
    (p.singleCanvas &&
      match list with
      | [] => false
      | e0 :: rest => mcScan e0 rest)

/-- Index of the first occurrence of a key (list length if absent). -/
def firstIdx (k : Rat) : List Rat → Nat
  | [] => 0
  | k0 :: rest => if k0 = k then 0 else firstIdx k rest + 1

/-- Index of the last occurrence of a key (0 if absent). -/
def lastIdx (k : Rat) : List Rat → Nat
  | [] => 0
  | _ :: rest => if k ∈ rest then lastIdx k rest + 1 else 0

/-- A key sequence is contiguous when the occurrences of every key form one
consecutive block (elements assigned to the same layer are adjacent in the
display list).  Lists produced by the depth sort with well-separated
z-levels have this shape; the fractional-offset scheme can break it. -/
def Contig (ks : List Rat) : Prop :=
  ∀ k ∈ ks, ∀ j ∈ List.range ks.length,
    firstIdx k ks ≤ j → j ≤ lastIdx k ks → ks.getD j 0 = k

instance (ks : List Rat) : Decidable (Contig ks) := by
  unfold Contig
  infer_instance

/-! ### Concrete fixtures used by witnesses and counterexamples -/

/-- A painter holding three engine-built layers at a base z-level and its two
fractional sub-keys. -/
def fixtureConfigPainter : Painter :=
  { zlevelList := [2, 2 + INCREMENTAL_INC, 2 + EL_AFTER_INCREMENTAL_INC],
    layers := [(2, { Layer.new "a" with builtin := true }),
      (2 + INCREMENTAL_INC, { Layer.new "b" with builtin := true }),
      (2 + EL_AFTER_INCREMENTAL_INC, { Layer.new "c" with builtin := true })] }

/-- A painter with a sorted two-entry z-level list. -/
def fixtureSortedPainter : Painter :=
  { zlevelList := [1, 3],
    layers := [(1, { Layer.new "a" with builtin := true }),
      (3, { Layer.new "b" with builtin := true })] }

/-- A dirty engine-built layer whose draw index is the `-1` sentinel. -/
def fixtureSentinelLayer : Layer :=
  { Layer.new "s" with
      builtin := true, dirty := true, startIndex := 0, endIndex := 1, drawIndex := -1 }

/-- A painter holding `fixtureSentinelLayer`. -/
def fixtureSentinelPainter : Painter :=
  { zlevelList := [0], layers := [(0, fixtureSentinelLayer)] }

/-- A dirty incremental engine-built layer owning the element range `[0, 2)`. -/
def fixtureIncLayer : Layer :=
  { Layer.new "inc" with
      builtin := true, incremental := true, dirty := true,
      startIndex := 0, endIndex := 2, drawIndex := 0 }

/-- A painter holding only `fixtureIncLayer`. -/
def fixtureIncPainter : Painter :=
  { zlevelList := [0], layers := [(0, fixtureIncLayer)] }

/-- An incremental element that asks not to be cleared between frames. -/
def incEl : Element :=
  { zlevel := 0, incremental := true, notClear := true, dirty := true }

/-- A two-element incremental display list. -/
def incList2 : List Element := [incEl, incEl]

/-- A frame clock that exceeds the 15 ms budget right after the first paint. -/
def clk16 : Rat → Nat → Nat := fun _ j => if j = 0 then 16 else 0

/-- A frame clock that never exceeds the budget. -/
def clkZero : Rat → Nat → Nat := fun _ _ => 0

/-- The key under which the classification walk files the current element:
the raw key with the incremental / post-incremental offsets, collapsed by
`getLayer` on a single canvas without manual compositing. -/
def stepKey (acc : CAcc) (el : Element) : Rat :=
  let raw :=
    if el.incremental then el.zlevel + INCREMENTAL_INC
    else el.zlevel + (if acc.incCount > 0 then EL_AFTER_INCREMENTAL_INC else 0)
  if acc.p.singleCanvas ∧ ¬acc.p.needsManuallyCompositing then CANVAS_ZLEVEL else raw

/-- The layer `getLayer` builds when the resolved key is missing. -/
def createdLayer (p : Painter) (z : Rat) (virtual : Bool) : Layer :=
  let l1 := { Layer.new ("zr_" ++ toString z) with zlevel := z, builtin := true }
  let l2 :=
    match alookup z p.layerConfig with
    | some cfg => mergeConfigIntoLayer l1 cfg
    | none => l1
  if virtual then { l2 with virtual := true } else l2

/-- The combined mutation one classification step applies to the current
element's layer. -/
def stepLayerUpd (acc : CAcc) (i : Nat) (el : Element) (L : Layer) : Layer :=
  let L1 := if el.incremental then { L with incremental := true } else L
  let L2 := if some (stepKey acc el) ≠ acc.prev then runOpenUpd i L1 else L1
  if el.dirty then elDirtyUpd i L2 else L2

/-- The per-zlevel configuration stored by `configLayer(zlevel, config)`. -/
def storedConfigAfter (p : Painter) (zlevel : Rat) (cfg : LayerConfig) : LayerConfig :=
  match alookup zlevel p.layerConfig with
  | none => cfg
  | some old => mergeConfig old cfg

/-- Wellformedness of the painter state maintained by the engine: the
z-level list carries no duplicates and enumerates exactly the keys of the
layer map, and every layer in the map is engine-built. -/
def WF (p : Painter) : Prop :=
  p.zlevelList.Nodup ∧
  (∀ k ∈ p.zlevelList, (alookup k p.layers).isSome = true) ∧
  (∀ e ∈ p.layers, e.1 ∈ p.zlevelList) ∧
  (∀ e ∈ p.layers, e.2.builtin = true)

instance (p : Painter) : Decidable (WF p) := by
  unfold WF
  infer_instance

/-- The z-level list and the layer map stay synchronised: no duplicate
z-levels, and a key is listed exactly when a layer is stored under it. -/
def MapSync (p : Painter) : Prop :=
  p.zlevelList.Nodup ∧
  ∀ k : Rat, k ∈ p.zlevelList ↔ (alookup k p.layers).isSome = true

/-- Invariant of the layer currently receiving elements during the
classification walk (its key is the walk's `prevLayer`), with `i` the index
of the next element: the recorded start lies strictly before `i`, and the
draw index is the `-1` sentinel or lies between the start and the last
processed index. -/
def OpenOK (i : Nat) (L : Layer) : Prop :=
  0 ≤ L.startIndex ∧ L.startIndex + 1 ≤ (i : Int) ∧
  (L.drawIndex = -1 ∨ (L.startIndex ≤ L.drawIndex ∧ L.drawIndex + 1 ≤ (i : Int)))

/-- Invariant of a layer not currently receiving elements: when dirty, its
range is well formed and its draw index is the sentinel or inside the
range. -/
def SettledOK (L : Layer) : Prop :=
  L.dirty = true →
    0 ≤ L.startIndex ∧ L.startIndex ≤ L.endIndex ∧
    (L.drawIndex = -1 ∨ (L.startIndex ≤ L.drawIndex ∧ L.drawIndex ≤ L.endIndex))

/-- The classification walk's loop invariant over the whole layer map. -/
def ClassInv (acc : CAcc) (i : Nat) : Prop :=
  ∀ k L, alookup k acc.p.layers = some L →
    (acc.prev = some k → OpenOK i L) ∧ (acc.prev ≠ some k → SettledOK L)

/-- Invariant of the classification walk used to characterise the assigned
ranges: `m` is the layer map, `prevO` the key of the layer currently
receiving elements, `kpre` the resolved keys of the elements processed so
far, `keysAll` the resolved keys of the whole display list.  Every key
already seen owns a used engine-built layer whose `__startIndex` is the first
occurrence of the key, and — once its run is over — whose `__endIndex` is one
past the last occurrence; a layer whose key was not seen is still unused. -/
def C1Inv (m : List (Rat × Layer)) (prevO : Option Rat)
    (kpre keysAll : List Rat) : Prop :=
  ∀ k : Rat,
    (k ∈ kpre →
      ∃ L, alookup k m = some L ∧ L.builtin = true ∧ L.used = true ∧
        L.startIndex = (firstIdx k keysAll : Int) ∧
        (prevO ≠ some k → L.endIndex = (lastIdx k keysAll : Int) + 1)) ∧
    (k ∉ kpre → ∀ L, alookup k m = some L → L.used = false ∧ L.builtin = true)

/-- Invariant of a **second** classification pass over an unchanged display
list: every resolved key already owns a layer carrying exactly the range the
first pass assigned, and the walk never needs to dirty anything.  `kpre` is
the prefix of keys the second walk has already re-opened. -/
def CleanInv (m : List (Rat × Layer)) (kpre keysAll : List Rat) : Prop :=
  ∀ k : Rat,
    (k ∈ keysAll →
      ∃ L, alookup k m = some L ∧ L.builtin = true ∧ L.dirty = false ∧
        L.startIndex = (firstIdx k keysAll : Int) ∧
        L.endIndex = (lastIdx k keysAll : Int) + 1 ∧
        (k ∈ kpre → L.used = true)) ∧
    (k ∉ keysAll → ∀ L, alookup k m = some L →
      L.builtin = true ∧ L.dirty = false ∧ L.used = false ∧ L.endIndex ≤ L.startIndex)

/-- A dirty plain (non-incremental) element. -/
def plainEl : Element := { zlevel := 0, incremental := false, notClear := false, dirty := true }

/-- A display list whose resolved keys are not contiguous: the incremental
elements resolve to `0 + 1/1000`, the plain element in between to `0 + 1/100`
(because an incremental layer was already seen), so the key sequence is
`[1/1000, 1/100, 1/1000]`. -/
def gapList : List Element := [incEl, plainEl, incEl]

/-- A painter holding no layers at all (the multi-canvas constructor branch
before any layer is created). -/
def blankPainter : Painter := {}

/-- A clean (non-dirty) incremental element. -/
def cleanIncEl : Element := { zlevel := 0, incremental := true, dirty := false }

/-- A clean plain (non-incremental) element. -/
def cleanPlainEl : Element := { zlevel := 0, incremental := false, notClear := false, dirty := false }

/-- The non-contiguous display list `gapList` with every element clean. -/
def cleanGapList : List Element := [cleanIncEl, cleanPlainEl, cleanIncEl]

/-- One clock per frame that never exceeds the budget. -/
def clocksZero : Nat → Rat → Nat → Nat := fun _ => clkZero


end ZRender

namespace ZRender

/-! ## Infrastructure lemmas about the association-list primitives -/

theorem alookup_aset_self {α : Type} (k : Rat) (v : α) (m : List (Rat × α)) :
    alookup k (aset k v m) = some v := by
  induction m with
  | nil => simp [aset, alookup]
  | cons hd tl ih =>
    obtain ⟨k', v'⟩ := hd
    by_cases h : k' = k
    · simp [aset, h, alookup]
    · simp [aset, h, alookup, ih]

theorem alookup_aset_ne {α : Type} {k k' : Rat} (h : k' ≠ k) (v : α) (m : List (Rat × α)) :
    alookup k (aset k' v m) = alookup k m := by
  induction m with
  | nil => simp [aset, alookup, h]
  | cons hd tl ih =>
    obtain ⟨k0, v0⟩ := hd
    by_cases h0 : k0 = k'
    · subst h0
      simp [aset, alookup, h]
    · by_cases h1 : k0 = k
      · simp [aset, h0, alookup, h1, Ne.symm h]
      · simp [aset, h0, alookup, h1, ih]

theorem alookup_amodify_self {α : Type} (k : Rat) (f : α → α) (m : List (Rat × α)) :
    alookup k (amodify k f m) = (alookup k m).map f := by
  induction m with
  | nil => simp [amodify, alookup]
  | cons hd tl ih =>
    obtain ⟨k', v'⟩ := hd
    by_cases h : k' = k
    · simp [amodify, h, alookup]
    · simp [amodify, h, alookup, ih]

theorem alookup_amodify_ne {α : Type} {k k' : Rat} (h : k' ≠ k) (f : α → α)
    (m : List (Rat × α)) : alookup k (amodify k' f m) = alookup k m := by
  induction m with
  | nil => simp [amodify, alookup]
  | cons hd tl ih =>
    obtain ⟨k0, v0⟩ := hd
    by_cases h0 : k0 = k'
    · subst h0
      simp [amodify, alookup, h]
    · by_cases h1 : k0 = k
      · simp [amodify, h0, alookup, h1, Ne.symm h]
      · simp [amodify, h0, alookup, h1, ih]

theorem alookup_amodify (α : Type) (k k' : Rat) (f : α → α) (m : List (Rat × α)) :
    alookup k (amodify k' f m) = if k' = k then (alookup k m).map f else alookup k m := by
  by_cases h : k' = k
  · subst h
    simp [alookup_amodify_self]
  · simp [h, alookup_amodify_ne h]

theorem alookup_aremove_self {α : Type} (k : Rat) (m : List (Rat × α))
    (hnd : (m.map Prod.fst).Nodup) : alookup k (aremove k m) = none := by
  induction m with
  | nil => simp [aremove, alookup]
  | cons hd tl ih =>
    obtain ⟨k', v'⟩ := hd
    simp only [List.map_cons, List.nodup_cons] at hnd
    by_cases h : k' = k
    · subst h
      simp only [aremove, if_pos rfl]
      clear ih
      induction tl with
      | nil => simp [alookup]
      | cons hd2 tl2 ih2 =>
        obtain ⟨k2, v2⟩ := hd2
        simp only [List.map_cons, List.mem_cons, List.nodup_cons] at hnd
        have hk2 : k2 ≠ k' := fun he => hnd.1 (Or.inl he.symm)
        have : alookup k' tl2 = none := by
          refine ih2 ⟨fun hm => hnd.1 (Or.inr hm), hnd.2.2⟩
        simpa [alookup, fun he => hk2 he] using this
    · simp [aremove, h, alookup, h, ih hnd.2]

theorem alookup_aremove_ne {α : Type} {k k' : Rat} (h : k' ≠ k) (m : List (Rat × α)) :
    alookup k (aremove k' m) = alookup k m := by
  induction m with
  | nil => simp [aremove, alookup]
  | cons hd tl ih =>
    obtain ⟨k0, v0⟩ := hd
    by_cases h0 : k0 = k'
    · subst h0
      simp [aremove, alookup, h]
    · by_cases h1 : k0 = k
      · simp [aremove, h0, alookup, h1, Ne.symm h]
      · simp [aremove, h0, alookup, h1, ih]

theorem alookup_mem {α : Type} {k : Rat} {m : List (Rat × α)} {v : α}
    (h : alookup k m = some v) : (k, v) ∈ m := by
  induction m with
  | nil => simp [alookup] at h
  | cons hd tl ih =>
    obtain ⟨k', v'⟩ := hd
    by_cases h0 : k' = k
    · subst h0
      simp only [alookup, if_true, Option.some.injEq, eq_self_iff_true] at h
      rw [← h]
      exact List.mem_cons_self _ _
    · exact List.mem_cons.2 (Or.inr (ih (by simpa [alookup, h0] using h)))

theorem alookup_isSome_of_mem {α : Type} {k : Rat} {m : List (Rat × α)} {v : α}
    (h : (k, v) ∈ m) : (alookup k m).isSome = true := by
  induction m with
  | nil => simp at h
  | cons hd tl ih =>
    obtain ⟨k', v'⟩ := hd
    by_cases h0 : k' = k
    · simp [alookup, h0]
    · rcases List.mem_cons.1 h with h1 | h2
      · exact absurd (congrArg Prod.fst h1).symm h0
      · simpa [alookup, h0] using ih h2

/-! ## Lemmas about `modifyAll` (the `eachBuiltinLayer` sweeps) -/

theorem modifyAll_nil (f : Layer → Layer) (m : List (Rat × Layer)) :
    modifyAll f [] m = m := rfl

theorem modifyAll_cons (f : Layer → Layer) (z : Rat) (zs : List Rat) (m : List (Rat × Layer)) :
    modifyAll f (z :: zs) m =
      modifyAll f zs (amodify z (fun L => if L.builtin then f L else L) m) := rfl

theorem alookup_modifyAll_notMem {f : Layer → Layer} {zs : List Rat} {k : Rat}
    (h : k ∉ zs) (m : List (Rat × Layer)) :
    alookup k (modifyAll f zs m) = alookup k m := by
  induction zs generalizing m with
  | nil => rfl
  | cons z rest ih =>
    have hz : z ≠ k := fun he => h (by simp [he])
    rw [modifyAll_cons, ih (fun hm => h (List.mem_cons.2 (Or.inr hm))),
      alookup_amodify_ne hz]

theorem alookup_modifyAll_mem {f : Layer → Layer} {zs : List Rat} {k : Rat}
    (hnd : zs.Nodup) (h : k ∈ zs) (m : List (Rat × Layer)) :
    alookup k (modifyAll f zs m) =
      (alookup k m).map (fun L => if L.builtin then f L else L) := by
  induction zs generalizing m with
  | nil => simp at h
  | cons z rest ih =>
    simp only [List.nodup_cons] at hnd
    rw [modifyAll_cons]
    by_cases hk : k = z
    · subst hk
      rw [alookup_modifyAll_notMem hnd.1, alookup_amodify_self]
    · have hmem : k ∈ rest := by
        rcases List.mem_cons.1 h with h1 | h2
        · exact absurd h1 hk
        · exact h2
      rw [ih hnd.2 hmem, alookup_amodify_ne (fun he => hk he.symm)]

/-! ## Shape lemmas: which painter fields each operation can touch -/

theorem insertLayer_shape (p : Painter) (zlevel : Rat) (layer : Layer) :
    ∃ zs ls, (insertLayer p zlevel layer).1 = { p with zlevelList := zs, layers := ls } := by
  unfold insertLayer
  split
  · exact ⟨p.zlevelList, p.layers, rfl⟩
  · split
    · exact ⟨p.zlevelList, p.layers, rfl⟩
    · exact ⟨_, _, rfl⟩

theorem getLayer_shape (p : Painter) (zlevel : Rat) (virtual : Bool) :
    ∃ zs ls, (getLayer p zlevel virtual).1 = { p with zlevelList := zs, layers := ls } := by
  unfold getLayer
  cases hl : alookup (if p.singleCanvas ∧ ¬p.needsManuallyCompositing then CANVAS_ZLEVEL
      else zlevel) p.layers with
  | some L =>
    simp only [hl]
    exact ⟨p.zlevelList, p.layers, rfl⟩
  | none =>
    simp only [hl]
    exact insertLayer_shape p _ _

theorem classifyStep_shape (acc : CAcc) (i : Nat) (el : Element) :
    ∃ zs ls, (classifyStep acc i el).p = { acc.p with zlevelList := zs, layers := ls } := by
  obtain ⟨zs1, ls1, h1⟩ := getLayer_shape acc.p
    (el.zlevel + INCREMENTAL_INC) acc.p.needsManuallyCompositing
  obtain ⟨zs2, ls2, h2⟩ := getLayer_shape acc.p
    (el.zlevel + (if acc.incCount > 0 then EL_AFTER_INCREMENTAL_INC else 0))
    acc.p.needsManuallyCompositing
  unfold classifyStep
  by_cases hinc : el.incremental
  · simp only [hinc, if_true, h1]
    exact ⟨_, _, rfl⟩
  · simp only [hinc, Bool.false_eq_true, if_false, h2]
    exact ⟨_, _, rfl⟩

theorem classifyLoop_shape (list : List Element) :
    ∀ (acc : CAcc) (i : Nat),
      ∃ zs ls, (classifyLoop acc i list).p = { acc.p with zlevelList := zs, layers := ls } := by
  induction list with
  | nil => intro acc i; exact ⟨acc.p.zlevelList, acc.p.layers, rfl⟩
  | cons el rest ih =>
    intro acc i
    obtain ⟨zs1, ls1, h1⟩ := classifyStep_shape acc i el
    obtain ⟨zs2, ls2, h2⟩ := ih (classifyStep acc i el) (i + 1)
    refine ⟨zs2, ls2, ?_⟩
    rw [show classifyLoop acc i (el :: rest) = classifyLoop (classifyStep acc i el) (i + 1) rest
      from rfl, h2, h1]

theorem updateLayerStatus_shape (p : Painter) (list : List Element) :
    ∃ zs ls mc, updateLayerStatus p list =
      { p with zlevelList := zs, layers := ls, needsManuallyCompositing := mc } := by
  unfold updateLayerStatus
  obtain ⟨zs, ls, h⟩ := classifyLoop_shape list
    { p := { p with
        needsManuallyCompositing := p.needsManuallyCompositing ||
          (p.singleCanvas &&
            match list with
            | [] => false
            | e0 :: rest => mcScan e0 rest),
        layers := modifyAll (fun L => { L with dirty := false, used := false })
          p.zlevelList p.layers },
      prev := none, incCount := 0 } 0
  simp only [eachBuiltinMap]
  rw [h]
  exact ⟨_, _, _, rfl⟩

theorem doPaintList_shape (p : Painter) (list : List Element) (paintAll : Bool)
    (clock : Rat → Nat → Nat) :
    ∃ ls, (doPaintList p list paintAll clock).p = { p with layers := ls } := by
  unfold doPaintList
  have main : ∀ (zs : List Rat) (acc : PaintAcc),
      ∃ ls, (zs.foldl (paintOneLayer list paintAll clock) acc).p = { acc.p with layers := ls } := by
    intro zs
    induction zs with
    | nil => intro acc; exact ⟨acc.p.layers, rfl⟩
    | cons z rest ih =>
      intro acc
      obtain ⟨ls2, h2⟩ := ih (paintOneLayer list paintAll clock acc z)
      refine ⟨ls2, ?_⟩
      rw [List.foldl_cons, h2]
      unfold paintOneLayer
      cases alookup z acc.p.layers with
      | none => rfl
      | some L => rfl
  exact main (buildLayerList p paintAll) _

theorem paintListN_redrawId (list : List Element) (paintAll : Bool) (redrawId : Nat)
    (clocks : Nat → Rat → Nat → Nat) :
    ∀ (fuel : Nat) (p : Painter),
      ((paintListN list paintAll redrawId clocks fuel p).1).redrawId = p.redrawId := by
  intro fuel
  induction fuel with
  | zero => intro p; rfl
  | succ n ih =>
    intro p
    unfold paintListN
    by_cases h : p.redrawId ≠ redrawId
    · simp [h]
    · simp only [if_neg h]
      obtain ⟨zs, ls, mc, hu⟩ := updateLayerStatus_shape p list
      obtain ⟨ls2, hd⟩ := doPaintList_shape (updateLayerStatus p list) list paintAll (clocks n)
      split
      · show (doPaintList (updateLayerStatus p list) list paintAll
            (clocks n)).p.redrawId = p.redrawId
        rw [hd, hu]
      · show (paintListN list paintAll redrawId clocks n
            (doPaintList (updateLayerStatus p list) list paintAll
              (clocks n)).p).1.redrawId = p.redrawId
        rw [ih, hd, hu]

/-! ## C3: a stale rescheduled continuation abandons itself -/

/-- C3: a pending `_paintList` continuation carries the generation token
(`redrawId`) captured when its refresh began; `refresh` stamps a fresh token
(line 243), so once a new top-level refresh has stamped a different token,
the continuation's guard `this._redrawId !== redrawId` (lines 359–361) makes
it return immediately: the painter state is untouched (no classification)
and no events — in particular no element paints — are emitted.  The second
conjunct records that a refresh stamps its own token on the state, so any
state descending from a newer refresh carries that newer token. -/
theorem c3_stale_continuation_is_noop (list : List Element) (paintAll : Bool)
    (redrawId : Nat) (clocks : Nat → Rat → Nat → Nat) (fuel : Nat) (p : Painter)
    (h : p.redrawId ≠ redrawId) :
    paintListN list paintAll redrawId clocks (fuel + 1) p = (p, [], true) ∧
    (∀ (q : Painter) (list2 : List Element) (newId : Nat) (paintAll2 : Bool)
       (clocks2 : Nat → Rat → Nat → Nat) (fuel2 : Nat),
       ((refresh q list2 newId paintAll2 clocks2 fuel2).1).redrawId = newId) := by
  constructor
  · unfold paintListN
    simp [h]
  · intro q list2 newId paintAll2 clocks2 fuel2
    unfold refresh
    rw [paintListN_redrawId]

theorem c3_witness :
    ({ redrawId := 7 } : Painter).redrawId ≠ 3 ∧
    paintListN [] false 3 (fun _ _ _ => 0) 1 ({ redrawId := 7 } : Painter) =
      (({ redrawId := 7 } : Painter), [], true) := by
  refine ⟨by decide, ?_⟩
  exact (c3_stale_continuation_is_noop [] false 3 (fun _ _ _ => 0) 0
    ({ redrawId := 7 } : Painter) (by decide)).1

/-! ## C6: insertLayer error cases are logged no-ops -/

/-- C6: `insertLayer(zlevel, layer)` with an already-used key, or with a
layer that is not engine-built and lacks `resize` or `refresh`, logs one
error (lines 539–547) and leaves the painter — in particular the layer map
and the z-level list — completely unchanged. -/
theorem c6_insertLayer_error_is_logged_noop (p : Painter) (zlevel : Rat) (layer : Layer)
    (h : (alookup zlevel p.layers).isSome = true ∨
      (layer.builtin = false ∧ (layer.hasResize = false ∨ layer.hasRefresh = false))) :
    (insertLayer p zlevel layer).1 = p ∧ (insertLayer p zlevel layer).2.length = 1 := by
  by_cases h1 : (alookup zlevel p.layers).isSome
  · unfold insertLayer
    simp [h1]
  · have h2 : isLayerValid (some layer) = false := by
      rcases h with h | ⟨hb, hr⟩
      · exact absurd h h1
      · rcases hr with hr | hr <;> simp [isLayerValid, hb, hr]
    unfold insertLayer
    simp [h1, h2]

theorem c6_witness :
    (((alookup 3 ({ layers := [(3, Layer.new "a")] } : Painter).layers).isSome = true ∨
      ((Layer.new "b").builtin = false ∧
        ((Layer.new "b").hasResize = false ∨ (Layer.new "b").hasRefresh = false))) ∧
     (insertLayer ({ layers := [(3, Layer.new "a")] } : Painter) 3 (Layer.new "b")).1 =
       ({ layers := [(3, Layer.new "a")] } : Painter) ∧
     (insertLayer ({ layers := [(3, Layer.new "a")] } : Painter) 3 (Layer.new "b")).2.length = 1) := by
  have h : (alookup 3 ({ layers := [(3, Layer.new "a")] } : Painter).layers).isSome = true ∨
      ((Layer.new "b").builtin = false ∧
        ((Layer.new "b").hasResize = false ∨ (Layer.new "b").hasRefresh = false)) := by
    left
    decide
  obtain ⟨h1, h2⟩ := c6_insertLayer_error_is_logged_noop
    ({ layers := [(3, Layer.new "a")] } : Painter) 3 (Layer.new "b") h
  exact ⟨h, h1, h2⟩

/-! ## C9: getLayer on a single canvas without manual compositing -/

/-- C9: while the painter was built on a single canvas
(`_singleCanvas = true`) and manual compositing has not been activated,
`getLayer` replaces any requested z-level by the reserved key
`CANVAS_ZLEVEL` (lines 502–504); the pre-built main layer stored there by
the constructor is found, so the state is returned unchanged (no layer is
created, the z-level list is untouched) together with that reserved key,
for every requested `zlevel` and `virtual` flag. -/
theorem c9_getLayer_ignores_arguments_on_single_canvas (p : Painter)
    (hs : p.singleCanvas = true) (hm : p.needsManuallyCompositing = false)
    (hc : (alookup CANVAS_ZLEVEL p.layers).isSome = true)
    (zlevel : Rat) (virtual : Bool) :
    getLayer p zlevel virtual = (p, CANVAS_ZLEVEL) := by
  rcases Option.isSome_iff_exists.1 hc with ⟨L, hL⟩
  unfold getLayer
  simp [hs, hm, hL]

theorem c9_witness :
    CANVAS_ZLEVEL = 314159 ∧
    mkSingleCanvasPainter.singleCanvas = true ∧
    mkSingleCanvasPainter.needsManuallyCompositing = false ∧
    (alookup CANVAS_ZLEVEL mkSingleCanvasPainter.layers).isSome = true ∧
    getLayer mkSingleCanvasPainter 5 true = (mkSingleCanvasPainter, CANVAS_ZLEVEL) ∧
    getLayer mkSingleCanvasPainter (-2) false = (mkSingleCanvasPainter, CANVAS_ZLEVEL) := by
  refine ⟨by decide, by decide, by decide, by decide, ?_, ?_⟩
  · exact c9_getLayer_ignores_arguments_on_single_canvas mkSingleCanvasPainter
      (by decide) (by decide) (by decide) 5 true
  · exact c9_getLayer_ignores_arguments_on_single_canvas mkSingleCanvasPainter
      (by decide) (by decide) (by decide) (-2) false

/-! ## C10: configLayer merges into exactly the two matching keys -/

theorem configApply_cons (zlevel : Rat) (lc : LayerConfig) (z : Rat) (zs : List Rat)
    (m : List (Rat × Layer)) :
    configApply zlevel lc (z :: zs) m =
      configApply zlevel lc zs
        (if z = zlevel ∨ z = zlevel + EL_AFTER_INCREMENTAL_INC then
          amodify z (fun L => mergeConfigIntoLayer L lc) m
        else m) := rfl

theorem configApply_notMem {zlevel : Rat} {lc : LayerConfig} {zs : List Rat} {k : Rat}
    (h : k ∉ zs) (m : List (Rat × Layer)) :
    alookup k (configApply zlevel lc zs m) = alookup k m := by
  induction zs generalizing m with
  | nil => rfl
  | cons z rest ih =>
    have hz : z ≠ k := fun he => h (by simp [he])
    have hrest : k ∉ rest := fun hm => h (List.mem_cons.2 (Or.inr hm))
    rw [configApply_cons]
    by_cases hc : z = zlevel ∨ z = zlevel + EL_AFTER_INCREMENTAL_INC
    · rw [if_pos hc, ih hrest, alookup_amodify_ne hz]
    · rw [if_neg hc, ih hrest]

theorem configApply_other {zlevel : Rat} {lc : LayerConfig} {zs : List Rat} {k : Rat}
    (h1 : k ≠ zlevel) (h2 : k ≠ zlevel + EL_AFTER_INCREMENTAL_INC) (m : List (Rat × Layer)) :
    alookup k (configApply zlevel lc zs m) = alookup k m := by
  induction zs generalizing m with
  | nil => rfl
  | cons z rest ih =>
    rw [configApply_cons]
    by_cases hc : z = zlevel ∨ z = zlevel + EL_AFTER_INCREMENTAL_INC
    · have hz : z ≠ k := by
        rcases hc with hc | hc <;> exact fun he => by simp_all
      rw [if_pos hc, ih, alookup_amodify_ne hz]
    · rw [if_neg hc, ih]

theorem configApply_hit {zlevel : Rat} {lc : LayerConfig} {zs : List Rat} {k : Rat}
    (hnd : zs.Nodup) (hk : k ∈ zs)
    (hcond : k = zlevel ∨ k = zlevel + EL_AFTER_INCREMENTAL_INC) (m : List (Rat × Layer)) :
    alookup k (configApply zlevel lc zs m) =
      (alookup k m).map (fun L => mergeConfigIntoLayer L lc) := by
  induction zs generalizing m with
  | nil => simp at hk
  | cons z rest ih =>
    simp only [List.nodup_cons] at hnd
    rw [configApply_cons]
    by_cases hz : k = z
    · subst hz
      rw [if_pos hcond, configApply_notMem hnd.1, alookup_amodify_self]
    · have hmem : k ∈ rest := by
        rcases List.mem_cons.1 hk with h1 | h2
        · exact absurd h1 hz
        · exact h2
      by_cases hc : z = zlevel ∨ z = zlevel + EL_AFTER_INCREMENTAL_INC
      · rw [if_pos hc, ih hnd.2 hmem, alookup_amodify_ne (fun he => hz he.symm)]
      · rw [if_neg hc, ih hnd.2 hmem]

/-- C10: `configLayer(zlevel, config)` with a non-null config merges the
config into the stored per-zlevel configuration (lines 745–751) and then
merges the stored configuration into exactly the existing layers whose key
is `zlevel` or `zlevel + EL_AFTER_INCREMENTAL_INC` (lines 753–759); every
other layer — in particular the incremental sub-layer at
`zlevel + INCREMENTAL_INC` — and the z-level list are left unchanged. -/
theorem c10_configLayer_touches_exactly_matching_layers (p : Painter) (zlevel : Rat)
    (cfg : LayerConfig) (hnd : p.zlevelList.Nodup) :
    (configLayer p zlevel (some cfg)).zlevelList = p.zlevelList ∧
    alookup zlevel (configLayer p zlevel (some cfg)).layerConfig =
      some (storedConfigAfter p zlevel cfg) ∧
    (∀ k, k ≠ zlevel →
      alookup k (configLayer p zlevel (some cfg)).layerConfig = alookup k p.layerConfig) ∧
    (∀ k, k ∈ p.zlevelList → (k = zlevel ∨ k = zlevel + EL_AFTER_INCREMENTAL_INC) →
      alookup k (configLayer p zlevel (some cfg)).layers =
        (alookup k p.layers).map
          (fun L => mergeConfigIntoLayer L (storedConfigAfter p zlevel cfg))) ∧
    (∀ k, k ≠ zlevel → k ≠ zlevel + EL_AFTER_INCREMENTAL_INC →
      alookup k (configLayer p zlevel (some cfg)).layers = alookup k p.layers) ∧
    (∀ k, k ∉ p.zlevelList →
      alookup k (configLayer p zlevel (some cfg)).layers = alookup k p.layers) ∧
    alookup (zlevel + INCREMENTAL_INC) (configLayer p zlevel (some cfg)).layers =
      alookup (zlevel + INCREMENTAL_INC) p.layers := by
  have hbody : configLayer p zlevel (some cfg) =
      { p with
          layerConfig := aset zlevel (storedConfigAfter p zlevel cfg) p.layerConfig,
          layers := configApply zlevel (storedConfigAfter p zlevel cfg)
            p.zlevelList p.layers } := by
    unfold configLayer storedConfigAfter
    cases alookup zlevel p.layerConfig with
    | none => rfl
    | some old => rfl
  rw [hbody]
  refine ⟨rfl, ?_, ?_, ?_, ?_, ?_, ?_⟩
  · exact alookup_aset_self zlevel _ p.layerConfig
  · intro k hk
    exact alookup_aset_ne (fun he => hk he.symm) _ p.layerConfig
  · intro k hk hcond
    exact configApply_hit hnd hk hcond p.layers
  · intro k h1 h2
    exact configApply_other h1 h2 p.layers
  · intro k hk
    exact configApply_notMem hk p.layers
  · refine configApply_other ?_ ?_ p.layers
    · intro he
      have : INCREMENTAL_INC = 0 := by linarith [he]
      norm_num [INCREMENTAL_INC] at this
    · intro he
      have : INCREMENTAL_INC = EL_AFTER_INCREMENTAL_INC := by linarith [he]
      norm_num [INCREMENTAL_INC, EL_AFTER_INCREMENTAL_INC] at this

theorem c10_witness :
    fixtureConfigPainter.zlevelList.Nodup ∧
    alookup (2 + INCREMENTAL_INC)
        (configLayer fixtureConfigPainter 2 (some { clearColor := some "red" })).layers =
      alookup (2 + INCREMENTAL_INC) fixtureConfigPainter.layers := by
  have h := c10_configLayer_touches_exactly_matching_layers
    fixtureConfigPainter 2 ({ clearColor := some "red" }) (by decide)
  exact ⟨by decide, h.2.2.2.2.2.2⟩

/-! ## C5: insertLayer keeps the z-level list strictly sorted -/

theorem scanPos_spec (zlevel : Rat) :
    ∀ l : List Rat, l.Pairwise (· < ·) → zlevel ∉ l →
      (∀ a, l.head? = some a → a < zlevel) →
      (∀ x ∈ l.take (scanPos zlevel l + 1), x < zlevel) ∧
      (∀ x ∈ l.drop (scanPos zlevel l + 1), zlevel < x)
  | [] => by
    intro _ _ _
    constructor <;> intro x hx <;> simp at hx
  | [a] => by
    intro hp hz h0
    have ha : a < zlevel := h0 a rfl
    constructor
    · intro x hx
      simp only [scanPos, List.take] at hx
      simp at hx
      subst hx
      exact ha
    · intro x hx
      simp [scanPos] at hx
  | a :: b :: rest => by
    intro hp hz h0
    have ha : a < zlevel := h0 a rfl
    by_cases hc : a < zlevel ∧ b > zlevel
    · rw [show scanPos zlevel (a :: b :: rest) = 0 from by simp [scanPos, hc]]
      constructor
      · intro x hx
        simp at hx
        subst hx
        exact ha
      · intro x hx
        simp only [List.drop] at hx
        rcases List.mem_cons.1 hx with hx | hx
        · subst hx
          exact hc.2
        · have hbx : b < x := (List.pairwise_cons.1 (hp.of_cons)).1 x hx
          exact lt_trans hc.2 hbx
    · have hb : b < zlevel := by
        rcases not_and_or.1 hc with h | h
        · exact absurd ha h
        · have hble : b ≤ zlevel := not_lt.1 h
          rcases lt_or_eq_of_le hble with h1 | h1
          · exact h1
          · exact absurd (h1 ▸ (List.mem_cons.2 (Or.inr (List.mem_cons.2 (Or.inl rfl))))) hz
      have hz2 : zlevel ∉ b :: rest := fun hm => hz (List.mem_cons.2 (Or.inr hm))
      obtain ⟨ih1, ih2⟩ := scanPos_spec zlevel (b :: rest) hp.of_cons hz2
        (fun a' ha' => by
          simp only [List.head?] at ha'
          injection ha' with ha'
          exact ha' ▸ hb)
      rw [show scanPos zlevel (a :: b :: rest) = scanPos zlevel (b :: rest) + 1 from by
        simp [scanPos, hc]]
      constructor
      · intro x hx
        rw [show scanPos zlevel (b :: rest) + 1 + 1 = (scanPos zlevel (b :: rest) + 1) + 1
          from rfl, List.take_succ_cons] at hx
        rcases List.mem_cons.1 hx with hx | hx
        · subst hx
          exact ha
        · exact ih1 x hx
      · intro x hx
        rw [show scanPos zlevel (b :: rest) + 1 + 1 = (scanPos zlevel (b :: rest) + 1) + 1
          from rfl, List.drop_succ_cons] at hx
        exact ih2 x hx

theorem jsSpliceRemove1_sublist (l : List Rat) (start : Int) :
    (jsSpliceRemove1 l start).Sublist l := by
  show (l.take (if start < 0 then ((l.length : Int) + start).toNat
        else min start.toNat l.length) ++
      l.drop ((if start < 0 then ((l.length : Int) + start).toNat
        else min start.toNat l.length) + 1)).Sublist l
  set s := if start < 0 then ((l.length : Int) + start).toNat
    else min start.toNat l.length with hs
  have h1 : (l.drop (s + 1)).Sublist (l.drop s) := by
    have he : l.drop (s + 1) = (l.drop s).drop 1 := by
      rw [List.drop_drop]
    rw [he, List.drop_one]
    exact List.tail_sublist _
  have h2 : (l.take s ++ l.drop (s + 1)).Sublist (l.take s ++ l.drop s) :=
    List.Sublist.append_left h1 _
  rw [List.take_append_drop] at h2
  exact h2

theorem spliceInsert_sorted (l : List Rat) (zlevel : Rat) (n : Nat)
    (hp : l.Pairwise (· < ·))
    (htake : ∀ x ∈ l.take n, x < zlevel)
    (hdrop : ∀ x ∈ l.drop n, zlevel < x) :
    (spliceInsert l n zlevel).Pairwise (· < ·) ∧
    (∀ x, x ∈ spliceInsert l n zlevel ↔ x ∈ l ∨ x = zlevel) := by
  have hsplit : l = l.take n ++ l.drop n := (List.take_append_drop n l).symm
  have hcross : ∀ x ∈ l.take n, ∀ y ∈ l.drop n, x < y := by
    rw [hsplit] at hp
    exact fun x hx y hy => (List.pairwise_append.1 hp).2.2 x hx y hy
  constructor
  · unfold spliceInsert
    rw [List.pairwise_append]
    refine ⟨hp.sublist (List.take_sublist n l), ?_, ?_⟩
    · rw [List.pairwise_cons]
      exact ⟨fun y hy => hdrop y hy, hp.sublist (List.drop_sublist n l)⟩
    · intro x hx y hy
      rcases List.mem_cons.1 hy with hy | hy
      · exact hy ▸ htake x hx
      · exact lt_trans (htake x hx) (hdrop y hy)
  · intro x
    unfold spliceInsert
    constructor
    · intro hx
      rcases List.mem_append.1 hx with hx | hx
      · exact Or.inl (List.mem_of_mem_take hx)
      · rcases List.mem_cons.1 hx with hx | hx
        · exact Or.inr hx
        · exact Or.inl (List.mem_of_mem_drop hx)
    · intro hx
      rcases hx with hx | hx
      · conv at hx => rw [hsplit]
        rcases List.mem_append.1 hx with hx | hx
        · exact List.mem_append.2 (Or.inl hx)
        · exact List.mem_append.2 (Or.inr (List.mem_cons.2 (Or.inr hx)))
      · exact List.mem_append.2 (Or.inr (List.mem_cons.2 (Or.inl hx)))

/-- C5: on a strictly sorted z-level list, `insertLayer` with a fresh key and
a valid layer inserts the key at the position found by the linear
predecessor scan (lines 549–560), so the list stays strictly sorted and
holds exactly the old keys plus the new one; and `delLayer` (line 777)
removes at most one entry, so it also preserves strict sortedness. -/
theorem c5_insert_preserves_sorted_zlevel_list (p : Painter) (zlevel : Rat) (layer : Layer)
    (hp : p.zlevelList.Pairwise (· < ·))
    (hnotin : zlevel ∉ p.zlevelList)
    (habs : alookup zlevel p.layers = none)
    (hvalid : isLayerValid (some layer) = true) :
    ((insertLayer p zlevel layer).1.zlevelList.Pairwise (· < ·) ∧
     (∀ x, x ∈ (insertLayer p zlevel layer).1.zlevelList ↔ x ∈ p.zlevelList ∨ x = zlevel)) ∧
    (∀ (q : Painter) (z : Rat), q.zlevelList.Pairwise (· < ·) →
      (delLayer q z).zlevelList.Pairwise (· < ·)) := by
  constructor
  · have hred : (insertLayer p zlevel layer).1.zlevelList =
        spliceInsert p.zlevelList
          (((match p.zlevelList with
             | [] => (-1 : Int)
             | z0 :: _ => if zlevel > z0 then (scanPos zlevel p.zlevelList : Int) else -1) +
            1)).toNat zlevel := by
      unfold insertLayer
      rw [if_neg (by simp [habs]), if_neg (by simp [hvalid])]
    cases hl : p.zlevelList with
    | nil =>
      have hm : (match p.zlevelList with
          | [] => (-1 : Int)
          | z0 :: _ => if zlevel > z0 then (scanPos zlevel p.zlevelList : Int) else -1) =
          (-1 : Int) := by
        rw [hl]
      rw [hm] at hred
      rw [hl] at hred
      norm_num at hred
      rw [hred]
      refine spliceInsert_sorted [] zlevel 0 (List.Pairwise.nil) ?_ ?_ <;>
        intro x hx <;> simp at hx
    | cons z0 tl =>
      have hp2 : (z0 :: tl).Pairwise (· < ·) := hl ▸ hp
      have hz2 : zlevel ∉ z0 :: tl := hl ▸ hnotin
      by_cases hgt : zlevel > z0
      · have hm : (match p.zlevelList with
            | [] => (-1 : Int)
            | z0 :: _ => if zlevel > z0 then (scanPos zlevel p.zlevelList : Int) else -1) =
            (scanPos zlevel p.zlevelList : Int) := by
          rw [hl]
          exact if_pos hgt
        rw [hm, hl] at hred
        rw [show ((scanPos zlevel (z0 :: tl) : Int) + 1).toNat =
          scanPos zlevel (z0 :: tl) + 1 from by omega] at hred
        rw [hred]
        obtain ⟨h1, h2⟩ := scanPos_spec zlevel (z0 :: tl) hp2 hz2
          (fun a ha => by
            simp only [List.head?] at ha
            injection ha with ha
            exact ha ▸ hgt)
        exact spliceInsert_sorted (z0 :: tl) zlevel (scanPos zlevel (z0 :: tl) + 1) hp2 h1 h2
      · have hm : (match p.zlevelList with
            | [] => (-1 : Int)
            | z0 :: _ => if zlevel > z0 then (scanPos zlevel p.zlevelList : Int) else -1) =
            (-1 : Int) := by
          rw [hl]
          exact if_neg hgt
        rw [hm, hl] at hred
        norm_num at hred
        rw [hred]
        refine spliceInsert_sorted (z0 :: tl) zlevel 0 hp2 (by intro x hx; simp at hx) ?_
        intro x hx
        rw [List.drop_zero] at hx
        have hlz : zlevel < z0 := by
          rcases lt_or_eq_of_le (not_lt.1 hgt) with h1 | h1
          · exact h1
          · exact absurd (h1 ▸ List.mem_cons.2 (Or.inl rfl)) hz2
        rcases List.mem_cons.1 hx with hx | hx
        · exact hx ▸ hlz
        · exact lt_trans hlz ((List.pairwise_cons.1 hp2).1 x hx)
  · intro q z hq
    unfold delLayer
    cases alookup z q.layers with
    | none => exact hq
    | some L => exact hq.sublist (jsSpliceRemove1_sublist _ _)

theorem c5_witness :
    (([1, 3] : List Rat).Pairwise (· < ·) ∧ (2 : Rat) ∉ ([1, 3] : List Rat) ∧
      alookup 2 fixtureSortedPainter.layers = none ∧
      isLayerValid (some { Layer.new "n" with builtin := true }) = true) ∧
    (insertLayer fixtureSortedPainter 2
      { Layer.new "n" with builtin := true }).1.zlevelList.Pairwise (· < ·) ∧
    ((insertLayer fixtureSortedPainter 2
      { Layer.new "n" with builtin := true }).1.zlevelList = [1, 2, 3]) := by
  have h := c5_insert_preserves_sorted_zlevel_list fixtureSortedPainter 2
    { Layer.new "n" with builtin := true } (by decide) (by decide) (by decide) (by decide)
  refine ⟨⟨by decide, by decide, by decide, by decide⟩, h.1.1, by decide⟩

/-! ## The element loop of `_doPaintList`: bounds, painted set, no repeats -/

theorem paintLoopGo_bounds (doBrush useTimer : Bool) (dt : Nat → Nat) :
    ∀ (fuel : Nat) (i : Int) (j : Nat),
      i ≤ (paintLoopGo doBrush useTimer dt fuel i j).1 ∧
      (paintLoopGo doBrush useTimer dt fuel i j).1 ≤ i + fuel := by
  intro fuel
  induction fuel with
  | zero => intro i j; exact ⟨le_refl i, by simp [paintLoopGo]⟩
  | succ n ih =>
    intro i j
    unfold paintLoopGo
    by_cases hb : useTimer ∧ dt j > 15
    · simp only [if_pos hb]
      exact ⟨le_refl i, by omega⟩
    · simp only [if_neg hb]
      obtain ⟨h1, h2⟩ := ih (i + 1) (j + 1)
      exact ⟨by omega, by omega⟩

theorem paintLoopGo_mem (useTimer : Bool) (dt : Nat → Nat) :
    ∀ (fuel : Nat) (i : Int) (j : Nat) (x : Int),
      PaintEv.paintEl x ∈ (paintLoopGo true useTimer dt fuel i j).2 ↔
        i ≤ x ∧ x ≤ (paintLoopGo true useTimer dt fuel i j).1 ∧ x < i + fuel := by
  intro fuel
  induction fuel with
  | zero =>
    intro i j x
    simp only [paintLoopGo]
    constructor
    · intro h; simp at h
    · intro h; omega
  | succ n ih =>
    intro i j x
    unfold paintLoopGo
    by_cases hb : useTimer ∧ dt j > 15
    · simp only [if_pos hb, if_pos rfl]
      constructor
      · intro h
        simp only [if_true, List.mem_singleton] at h
        injection h with h
        omega
      · intro h
        have : x = i := by omega
        simp [this]
    · simp only [if_neg hb, if_pos rfl]
      obtain ⟨hb1, hb2⟩ := paintLoopGo_bounds true useTimer dt n (i + 1) (j + 1)
      constructor
      · intro h
        simp only [if_true, List.cons_append, List.nil_append, List.mem_cons] at h
        rcases h with h | h
        · injection h with h
          subst h
          exact ⟨le_refl x, by omega, by omega⟩
        · obtain ⟨h1, h2, h3⟩ := (ih (i + 1) (j + 1) x).1 h
          exact ⟨by omega, h2, by omega⟩
      · intro ⟨h1, h2, h3⟩
        simp only [if_true, List.cons_append, List.nil_append, List.mem_cons]
        by_cases hx : x = i
        · exact Or.inl (by rw [hx])
        · refine Or.inr ((ih (i + 1) (j + 1) x).2 ⟨by omega, h2, by omega⟩)

theorem paintLoopGo_count (useTimer : Bool) (dt : Nat → Nat) :
    ∀ (fuel : Nat) (i : Int) (j : Nat) (x : Int),
      List.count (PaintEv.paintEl x) (paintLoopGo true useTimer dt fuel i j).2 ≤ 1 := by
  intro fuel
  induction fuel with
  | zero =>
    intro i j x
    show List.count _ ([] : List PaintEv) ≤ 1
    simp
  | succ n ih =>
    intro i j x
    unfold paintLoopGo
    by_cases hb : useTimer ∧ dt j > 15
    · simp only [if_pos hb, if_pos rfl]
      by_cases hx : PaintEv.paintEl x = PaintEv.paintEl i <;>
        simp [List.count_cons, hx]
    · simp only [if_neg hb, eq_self_iff_true, if_true, List.cons_append, List.nil_append,
        List.count_cons]
      by_cases hx : PaintEv.paintEl x = PaintEv.paintEl i
      · have hxi : x = i := by injection hx
        have hnm : PaintEv.paintEl x ∉ (paintLoopGo true useTimer dt n (i + 1) (j + 1)).2 := by
          rw [paintLoopGo_mem]
          omega
        rw [List.count_eq_zero.2 hnm]
        simp [hx]
      · rw [if_neg (fun he => hx (eq_of_beq he).symm)]
        simpa using ih (i + 1) (j + 1) x

theorem paintLoop_empty (doBrush useTimer : Bool) (dt : Nat → Nat) {endIdx start : Int}
    (h : endIdx ≤ start) : paintLoop doBrush useTimer dt endIdx start = (start, []) := by
  unfold paintLoop
  rw [show (endIdx - start).toNat = 0 from by omega]
  rfl

theorem paintLoop_bounds (doBrush useTimer : Bool) (dt : Nat → Nat) {endIdx start : Int}
    (h : start ≤ endIdx) :
    start ≤ (paintLoop doBrush useTimer dt endIdx start).1 ∧
    (paintLoop doBrush useTimer dt endIdx start).1 ≤ endIdx := by
  obtain ⟨h1, h2⟩ := paintLoopGo_bounds doBrush useTimer dt (endIdx - start).toNat start 0
  exact ⟨h1, by unfold paintLoop; omega⟩

theorem paintLoop_mem (useTimer : Bool) (dt : Nat → Nat) {endIdx start : Int}
    (h : start ≤ endIdx) (x : Int) :
    PaintEv.paintEl x ∈ (paintLoop true useTimer dt endIdx start).2 ↔
      start ≤ x ∧ x ≤ (paintLoop true useTimer dt endIdx start).1 ∧ x < endIdx := by
  unfold paintLoop
  rw [paintLoopGo_mem]
  constructor
  · intro ⟨h1, h2, h3⟩
    exact ⟨h1, h2, by omega⟩
  · intro ⟨h1, h2, h3⟩
    exact ⟨h1, h2, by omega⟩

theorem paintLoop_count (useTimer : Bool) (dt : Nat → Nat) (endIdx start : Int) (x : Int) :
    List.count (PaintEv.paintEl x) (paintLoop true useTimer dt endIdx start).2 ≤ 1 :=
  paintLoopGo_count useTimer dt _ start 0 x

/-! ## Characterization of `_doPaintList` as independent per-layer updates -/

theorem flatMap_congr {α β : Type} {l : List α} {f g : α → List β}
    (h : ∀ x ∈ l, f x = g x) : l.flatMap f = l.flatMap g := by
  induction l with
  | nil => rfl
  | cons a rest ih =>
    simp only [List.flatMap_cons]
    rw [h a (List.mem_cons_self a rest), ih (fun x hx => h x (List.mem_cons.2 (Or.inr hx)))]

theorem all_congr_list {α : Type} {l : List α} {f g : α → Bool}
    (h : ∀ x ∈ l, f x = g x) : l.all f = l.all g := by
  induction l with
  | nil => rfl
  | cons a rest ih =>
    simp only [List.all_cons]
    rw [h a (List.mem_cons_self a rest), ih (fun x hx => h x (List.mem_cons.2 (Or.inr hx)))]

theorem paintFold_spec (list : List Element) (paintAll : Bool) (clock : Rat → Nat → Nat) :
    ∀ (zs : List Rat) (acc : PaintAcc), zs.Nodup →
      (∀ k, k ∉ zs →
        alookup k (zs.foldl (paintOneLayer list paintAll clock) acc).p.layers =
          alookup k acc.p.layers) ∧
      (∀ k, k ∈ zs →
        alookup k (zs.foldl (paintOneLayer list paintAll clock) acc).p.layers =
          (alookup k acc.p.layers).map
            (fun L => { L with drawIndex := layerPaintedDraw paintAll clock k L })) ∧
      ((zs.foldl (paintOneLayer list paintAll clock) acc).evs =
        acc.evs ++ zs.flatMap (fun z =>
          match alookup z acc.p.layers with
          | some L => paintLayerEvents list paintAll clock z L
          | none => [])) ∧
      ((zs.foldl (paintOneLayer list paintAll clock) acc).finished =
        (acc.finished && zs.all (fun z =>
          match alookup z acc.p.layers with
          | some L => decide (L.endIndex ≤ layerPaintedDraw paintAll clock z L)
          | none => true))) := by
  intro zs
  induction zs with
  | nil =>
    intro acc _
    refine ⟨fun k _ => rfl, fun k hk => absurd hk (List.not_mem_nil k), by simp, by simp⟩
  | cons z rest ih =>
    intro acc hnd
    simp only [List.nodup_cons] at hnd
    have hzrest : z ∉ rest := hnd.1
    cases hL : alookup z acc.p.layers with
    | none =>
      have hstep : paintOneLayer list paintAll clock acc z = acc := by
        unfold paintOneLayer
        rw [hL]
      obtain ⟨ih1, ih2, ih3, ih4⟩ := ih (paintOneLayer list paintAll clock acc z) hnd.2
      rw [hstep] at ih1 ih2 ih3 ih4
      refine ⟨?_, ?_, ?_, ?_⟩
      · intro k hk
        rw [List.foldl_cons, hstep]
        exact ih1 k (fun hm => hk (List.mem_cons.2 (Or.inr hm)))
      · intro k hk
        rcases List.mem_cons.1 hk with hk | hk
        · subst hk
          rw [List.foldl_cons, hstep, ih1 k hzrest, hL]
          rfl
        · rw [List.foldl_cons, hstep]
          exact ih2 k hk
      · rw [List.foldl_cons, hstep, ih3, List.flatMap_cons, hL]
        simp
      · rw [List.foldl_cons, hstep, ih4, List.all_cons, hL]
        simp
    | some L =>
      have hstep : paintOneLayer list paintAll clock acc z =
          { p := { acc.p with
                    layers := amodify z
                        (fun L0 =>
                          { L0 with drawIndex := layerPaintedDraw paintAll clock z L })
                        acc.p.layers },
            evs := acc.evs ++ paintLayerEvents list paintAll clock z L,
            finished := acc.finished &&
              decide (L.endIndex ≤ layerPaintedDraw paintAll clock z L) } := by
        unfold paintOneLayer
        rw [hL]
      obtain ⟨ih1, ih2, ih3, ih4⟩ := ih (paintOneLayer list paintAll clock acc z) hnd.2
      have hlook : ∀ k, k ≠ z →
          alookup k (paintOneLayer list paintAll clock acc z).p.layers =
            alookup k acc.p.layers := by
        intro k hk
        rw [hstep]
        exact alookup_amodify_ne (fun he => hk he.symm) _ _
      have hlookz : alookup z (paintOneLayer list paintAll clock acc z).p.layers =
          some { L with drawIndex := layerPaintedDraw paintAll clock z L } := by
        rw [hstep]
        show alookup z (amodify z _ acc.p.layers) = _
        rw [alookup_amodify_self, hL]
        rfl
      refine ⟨?_, ?_, ?_, ?_⟩
      · intro k hk
        rw [List.foldl_cons]
        rw [ih1 k (fun hm => hk (List.mem_cons.2 (Or.inr hm)))]
        exact hlook k (fun he => hk (he ▸ List.mem_cons.2 (Or.inl rfl)))
      · intro k hk
        rcases List.mem_cons.1 hk with hk | hk
        · subst hk
          rw [List.foldl_cons, ih1 k hzrest, hlookz, hL]
          rfl
        · have hkz : k ≠ z := fun he => hzrest (he ▸ hk)
          rw [List.foldl_cons, ih2 k hk, hlook k hkz]
      · rw [List.foldl_cons, ih3, List.flatMap_cons, hL]
        rw [hstep]
        show acc.evs ++ paintLayerEvents list paintAll clock z L ++ _ =
          acc.evs ++ (paintLayerEvents list paintAll clock z L ++ _)
        rw [List.append_assoc]
        congr 2
        refine flatMap_congr ?_
        intro x hx
        rw [← hstep, hlook x (fun he => hzrest (he ▸ hx))]
      · rw [List.foldl_cons, ih4]
        have e1 : (paintOneLayer list paintAll clock acc z).finished =
            (acc.finished && decide (L.endIndex ≤ layerPaintedDraw paintAll clock z L)) := by
          rw [hstep]
        have e2 : (rest.all fun x =>
              match alookup x (paintOneLayer list paintAll clock acc z).p.layers with
              | some L1 => decide (L1.endIndex ≤ layerPaintedDraw paintAll clock x L1)
              | none => true) =
            (rest.all fun x =>
              match alookup x acc.p.layers with
              | some L1 => decide (L1.endIndex ≤ layerPaintedDraw paintAll clock x L1)
              | none => true) := by
          refine all_congr_list ?_
          intro x hx
          rw [hlook x (fun he => hzrest (he ▸ hx))]
        rw [e1, e2, List.all_cons, hL, Bool.and_assoc]

theorem buildLayerList_nodup (p : Painter) (paintAll : Bool) (hnd : p.zlevelList.Nodup) :
    (buildLayerList p paintAll).Nodup :=
  hnd.filter _

theorem mem_buildLayerList {p : Painter} {paintAll : Bool} {z : Rat} :
    z ∈ buildLayerList p paintAll ↔
      z ∈ p.zlevelList ∧ ∃ L, alookup z p.layers = some L ∧
        (L.builtin && decide (p.hoverZ ≠ some z) && (L.dirty || paintAll)) = true := by
  unfold buildLayerList
  rw [List.mem_filter]
  constructor
  · intro ⟨h1, h2⟩
    refine ⟨h1, ?_⟩
    cases hL : alookup z p.layers with
    | none => rw [hL] at h2; exact absurd h2 (by simp)
    | some L => rw [hL] at h2; exact ⟨L, rfl, h2⟩
  · intro ⟨h1, L, hL, h2⟩
    exact ⟨h1, by rw [hL]; exact h2⟩

theorem doPaintList_spec (p : Painter) (list : List Element) (paintAll : Bool)
    (clock : Rat → Nat → Nat) (hnd : p.zlevelList.Nodup) :
    (∀ k, k ∉ buildLayerList p paintAll →
      alookup k (doPaintList p list paintAll clock).p.layers = alookup k p.layers) ∧
    (∀ k, k ∈ buildLayerList p paintAll →
      alookup k (doPaintList p list paintAll clock).p.layers =
        (alookup k p.layers).map
          (fun L => { L with drawIndex := layerPaintedDraw paintAll clock k L })) ∧
    ((doPaintList p list paintAll clock).evs =
      (buildLayerList p paintAll).flatMap (fun z =>
        match alookup z p.layers with
        | some L => paintLayerEvents list paintAll clock z L
        | none => [])) ∧
    ((doPaintList p list paintAll clock).finished =
      (buildLayerList p paintAll).all (fun z =>
        match alookup z p.layers with
        | some L => decide (L.endIndex ≤ layerPaintedDraw paintAll clock z L)
        | none => true)) := by
  obtain ⟨h1, h2, h3, h4⟩ := paintFold_spec list paintAll clock (buildLayerList p paintAll)
    { p := p, evs := [], finished := true } (buildLayerList_nodup p paintAll hnd)
  exact ⟨h1, h2, by simpa using h3, by simpa using h4⟩

/-! ## C7: the `-1` sentinel at paint time is recovered, not fatal -/

/-- C7: when `_doPaintList` reaches a layer whose resolved starting index is
the `-1` sentinel (with `paintAll` false the resolved start is
`__drawIndex`), it logs the error `For some unknown reason. drawIndex is -1`
(line 438), substitutes the layer's `__startIndex` (line 439), and the layer
loop is not aborted: every layer of the repaint list — this one and all
subsequent ones — still gets painted and its `__drawIndex` updated. -/
theorem c7_sentinel_draw_recovers_and_continues (p : Painter) (list : List Element)
    (clock : Rat → Nat → Nat) (z : Rat) (L : Layer)
    (hnd : p.zlevelList.Nodup)
    (hz : z ∈ buildLayerList p false)
    (hL : alookup z p.layers = some L)
    (hdraw : L.drawIndex = -1) :
    PaintEv.logErr "For some unknown reason. drawIndex is -1" ∈
      (doPaintList p list false clock).evs ∧
    resolvedStart false L = L.startIndex ∧
    (∀ z' ∈ buildLayerList p false, ∀ L', alookup z' p.layers = some L' →
      alookup z' (doPaintList p list false clock).p.layers =
        some { L' with drawIndex := layerPaintedDraw false clock z' L' }) := by
  obtain ⟨h1, h2, h3, h4⟩ := doPaintList_spec p list false clock hnd
  refine ⟨?_, ?_, ?_⟩
  · rw [h3]
    refine List.mem_flatMap.2 ⟨z, hz, ?_⟩
    rw [hL]
    show _ ∈ paintLayerEvents list false clock z L
    unfold paintLayerEvents
    refine List.mem_append.2 (Or.inl (List.mem_append.2 (Or.inr ?_)))
    unfold layerErrEvs resolvedStart0
    simp [hdraw]
  · unfold resolvedStart resolvedStart0
    simp [hdraw]
  · intro z' hz' L' hL'
    rw [h2 z' hz', hL']
    rfl

theorem c7_witness :
    fixtureSentinelPainter.zlevelList.Nodup ∧
    (0 : Rat) ∈ buildLayerList fixtureSentinelPainter false ∧
    PaintEv.logErr "For some unknown reason. drawIndex is -1" ∈
      (doPaintList fixtureSentinelPainter [{ zlevel := 0 }] false (fun _ _ => 0)).evs := by
  have hL : alookup 0 fixtureSentinelPainter.layers = some fixtureSentinelLayer := by decide
  have h := c7_sentinel_draw_recovers_and_continues fixtureSentinelPainter
    [{ zlevel := 0 }] (fun _ _ => 0) 0 fixtureSentinelLayer
    (by decide) (by decide) hL (by decide)
  exact ⟨by decide, by decide, h.1⟩

/-! ## Bounds on the draw index stored by the element loop (for C8) -/

theorem layerPaintedDraw_bounds (paintAll : Bool) (clock : Rat → Nat → Nat) (z : Rat)
    (L : Layer) (hse : L.startIndex ≤ L.endIndex)
    (hdr : L.drawIndex = -1 ∨ (L.startIndex ≤ L.drawIndex ∧ L.drawIndex ≤ L.endIndex)) :
    L.startIndex ≤ layerPaintedDraw paintAll clock z L ∧
    layerPaintedDraw paintAll clock z L ≤ L.endIndex ∧
    (paintAll = false → 0 ≤ L.drawIndex →
      L.drawIndex ≤ layerPaintedDraw paintAll clock z L) := by
  unfold layerPaintedDraw layerPaintRes
  by_cases hpa : paintAll = true
  · have hrs : resolvedStart paintAll L = L.startIndex := by
      unfold resolvedStart resolvedStart0
      rw [if_pos hpa]
      exact ite_self _
    rw [hrs]
    obtain ⟨b1, b2⟩ := paintLoop_bounds (L.dirty || paintAll) (layerUseTimer paintAll L)
      (clock z) hse
    exact ⟨b1, b2, fun h => absurd hpa (by simp [h])⟩
  · have hpa' : paintAll = false := by
      cases paintAll
      · rfl
      · exact absurd rfl hpa
    by_cases hneg : L.drawIndex = -1
    · have hrs : resolvedStart paintAll L = L.startIndex := by
        unfold resolvedStart resolvedStart0
        rw [if_neg hpa, if_pos hneg]
      rw [hrs]
      obtain ⟨b1, b2⟩ := paintLoop_bounds (L.dirty || paintAll) (layerUseTimer paintAll L)
        (clock z) hse
      exact ⟨b1, b2, fun _ hge => absurd (hneg ▸ hge) (by norm_num)⟩
    · rcases hdr with hdr | ⟨hd1, hd2⟩
      · exact absurd hdr hneg
      · have hrs : resolvedStart paintAll L = L.drawIndex := by
          unfold resolvedStart resolvedStart0
          rw [if_neg hpa, if_neg hneg]
        rw [hrs]
        obtain ⟨b1, b2⟩ := paintLoop_bounds (L.dirty || paintAll) (layerUseTimer paintAll L)
          (clock z) hd2
        exact ⟨le_trans hd1 b1, b2, fun _ _ => b1⟩

/-! ## One `_doPaintList` call on a single dirty incremental layer (for C2) -/

theorem paintEl_notMem_clearEvs (list : List Element) (pa : Bool) (z : Rat) (L : Layer)
    (x : Int) : PaintEv.paintEl x ∉ layerClearEvs list pa z L := by
  intro h
  unfold layerClearEvs at h
  split at h
  · simp at h
  · split at h
    · split at h
      · split at h
        · simp at h
        · simp at h
      · simp at h
    · simp at h

theorem paintEl_notMem_errEvs (pa : Bool) (L : Layer) (x : Int) :
    PaintEv.paintEl x ∉ layerErrEvs pa L := by
  intro h
  unfold layerErrEvs at h
  split at h
  · simp at h
  · simp at h

theorem singleIncCall_spec (p : Painter) (list : List Element) (c : Rat → Nat → Nat)
    (z : Rat) (L : Layer)
    (hzl : p.zlevelList = [z]) (hL : alookup z p.layers = some L)
    (hb : L.builtin = true) (hinc : L.incremental = true) (hd : L.dirty = true)
    (hhov : p.hoverZ = none) (hdr0 : 0 ≤ L.drawIndex) (hdre : L.drawIndex ≤ L.endIndex) :
    buildLayerList p false = [z] ∧
    alookup z (doPaintList p list false c).p.layers =
      some { L with drawIndex := layerPaintedDraw false c z L } ∧
    L.drawIndex ≤ layerPaintedDraw false c z L ∧
    layerPaintedDraw false c z L ≤ L.endIndex ∧
    (∀ x : Int, PaintEv.paintEl x ∈ (doPaintList p list false c).evs ↔
      (L.drawIndex ≤ x ∧ x ≤ layerPaintedDraw false c z L ∧ x < L.endIndex)) ∧
    (∀ x : Int, List.count (PaintEv.paintEl x) (doPaintList p list false c).evs ≤ 1) ∧
    ((doPaintList p list false c).finished =
      decide (L.endIndex ≤ layerPaintedDraw false c z L)) := by
  have hnd : p.zlevelList.Nodup := by rw [hzl]; simp
  have hbl : buildLayerList p false = [z] := by
    unfold buildLayerList
    rw [hzl]
    show List.filter _ [z] = [z]
    rw [List.filter_cons]
    rw [hL]
    simp [hb, hd, hhov]
  obtain ⟨h1, h2, h3, h4⟩ := doPaintList_spec p list false c hnd
  have hne : ¬L.drawIndex = -1 := by omega
  have hrs : resolvedStart false L = L.drawIndex := by
    unfold resolvedStart resolvedStart0
    simp [hne]
  have hdb : (L.dirty || false) = true := by simp [hd]
  have hpr : layerPaintRes false c z L =
      paintLoop true (layerUseTimer false L) (c z) L.endIndex L.drawIndex := by
    unfold layerPaintRes
    rw [hrs, hdb]
  have hbounds := paintLoop_bounds true (layerUseTimer false L) (c z) hdre
  have hdraw1 : L.drawIndex ≤ layerPaintedDraw false c z L ∧
      layerPaintedDraw false c z L ≤ L.endIndex := by
    unfold layerPaintedDraw
    rw [hpr]
    exact hbounds
  have hevs : (doPaintList p list false c).evs = paintLayerEvents list false c z L := by
    rw [h3, hbl]
    rw [List.flatMap_cons]
    rw [hL]
    simp
  refine ⟨hbl, ?_, hdraw1.1, hdraw1.2, ?_, ?_, ?_⟩
  · rw [h2 z (by rw [hbl]; exact List.mem_cons_self z []), hL]
    rfl
  · intro x
    rw [hevs]
    unfold paintLayerEvents
    constructor
    · intro hmem
      rcases List.mem_append.1 hmem with hmem | hmem
      · rcases List.mem_append.1 hmem with hmem | hmem
        · exact absurd hmem (paintEl_notMem_clearEvs list false z L x)
        · exact absurd hmem (paintEl_notMem_errEvs false L x)
      · rw [hpr] at hmem
        have := (paintLoop_mem (layerUseTimer false L) (c z) hdre x).1 hmem
        refine ⟨this.1, ?_, this.2.2⟩
        unfold layerPaintedDraw
        rw [hpr]
        exact this.2.1
    · intro ⟨hx1, hx2, hx3⟩
      refine List.mem_append.2 (Or.inr ?_)
      rw [hpr]
      refine (paintLoop_mem (layerUseTimer false L) (c z) hdre x).2 ⟨hx1, ?_, hx3⟩
      unfold layerPaintedDraw at hx2
      rw [hpr] at hx2
      exact hx2
  · intro x
    rw [hevs]
    unfold paintLayerEvents
    rw [List.count_append, List.count_append]
    rw [List.count_eq_zero.2 (paintEl_notMem_clearEvs list false z L x),
      List.count_eq_zero.2 (paintEl_notMem_errEvs false L x)]
    rw [hpr]
    simpa using paintLoop_count (layerUseTimer false L) (c z) L.endIndex L.drawIndex x
  · rw [h4, hbl]
    rw [List.all_cons]
    rw [hL]
    simp

theorem doPaintChain_cons (list : List Element) (c : Rat → Nat → Nat)
    (rest : List (Rat → Nat → Nat)) (p : Painter) :
    doPaintChain list (c :: rest) p =
      (if (doPaintList p list false c).finished then
        ((doPaintList p list false c).p, (doPaintList p list false c).evs,
          (match alookup (match p.zlevelList with | [] => 0 | z0 :: _ => z0)
              (doPaintList p list false c).p.layers with
           | some L0 => [L0.drawIndex]
           | none => []))
      else
        ((doPaintChain list rest (doPaintList p list false c).p).1,
          (doPaintList p list false c).evs ++
            (doPaintChain list rest (doPaintList p list false c).p).2.1,
          (match alookup (match p.zlevelList with | [] => 0 | z0 :: _ => z0)
              (doPaintList p list false c).p.layers with
           | some L0 => [L0.drawIndex]
           | none => []) ++
            (doPaintChain list rest (doPaintList p list false c).p).2.2)) := rfl

theorem doPaintChain_spec (list : List Element) :
    ∀ (clocks : List (Rat → Nat → Nat)), clocks ≠ [] →
      ∀ (p : Painter) (z : Rat) (L : Layer),
      p.zlevelList = [z] → alookup z p.layers = some L →
      L.builtin = true → L.incremental = true → L.dirty = true → p.hoverZ = none →
      0 ≤ L.drawIndex → L.drawIndex ≤ L.endIndex →
      ∃ dq,
        alookup z (doPaintChain list clocks p).1.layers = some { L with drawIndex := dq } ∧
        L.drawIndex ≤ dq ∧ dq ≤ L.endIndex ∧
        (∀ x : Int, PaintEv.paintEl x ∈ (doPaintChain list clocks p).2.1 ↔
          (L.drawIndex ≤ x ∧ x ≤ dq ∧ x < L.endIndex)) ∧
        (∀ x : Int, 2 ≤ List.count (PaintEv.paintEl x) (doPaintChain list clocks p).2.1 →
          x ∈ (doPaintChain list clocks p).2.2 ∧ x < L.endIndex) := by
  intro clocks
  induction clocks with
  | nil => intro h; exact absurd rfl h
  | cons c rest ih =>
    intro _ p z L hzl hL hb hinc hd hhov hdr0 hdre
    obtain ⟨hbl, hlook, hd1a, hd1b, hmem, hcount, hfin⟩ :=
      singleIncCall_spec p list c z L hzl hL hb hinc hd hhov hdr0 hdre
    have h0 : (match p.zlevelList with | [] => (0 : Rat) | z0 :: _ => z0) = z := by
      rw [hzl]
    have hdmatch : (match alookup (match p.zlevelList with | [] => (0 : Rat) | z0 :: _ => z0)
        (doPaintList p list false c).p.layers with
        | some L0 => [L0.drawIndex]
        | none => ([] : List Int)) = [layerPaintedDraw false c z L] := by
      rw [h0, hlook]
    by_cases hdone : L.endIndex ≤ layerPaintedDraw false c z L
    · have hfint : (doPaintList p list false c).finished = true := by
        rw [hfin]
        exact decide_eq_true hdone
      have hres : doPaintChain list (c :: rest) p =
          ((doPaintList p list false c).p, (doPaintList p list false c).evs,
            [layerPaintedDraw false c z L]) := by
        rw [doPaintChain_cons, if_pos hfint, hdmatch]
      refine ⟨layerPaintedDraw false c z L, ?_, hd1a, hd1b, ?_, ?_⟩
      · rw [hres]
        exact hlook
      · intro x
        rw [hres]
        exact hmem x
      · intro x hcx
        rw [hres] at hcx
        have hcx' : 2 ≤ List.count (PaintEv.paintEl x) (doPaintList p list false c).evs := hcx
        have := hcount x
        omega
    · have hfinf : (doPaintList p list false c).finished = false := by
        rw [hfin]
        exact decide_eq_false hdone
      cases rest with
      | nil =>
        have hres : doPaintChain list [c] p =
            ((doPaintList p list false c).p,
              (doPaintList p list false c).evs ++ [],
              [layerPaintedDraw false c z L] ++ []) := by
          rw [doPaintChain_cons, if_neg (by rw [hfinf]; exact Bool.false_ne_true), hdmatch]
          rfl
        rw [List.append_nil, List.append_nil] at hres
        refine ⟨layerPaintedDraw false c z L, ?_, hd1a, hd1b, ?_, ?_⟩
        · rw [hres]
          exact hlook
        · intro x
          rw [hres]
          exact hmem x
        · intro x hcx
          rw [hres] at hcx
          have hcx' : 2 ≤ List.count (PaintEv.paintEl x)
              (doPaintList p list false c).evs := hcx
          have := hcount x
          omega
      | cons c2 rest2 =>
        obtain ⟨ls, hsh⟩ := doPaintList_shape p list false c
        have hzl2 : (doPaintList p list false c).p.zlevelList = [z] := by
          rw [hsh]
          exact hzl
        have hhov2 : (doPaintList p list false c).p.hoverZ = none := by
          rw [hsh]
          exact hhov
        obtain ⟨dq, hq1, hq2, hq3, hq4, hq5⟩ := ih (by simp)
          (doPaintList p list false c).p z
          ({ L with drawIndex := layerPaintedDraw false c z L })
          hzl2 hlook hb hinc hd hhov2 (le_trans hdr0 hd1a) hd1b
        have hq2' : layerPaintedDraw false c z L ≤ dq := hq2
        have hq3' : dq ≤ L.endIndex := hq3
        have hq4' : ∀ x : Int,
            PaintEv.paintEl x ∈
              (doPaintChain list (c2 :: rest2) (doPaintList p list false c).p).2.1 ↔
            (layerPaintedDraw false c z L ≤ x ∧ x ≤ dq ∧ x < L.endIndex) := hq4
        have hres : doPaintChain list (c :: c2 :: rest2) p =
            ((doPaintChain list (c2 :: rest2) (doPaintList p list false c).p).1,
              (doPaintList p list false c).evs ++
                (doPaintChain list (c2 :: rest2) (doPaintList p list false c).p).2.1,
              [layerPaintedDraw false c z L] ++
                (doPaintChain list (c2 :: rest2) (doPaintList p list false c).p).2.2) := by
          rw [doPaintChain_cons, if_neg (by rw [hfinf]; exact Bool.false_ne_true), hdmatch]
        refine ⟨dq, ?_, le_trans hd1a hq2', hq3', ?_, ?_⟩
        · rw [hres]
          exact hq1
        · intro x
          rw [hres]
          show PaintEv.paintEl x ∈ _ ++ _ ↔ _
          rw [List.mem_append]
          constructor
          · intro hx
            rcases hx with hx | hx
            · obtain ⟨a1, a2, a3⟩ := (hmem x).1 hx
              exact ⟨a1, by omega, a3⟩
            · obtain ⟨a1, a2, a3⟩ := (hq4' x).1 hx
              exact ⟨by omega, a2, a3⟩
          · intro ⟨a1, a2, a3⟩
            by_cases hcase : x ≤ layerPaintedDraw false c z L
            · exact Or.inl ((hmem x).2 ⟨a1, hcase, a3⟩)
            · exact Or.inr ((hq4' x).2 ⟨by omega, a2, a3⟩)
        · intro x hcx
          rw [hres] at hcx ⊢
          show x ∈ _ ++ _ ∧ _
          rw [List.count_append] at hcx
          rw [List.mem_append]
          have hc1 := hcount x
          by_cases hm2 : 2 ≤ List.count (PaintEv.paintEl x)
              (doPaintChain list (c2 :: rest2) (doPaintList p list false c).p).2.1
          · obtain ⟨ht, hlt⟩ := hq5 x hm2
            exact ⟨Or.inr ht, hlt⟩
          · have hone1 : 1 ≤ List.count (PaintEv.paintEl x)
                (doPaintList p list false c).evs := by omega
            have hone2 : 1 ≤ List.count (PaintEv.paintEl x)
                (doPaintChain list (c2 :: rest2) (doPaintList p list false c).p).2.1 := by
              omega
            have hmem1 := (hmem x).1 (List.one_le_count_iff.1 hone1)
            have hmem2 := (hq4' x).1 (List.one_le_count_iff.1 hone2)
            have hxd : x = layerPaintedDraw false c z L := by omega
            refine ⟨Or.inl ?_, hmem1.2.2⟩
            rw [hxd]
            exact List.mem_cons_self _ _

/-! ## C2: the time-sliced incremental pass -/

/-- C2 (counterexample to the claim as stated): on a dirty incremental layer
owning `[0, 2)` with `__drawIndex = 0`, a clock that exceeds the 15 ms
budget right after the first paint makes `_doPaintList` paint exactly
element 0 and then store `__drawIndex = 0` — the index of the element just
painted, not `1`, the first element not yet painted.  A continuation
resuming from `__drawIndex` (second conjunct, with a generous clock)
therefore paints element 0 a second time: across the pass the boundary
element is painted twice. -/
theorem c2_counterexample_break_leaves_draw_at_last_painted :
    (doPaintList fixtureIncPainter incList2 false clk16).evs = [PaintEv.paintEl 0] ∧
    (alookup 0 (doPaintList fixtureIncPainter incList2 false clk16).p.layers).map
      Layer.drawIndex = some 0 ∧
    ((alookup 0 (doPaintList fixtureIncPainter incList2 false clk16).p.layers).map
      Layer.drawIndex ≠ some 1) ∧
    List.count (PaintEv.paintEl 0)
      (doPaintChain incList2 [clk16, clkZero] fixtureIncPainter).2.1 = 2 := by
  refine ⟨by decide, by decide, by decide, by decide⟩

/-- C2 (amended): for a single dirty incremental engine-built layer painted
without `forceAll`, when the elapsed time exceeds the 15 ms budget after
painting some element, the pass stops with `__drawIndex` equal to the index
of the **last element painted** (one before the first unpainted index):
within the call that index is painted and no later index is.  Across the
time-sliced pass — the paint call plus continuations resuming from
`__drawIndex`, with no clear and no reclassification in between — every
element of `[drawIndex, min(final drawIndex + 1, endIndex))` is painted at
least once and nothing outside it; an element is painted more than once
only if it is one of the recorded per-frame stop indices (each continuation
repaints exactly the boundary element where the previous frame stopped). -/
theorem c2_amended_time_sliced_pass (p : Painter) (list : List Element) (z : Rat)
    (L : Layer) (clocks : List (Rat → Nat → Nat))
    (hzl : p.zlevelList = [z]) (hL : alookup z p.layers = some L)
    (hb : L.builtin = true) (hinc : L.incremental = true) (hd : L.dirty = true)
    (hhov : p.hoverZ = none) (hdr0 : 0 ≤ L.drawIndex) (hdre : L.drawIndex ≤ L.endIndex)
    (hclk : clocks ≠ []) :
    (∀ (c : Rat → Nat → Nat) (d1 : Int),
      alookup z (doPaintList p list false c).p.layers = some { L with drawIndex := d1 } →
      d1 < L.endIndex →
      (PaintEv.paintEl d1 ∈ (doPaintList p list false c).evs ∧
       ∀ x : Int, PaintEv.paintEl x ∈ (doPaintList p list false c).evs → x ≤ d1)) ∧
    (∃ dq,
      alookup z (doPaintChain list clocks p).1.layers = some { L with drawIndex := dq } ∧
      L.drawIndex ≤ dq ∧ dq ≤ L.endIndex ∧
      (∀ x : Int, PaintEv.paintEl x ∈ (doPaintChain list clocks p).2.1 ↔
        (L.drawIndex ≤ x ∧ x ≤ dq ∧ x < L.endIndex)) ∧
      (∀ x : Int, 2 ≤ List.count (PaintEv.paintEl x) (doPaintChain list clocks p).2.1 →
        x ∈ (doPaintChain list clocks p).2.2 ∧ x < L.endIndex)) := by
  constructor
  · intro c d1 hlk hlt
    obtain ⟨hbl, hlook, hd1a, hd1b, hmem, hcount, hfin⟩ :=
      singleIncCall_spec p list c z L hzl hL hb hinc hd hhov hdr0 hdre
    have heq : ({ L with drawIndex := d1 } : Layer) =
        { L with drawIndex := layerPaintedDraw false c z L } := by
      rw [hlk] at hlook
      exact Option.some.inj hlook
    have hdeq : d1 = layerPaintedDraw false c z L := congrArg Layer.drawIndex heq
    subst hdeq
    constructor
    · exact (hmem _).2 ⟨hd1a, le_refl _, hlt⟩
    · intro x hx
      exact ((hmem x).1 hx).2.1
  · exact doPaintChain_spec list clocks hclk p z L hzl hL hb hinc hd hhov hdr0 hdre

theorem c2_witness :
    ∃ dq,
      alookup 0 (doPaintChain incList2 [clk16, clkZero] fixtureIncPainter).1.layers =
        some { fixtureIncLayer with drawIndex := dq } ∧
      fixtureIncLayer.drawIndex ≤ dq ∧ dq ≤ fixtureIncLayer.endIndex ∧
      (∀ x : Int,
        PaintEv.paintEl x ∈ (doPaintChain incList2 [clk16, clkZero] fixtureIncPainter).2.1 ↔
        (fixtureIncLayer.drawIndex ≤ x ∧ x ≤ dq ∧ x < fixtureIncLayer.endIndex)) ∧
      (∀ x : Int,
        2 ≤ List.count (PaintEv.paintEl x)
          (doPaintChain incList2 [clk16, clkZero] fixtureIncPainter).2.1 →
        x ∈ (doPaintChain incList2 [clk16, clkZero] fixtureIncPainter).2.2 ∧
          x < fixtureIncLayer.endIndex) :=
  (c2_amended_time_sliced_pass fixtureIncPainter incList2 0 fixtureIncLayer
    [clk16, clkZero] (by decide) (by decide) (by decide) (by decide) (by decide)
    (by decide) (by decide) (by decide) (by simp)).2

/-! ## Effect of `getLayer` on the layer map and the z-level list -/

theorem mem_spliceInsert (l : List Rat) (idx : Nat) (z k : Rat) :
    k ∈ spliceInsert l idx z ↔ k = z ∨ k ∈ l := by
  unfold spliceInsert
  rw [List.mem_append, List.mem_cons]
  constructor
  · rintro (h | h | h)
    · exact Or.inr (List.mem_of_mem_take h)
    · exact Or.inl h
    · exact Or.inr (List.mem_of_mem_drop h)
  · rintro (h | h)
    · exact Or.inr (Or.inl h)
    · rw [← List.take_append_drop idx l, List.mem_append] at h
      rcases h with h | h
      · exact Or.inl h
      · exact Or.inr (Or.inr h)

theorem nodup_spliceInsert {l : List Rat} {z : Rat} (idx : Nat)
    (hnd : l.Nodup) (hz : z ∉ l) : (spliceInsert l idx z).Nodup := by
  unfold spliceInsert
  rw [List.nodup_middle, List.nodup_cons, List.take_append_drop]
  exact ⟨hz, hnd⟩

theorem createdLayer_fields (p : Painter) (z : Rat) (v : Bool) :
    (createdLayer p z v).builtin = true ∧ (createdLayer p z v).used = false ∧
    (createdLayer p z v).dirty = true ∧ (createdLayer p z v).startIndex = 0 ∧
    (createdLayer p z v).endIndex = 0 ∧ (createdLayer p z v).drawIndex = 0 ∧
    (createdLayer p z v).incremental = false := by
  unfold createdLayer
  cases alookup z p.layerConfig <;> cases v <;>
    simp [mergeConfigIntoLayer, Layer.new]

theorem isLayerValid_createdLayer (p : Painter) (z : Rat) (v : Bool) :
    isLayerValid (some (createdLayer p z v)) = true := by
  show (if (createdLayer p z v).builtin = true then true
    else if ¬(createdLayer p z v).hasResize = true ∨ ¬(createdLayer p z v).hasRefresh = true
      then false else true) = true
  rw [(createdLayer_fields p z v).1]
  rfl

theorem insertLayer_free (p : Painter) (zlevel : Rat) (layer : Layer)
    (h : alookup zlevel p.layers = none) (hv : isLayerValid (some layer) = true) :
    ∃ idx, (insertLayer p zlevel layer).1 =
      { p with zlevelList := spliceInsert p.zlevelList idx zlevel,
               layers := aset zlevel layer p.layers } := by
  unfold insertLayer
  rw [h]
  simp only [Option.isSome_none, Bool.false_eq_true, if_false, hv, not_true_eq_false]
  exact ⟨_, rfl⟩

theorem getLayer_snd (p : Painter) (zl : Rat) (v : Bool) :
    (getLayer p zl v).2 =
      (if p.singleCanvas ∧ ¬p.needsManuallyCompositing then CANVAS_ZLEVEL else zl) := by
  unfold getLayer
  cases hl : alookup (if p.singleCanvas ∧ ¬p.needsManuallyCompositing then CANVAS_ZLEVEL
      else zl) p.layers <;> simp only [hl]

theorem getLayer_fst (p : Painter) (zl : Rat) (v : Bool) :
    (getLayer p zl v).1 =
      (match alookup (getLayer p zl v).2 p.layers with
       | some _ => p
       | none => (insertLayer p (getLayer p zl v).2 (createdLayer p (getLayer p zl v).2 v)).1) := by
  rw [getLayer_snd]
  show (getLayer p zl v).1 = _
  unfold getLayer
  cases hl : alookup (if p.singleCanvas ∧ ¬p.needsManuallyCompositing then CANVAS_ZLEVEL
      else zl) p.layers with
  | some L =>
    simp only [hl]
  | none =>
    simp only [hl]
    rfl

theorem getLayer_lookup (p : Painter) (zl : Rat) (v : Bool) (k : Rat) :
    alookup k (getLayer p zl v).1.layers =
      (if k = (getLayer p zl v).2 then
        some ((alookup (getLayer p zl v).2 p.layers).getD (createdLayer p (getLayer p zl v).2 v))
       else alookup k p.layers) := by
  rw [getLayer_fst]
  cases hl : alookup (getLayer p zl v).2 p.layers with
  | some L =>
    by_cases hk : k = (getLayer p zl v).2
    · subst hk
      rw [if_pos rfl, hl]
      rfl
    · rw [if_neg hk]
  | none =>
    obtain ⟨idx, he⟩ := insertLayer_free p (getLayer p zl v).2 (createdLayer p (getLayer p zl v).2 v)
      hl (isLayerValid_createdLayer p (getLayer p zl v).2 v)
    rw [he]
    by_cases hk : k = (getLayer p zl v).2
    · subst hk
      rw [if_pos rfl]
      show alookup (getLayer p zl v).2 (aset (getLayer p zl v).2 _ p.layers) = _
      rw [alookup_aset_self]
      rfl
    · rw [if_neg hk]
      show alookup k (aset (getLayer p zl v).2 _ p.layers) = _
      rw [alookup_aset_ne (fun he2 => hk he2.symm)]

theorem MapSync_getLayer (p : Painter) (zl : Rat) (v : Bool) (h : MapSync p) :
    MapSync (getLayer p zl v).1 := by
  rw [getLayer_fst]
  cases hl : alookup (getLayer p zl v).2 p.layers with
  | some L => exact h
  | none =>
    obtain ⟨idx, he⟩ := insertLayer_free p (getLayer p zl v).2 (createdLayer p (getLayer p zl v).2 v)
      hl (isLayerValid_createdLayer p (getLayer p zl v).2 v)
    rw [he]
    have hz : (getLayer p zl v).2 ∉ p.zlevelList := by
      intro hm
      have := (h.2 _).1 hm
      rw [hl] at this
      exact absurd this (by simp)
    refine ⟨nodup_spliceInsert idx h.1 hz, ?_⟩
    intro k
    show k ∈ spliceInsert p.zlevelList idx (getLayer p zl v).2 ↔
      (alookup k (aset (getLayer p zl v).2 _ p.layers)).isSome = true
    rw [mem_spliceInsert]
    by_cases hk : k = (getLayer p zl v).2
    · subst hk
      rw [alookup_aset_self]
      simp
    · rw [alookup_aset_ne (fun he2 => hk he2.symm)]
      simp [hk, h.2 k]

/-! ## Effect of one classification step on the layer map -/

theorem alookup_updatePrevLayer (layers : List (Rat × Layer)) (prevO : Option Rat)
    (idx : Int) (k : Rat) :
    alookup k (updatePrevLayer layers prevO idx) =
      (if prevO = some k then (alookup k layers).map (closeUpd idx) else alookup k layers) := by
  cases prevO with
  | none =>
    rw [if_neg (by simp)]
    rfl
  | some k0 =>
    show alookup k (amodify k0 (closeUpd idx) layers) = _
    by_cases hk : k0 = k
    · subst hk
      rw [if_pos rfl, alookup_amodify_self]
    · rw [if_neg (fun he => hk (Option.some.inj he)), alookup_amodify_ne hk]

theorem stepLayers_lookup (key : Rat) (prevO : Option Rat) (i : Nat) (el : Element)
    (m : List (Rat × Layer)) (k : Rat) :
    alookup k (stepLayers key prevO i el m) =
      (if k = key then
        (alookup key m).map (fun L =>
          let L1 := if el.incremental then { L with incremental := true } else L
          let L2 := if some key ≠ prevO then runOpenUpd i L1 else L1
          if el.dirty then elDirtyUpd i L2 else L2)
       else if some key ≠ prevO ∧ prevO = some k then
        (alookup k m).map (closeUpd (i : Int))
       else alookup k m) := by
  unfold stepLayers
  dsimp only
  by_cases hrun : some key ≠ prevO
  · have hpneg : ¬(prevO = some key) := fun he => hrun he.symm
    rw [decide_eq_true hrun, if_pos rfl]
    by_cases hk : k = key
    · subst hk
      rw [if_pos rfl]
      cases hd : el.dirty <;> cases hinc : el.incremental <;>
        simp only [Bool.false_eq_true, if_false, if_true]
      · rw [alookup_updatePrevLayer, if_neg hpneg, alookup_amodify_self]
        cases alookup k m <;> simp [hrun]
      · rw [alookup_updatePrevLayer, if_neg hpneg, alookup_amodify_self, alookup_amodify_self]
        cases alookup k m <;> simp [hrun]
      · rw [alookup_amodify_self, alookup_updatePrevLayer, if_neg hpneg, alookup_amodify_self]
        cases alookup k m <;> simp [hrun]
      · rw [alookup_amodify_self, alookup_updatePrevLayer, if_neg hpneg, alookup_amodify_self,
          alookup_amodify_self]
        cases alookup k m <;> simp [hrun]
    · have hkne : key ≠ k := fun he => hk he.symm
      rw [if_neg hk]
      by_cases hp : prevO = some k
      · rw [if_pos (show (some key ≠ prevO) ∧ prevO = some k from ⟨hrun, hp⟩)]
        cases hd : el.dirty <;> cases hinc : el.incremental <;>
          simp only [Bool.false_eq_true, if_false, if_true]
        · rw [alookup_updatePrevLayer, if_pos hp, alookup_amodify_ne hkne]
        · rw [alookup_updatePrevLayer, if_pos hp, alookup_amodify_ne hkne,
            alookup_amodify_ne hkne]
        · rw [alookup_amodify_ne hkne, alookup_updatePrevLayer, if_pos hp,
            alookup_amodify_ne hkne]
        · rw [alookup_amodify_ne hkne, alookup_updatePrevLayer, if_pos hp,
            alookup_amodify_ne hkne, alookup_amodify_ne hkne]
      · rw [if_neg (fun h : (some key ≠ prevO) ∧ prevO = some k => hp h.2)]
        cases hd : el.dirty <;> cases hinc : el.incremental <;>
          simp only [Bool.false_eq_true, if_false, if_true]
        · rw [alookup_updatePrevLayer, if_neg hp, alookup_amodify_ne hkne]
        · rw [alookup_updatePrevLayer, if_neg hp, alookup_amodify_ne hkne,
            alookup_amodify_ne hkne]
        · rw [alookup_amodify_ne hkne, alookup_updatePrevLayer, if_neg hp,
            alookup_amodify_ne hkne]
        · rw [alookup_amodify_ne hkne, alookup_updatePrevLayer, if_neg hp,
            alookup_amodify_ne hkne, alookup_amodify_ne hkne]
  · rw [decide_eq_false hrun]
    simp only [Bool.false_eq_true, if_false]
    by_cases hk : k = key
    · subst hk
      rw [if_pos rfl]
      cases hd : el.dirty <;> cases hinc : el.incremental <;>
        simp only [Bool.false_eq_true, if_false, if_true]
      · cases alookup k m <;> simp [hrun]
      · rw [alookup_amodify_self]
        cases alookup k m <;> simp [hrun]
      · rw [alookup_amodify_self]
        cases alookup k m <;> simp [hrun]
      · rw [alookup_amodify_self, alookup_amodify_self]
        cases alookup k m <;> simp [hrun]
    · have hkne : key ≠ k := fun he => hk he.symm
      rw [if_neg hk, if_neg (fun h : (some key ≠ prevO) ∧ prevO = some k => hrun h.1)]
      cases hd : el.dirty <;> cases hinc : el.incremental <;>
        simp only [Bool.false_eq_true, if_false, if_true] <;>
        first
          | rw [alookup_amodify_ne hkne, alookup_amodify_ne hkne]
          | rw [alookup_amodify_ne hkne]
          | rfl

theorem classifyStep_prev (acc : CAcc) (i : Nat) (el : Element) :
    (classifyStep acc i el).prev =
      (if some (stepKey acc el) ≠ acc.prev then some (stepKey acc el) else acc.prev) := by
  have main : ∀ zl : Rat,
      (getLayer acc.p zl acc.p.needsManuallyCompositing).2 = stepKey acc el →
      (if decide (some (getLayer acc.p zl acc.p.needsManuallyCompositing).2 ≠ acc.prev) = true
        then some (getLayer acc.p zl acc.p.needsManuallyCompositing).2 else acc.prev) =
      (if some (stepKey acc el) ≠ acc.prev then some (stepKey acc el) else acc.prev) := by
    intro zl hz
    rw [hz]
    by_cases hrun : some (stepKey acc el) ≠ acc.prev
    · rw [decide_eq_true hrun, if_pos rfl, if_pos hrun]
    · rw [decide_eq_false hrun, if_neg hrun]
      simp
  unfold classifyStep
  dsimp only
  cases hinc : el.incremental
  · simp only [Bool.false_eq_true, if_false]
    exact main _ (by rw [getLayer_snd]; simp [stepKey, hinc])
  · simp only [if_true]
    exact main _ (by rw [getLayer_snd]; simp [stepKey, hinc])

theorem classifyStep_incCount (acc : CAcc) (i : Nat) (el : Element) :
    (classifyStep acc i el).incCount = (if el.incremental then 1 else acc.incCount) := rfl

theorem classifyStep_lookup (acc : CAcc) (i : Nat) (el : Element) (k : Rat) :
    alookup k (classifyStep acc i el).p.layers =
      (if k = stepKey acc el then
        some (stepLayerUpd acc i el
          ((alookup (stepKey acc el) acc.p.layers).getD
            (createdLayer acc.p (stepKey acc el) acc.p.needsManuallyCompositing)))
       else if some (stepKey acc el) ≠ acc.prev ∧ acc.prev = some k then
        (alookup k acc.p.layers).map (closeUpd (i : Int))
       else alookup k acc.p.layers) := by
  have main : ∀ zl : Rat,
      (getLayer acc.p zl acc.p.needsManuallyCompositing).2 = stepKey acc el →
      alookup k (stepLayers (getLayer acc.p zl acc.p.needsManuallyCompositing).2 acc.prev i el
        (getLayer acc.p zl acc.p.needsManuallyCompositing).1.layers) =
      (if k = stepKey acc el then
        some (stepLayerUpd acc i el
          ((alookup (stepKey acc el) acc.p.layers).getD
            (createdLayer acc.p (stepKey acc el) acc.p.needsManuallyCompositing)))
       else if some (stepKey acc el) ≠ acc.prev ∧ acc.prev = some k then
        (alookup k acc.p.layers).map (closeUpd (i : Int))
       else alookup k acc.p.layers) := by
    intro zl hz
    have hlk : ∀ x, alookup x (getLayer acc.p zl acc.p.needsManuallyCompositing).1.layers =
        (if x = stepKey acc el then
          some ((alookup (stepKey acc el) acc.p.layers).getD
            (createdLayer acc.p (stepKey acc el) acc.p.needsManuallyCompositing))
         else alookup x acc.p.layers) := by
      intro x
      rw [getLayer_lookup, hz]
    rw [hz, stepLayers_lookup]
    by_cases hk : k = stepKey acc el
    · rw [if_pos hk, if_pos hk, hlk (stepKey acc el), if_pos rfl]
      rfl
    · rw [if_neg hk, if_neg hk, hlk k, if_neg hk]
  unfold classifyStep
  dsimp only
  cases hinc : el.incremental
  · simp only [Bool.false_eq_true, if_false]
    exact main _ (by rw [getLayer_snd]; simp [stepKey, hinc])
  · simp only [if_true]
    exact main _ (by rw [getLayer_snd]; simp [stepKey, hinc])

/-! ## The classification walk keeps every layer's indices consistent -/

theorem OpenOK_mono {i : Nat} {L : Layer} (h : OpenOK i L) : OpenOK (i + 1) L := by
  unfold OpenOK at h ⊢
  push_cast
  omega

theorem stepLayerUpd_open (acc : CAcc) (i : Nat) (el : Element) (L : Layer)
    (hrun : some (stepKey acc el) ≠ acc.prev) :
    OpenOK (i + 1) (stepLayerUpd acc i el L) := by
  unfold stepLayerUpd runOpenUpd elDirtyUpd OpenOK
  dsimp only
  rw [if_pos hrun]
  split_ifs <;>
    (dsimp only at *; push_cast;
     try simp only [true_or, false_or, and_true, true_and];
     omega)

theorem stepLayerUpd_cont (acc : CAcc) (i : Nat) (el : Element) (L : Layer)
    (hrun : ¬some (stepKey acc el) ≠ acc.prev) (h : OpenOK i L) :
    OpenOK (i + 1) (stepLayerUpd acc i el L) := by
  unfold OpenOK at h
  obtain ⟨h1, h2, h3⟩ := h
  unfold stepLayerUpd elDirtyUpd OpenOK
  dsimp only
  rw [if_neg hrun]
  split_ifs <;>
    ((try dsimp only at *); push_cast at *;
     try simp only [true_or, false_or, and_true, true_and];
     omega)

theorem stepLayerUpd_cont_created (acc : CAcc) (i : Nat) (el : Element)
    (hrun : ¬some (stepKey acc el) ≠ acc.prev) :
    OpenOK (i + 1) (stepLayerUpd acc i el
      (createdLayer acc.p (stepKey acc el) acc.p.needsManuallyCompositing)) := by
  obtain ⟨hb, hu, hd, hs, he, hdr, hi⟩ :=
    createdLayer_fields acc.p (stepKey acc el) acc.p.needsManuallyCompositing
  unfold stepLayerUpd elDirtyUpd OpenOK
  dsimp only
  rw [if_neg hrun]
  split_ifs <;>
    ((try dsimp only at *); simp_all;
     try (push_cast; simp only [true_or, false_or, and_true, true_and]);
     try omega)

theorem closeUpd_settled (n : Nat) (L : Layer) (h : OpenOK n L) :
    SettledOK (closeUpd (n : Int) L) := by
  unfold OpenOK at h
  unfold SettledOK closeUpd
  dsimp only
  intro _
  push_cast at h ⊢
  omega

theorem classifyStep_inv (acc : CAcc) (i : Nat) (el : Element)
    (h : ClassInv acc i) : ClassInv (classifyStep acc i el) (i + 1) := by
  intro k L hlk
  rw [classifyStep_lookup] at hlk
  have hprev := classifyStep_prev acc i el
  by_cases hrun : some (stepKey acc el) ≠ acc.prev
  · rw [if_pos hrun] at hprev
    by_cases hk : k = stepKey acc el
    · rw [if_pos hk] at hlk
      have hL : L = stepLayerUpd acc i el
          ((alookup (stepKey acc el) acc.p.layers).getD
            (createdLayer acc.p (stepKey acc el) acc.p.needsManuallyCompositing)) :=
        (Option.some.inj hlk).symm
      constructor
      · intro _
        rw [hL]
        exact stepLayerUpd_open acc i el _ hrun
      · intro hne
        rw [hprev, hk] at hne
        exact absurd rfl hne
    · rw [if_neg hk] at hlk
      by_cases hp : acc.prev = some k
      · rw [if_pos (show (some (stepKey acc el) ≠ acc.prev) ∧ acc.prev = some k
            from ⟨hrun, hp⟩)] at hlk
        cases hl0 : alookup k acc.p.layers with
        | none =>
          rw [hl0] at hlk
          exact absurd hlk (by simp)
        | some L0 =>
          rw [hl0] at hlk
          have hL : L = closeUpd (i : Int) L0 := (Option.some.inj hlk).symm
          have hopen : OpenOK i L0 := (h k L0 hl0).1 hp
          constructor
          · intro hps
            rw [hprev] at hps
            exact absurd (Option.some.inj hps).symm hk
          · intro _
            rw [hL]
            exact closeUpd_settled i L0 hopen
      · rw [if_neg (fun hc : (some (stepKey acc el) ≠ acc.prev) ∧ acc.prev = some k =>
          hp hc.2)] at hlk
        have hpair := h k L hlk
        constructor
        · intro hps
          rw [hprev] at hps
          exact absurd (Option.some.inj hps).symm hk
        · intro _
          exact hpair.2 hp
  · rw [if_neg hrun] at hprev
    have hpeq : acc.prev = some (stepKey acc el) := (not_not.1 hrun).symm
    by_cases hk : k = stepKey acc el
    · rw [if_pos hk] at hlk
      constructor
      · intro _
        cases hl0 : alookup (stepKey acc el) acc.p.layers with
        | some L0 =>
          rw [hl0] at hlk
          have hL : L = stepLayerUpd acc i el L0 := (Option.some.inj hlk).symm
          have hopen : OpenOK i L0 := (h _ L0 hl0).1 hpeq
          rw [hL]
          exact stepLayerUpd_cont acc i el L0 hrun hopen
        | none =>
          rw [hl0] at hlk
          have hL : L = stepLayerUpd acc i el
              (createdLayer acc.p (stepKey acc el) acc.p.needsManuallyCompositing) :=
            (Option.some.inj hlk).symm
          rw [hL]
          exact stepLayerUpd_cont_created acc i el hrun
      · intro hne
        exact absurd (hprev.trans (hpeq.trans (show some (stepKey acc el) = some k from by rw [hk]))) hne
    · rw [if_neg hk,
        if_neg (fun hc : (some (stepKey acc el) ≠ acc.prev) ∧ acc.prev = some k =>
          hrun hc.1)] at hlk
      have hpair := h k L hlk
      constructor
      · intro hps
        rw [hprev] at hps
        exact OpenOK_mono (hpair.1 hps)
      · intro hne
        rw [hprev] at hne
        exact hpair.2 hne

theorem classifyLoop_inv (list : List Element) :
    ∀ (acc : CAcc) (i : Nat), ClassInv acc i →
      ClassInv (classifyLoop acc i list) (i + list.length) := by
  induction list with
  | nil =>
    intro acc i h
    simpa using h
  | cons el rest ih =>
    intro acc i h
    have hstep := classifyStep_inv acc i el h
    have := ih (classifyStep acc i el) (i + 1) hstep
    show ClassInv (classifyLoop (classifyStep acc i el) (i + 1) rest) (i + (rest.length + 1))
    rw [show i + (rest.length + 1) = (i + 1) + rest.length from by omega]
    exact this

/-! ## The z-level list and layer map stay synchronised through classification -/

theorem isSome_map_eq {α β : Type} (f : α → β) (o : Option α) :
    (o.map f).isSome = o.isSome := by
  cases o <;> rfl

theorem isSome_stepLayers (key : Rat) (prevO : Option Rat) (i : Nat) (el : Element)
    (m : List (Rat × Layer)) (k : Rat) :
    (alookup k (stepLayers key prevO i el m)).isSome = (alookup k m).isSome := by
  rw [stepLayers_lookup]
  by_cases hk : k = key
  · subst hk
    rw [if_pos rfl, isSome_map_eq]
  · rw [if_neg hk]
    split_ifs
    · rw [isSome_map_eq]
    · rfl

theorem isSome_modifyAll (f : Layer → Layer) (zs : List Rat) (m : List (Rat × Layer))
    (k : Rat) : (alookup k (modifyAll f zs m)).isSome = (alookup k m).isSome := by
  induction zs generalizing m with
  | nil => rfl
  | cons z rest ih =>
    rw [modifyAll_cons, ih, alookup_amodify]
    split_ifs
    · rw [isSome_map_eq]
    · rfl

theorem isSome_updatePrevLayer (layers : List (Rat × Layer)) (prevO : Option Rat)
    (idx : Int) (k : Rat) :
    (alookup k (updatePrevLayer layers prevO idx)).isSome = (alookup k layers).isSome := by
  rw [alookup_updatePrevLayer]
  split_ifs
  · rw [isSome_map_eq]
  · rfl

theorem MapSync_classifyStep (acc : CAcc) (i : Nat) (el : Element) (h : MapSync acc.p) :
    MapSync (classifyStep acc i el).p := by
  have main : ∀ zl : Rat,
      MapSync { (getLayer acc.p zl acc.p.needsManuallyCompositing).1 with
        layers := stepLayers (getLayer acc.p zl acc.p.needsManuallyCompositing).2 acc.prev i el
          (getLayer acc.p zl acc.p.needsManuallyCompositing).1.layers } := by
    intro zl
    have hg := MapSync_getLayer acc.p zl acc.p.needsManuallyCompositing h
    refine ⟨hg.1, fun k => ?_⟩
    show k ∈ (getLayer acc.p zl acc.p.needsManuallyCompositing).1.zlevelList ↔
      (alookup k (stepLayers (getLayer acc.p zl acc.p.needsManuallyCompositing).2 acc.prev i el
        (getLayer acc.p zl acc.p.needsManuallyCompositing).1.layers)).isSome = true
    rw [isSome_stepLayers]
    exact hg.2 k
  unfold classifyStep
  dsimp only
  cases hinc : el.incremental
  · simp only [Bool.false_eq_true, if_false]
    exact main _
  · simp only [if_true]
    exact main _

theorem MapSync_classifyLoop (list : List Element) :
    ∀ (acc : CAcc) (i : Nat), MapSync acc.p → MapSync (classifyLoop acc i list).p := by
  induction list with
  | nil =>
    intro acc i h
    exact h
  | cons el rest ih =>
    intro acc i h
    exact ih _ _ (MapSync_classifyStep acc i el h)

theorem MapSync_eachBuiltinMap (f : Layer → Layer) (p : Painter) (h : MapSync p) :
    MapSync (eachBuiltinMap f p) := by
  refine ⟨h.1, fun k => ?_⟩
  show k ∈ p.zlevelList ↔ (alookup k (modifyAll _ p.zlevelList p.layers)).isSome = true
  rw [isSome_modifyAll]
  exact h.2 k

theorem MapSync_of_WF (p : Painter) (hwf : WF p) : MapSync p := by
  obtain ⟨hnd, hzs, hdom, _⟩ := hwf
  refine ⟨hnd, fun k => ⟨fun hk => hzs k hk, fun hk => ?_⟩⟩
  obtain ⟨v, hv⟩ := Option.isSome_iff_exists.1 hk
  exact hdom (k, v) (alookup_mem hv)

theorem updateLayerStatus_stages (p : Painter) (list : List Element) :
    updateLayerStatus p list =
      (let pM : Painter := { p with
          needsManuallyCompositing := mcAfter p list,
          layers := modifyAll (fun L => { L with dirty := false, used := false })
            p.zlevelList p.layers }
       let acc := classifyLoop { p := pM, prev := none, incCount := 0 } 0 list
       let pE : Painter := { acc.p with
          layers := updatePrevLayer acc.p.layers acc.prev (list.length : Int) }
       eachBuiltinMap sweepLayer pE) := by
  unfold updateLayerStatus eachBuiltinMap mcAfter
  rfl

theorem MapSync_updateLayerStatus (p : Painter) (list : List Element) (h : MapSync p) :
    MapSync (updateLayerStatus p list) := by
  rw [updateLayerStatus_stages]
  dsimp only
  apply MapSync_eachBuiltinMap
  have hmsM : MapSync ({ p with
      needsManuallyCompositing := mcAfter p list,
      layers := modifyAll (fun L => { L with dirty := false, used := false })
        p.zlevelList p.layers } : Painter) := by
    refine ⟨h.1, fun k => ?_⟩
    show k ∈ p.zlevelList ↔
      (alookup k (modifyAll (fun L => { L with dirty := false, used := false })
        p.zlevelList p.layers)).isSome = true
    rw [isSome_modifyAll]
    exact h.2 k
  have hmsAcc := MapSync_classifyLoop list { p := _, prev := none, incCount := 0 } 0 hmsM
  refine ⟨hmsAcc.1, fun k => ?_⟩
  show _ ↔ (alookup k (updatePrevLayer _ _ _)).isSome = true
  rw [isSome_updatePrevLayer]
  exact hmsAcc.2 k

theorem sweepLayer_bounds (L0 : Layer) (h : SettledOK L0) :
    (sweepLayer L0).dirty = true →
      0 ≤ (sweepLayer L0).startIndex ∧
      (sweepLayer L0).startIndex ≤ (sweepLayer L0).drawIndex ∧
      (sweepLayer L0).drawIndex ≤ (sweepLayer L0).endIndex := by
  unfold SettledOK at h
  unfold sweepLayer Layer.getElementCount
  dsimp only
  split_ifs <;> intro hd <;>
    ((try dsimp only at *); (try simp_all); (try omega))

theorem classInv_initial (q : Painter)
    (hclean : ∀ k L, alookup k q.layers = some L → L.dirty = false) :
    ClassInv { p := q, prev := none, incCount := 0 } 0 := by
  intro k L hlk
  refine ⟨fun hps => absurd hps (by simp), fun _ hdirty => ?_⟩
  rw [hclean k L hlk] at hdirty
  exact absurd hdirty (by simp)

theorem reset_clean (p : Painter) (hnd : p.zlevelList.Nodup)
    (hdom : ∀ e ∈ p.layers, e.1 ∈ p.zlevelList)
    (hbuiltin : ∀ e ∈ p.layers, e.2.builtin = true) :
    ∀ k L, alookup k (modifyAll (fun L => { L with dirty := false, used := false })
      p.zlevelList p.layers) = some L → L.dirty = false := by
  intro k L hlk
  by_cases hkz : k ∈ p.zlevelList
  · rw [alookup_modifyAll_mem hnd hkz] at hlk
    cases hl0 : alookup k p.layers with
    | none =>
      rw [hl0] at hlk
      exact absurd hlk (by simp)
    | some L0 =>
      rw [hl0] at hlk
      have hb0 : L0.builtin = true := hbuiltin (k, L0) (alookup_mem hl0)
      simp only [Option.map_some'] at hlk
      have hL := Option.some.inj hlk
      rw [if_pos hb0] at hL
      rw [← hL]
  · rw [alookup_modifyAll_notMem hkz] at hlk
    exact absurd (hdom (k, L) (alookup_mem hlk)) hkz

theorem settled_after_close (acc : CAcc) (n : Nat) (hinv : ClassInv acc n) :
    ∀ k L, alookup k (updatePrevLayer acc.p.layers acc.prev (n : Int)) = some L →
      SettledOK L := by
  intro k L hlk
  rw [alookup_updatePrevLayer] at hlk
  by_cases hp : acc.prev = some k
  · rw [if_pos hp] at hlk
    cases hl0 : alookup k acc.p.layers with
    | none =>
      rw [hl0] at hlk
      exact absurd hlk (by simp)
    | some L0 =>
      rw [hl0] at hlk
      have hL : L = closeUpd (n : Int) L0 := (Option.some.inj hlk).symm
      rw [hL]
      exact closeUpd_settled n L0 ((hinv k L0 hl0).1 hp)
  · rw [if_neg hp] at hlk
    exact (hinv k L hlk).2 hp

theorem sweep_stage_bounds (q : Painter) (hms : MapSync q)
    (hsettled : ∀ k L, alookup k q.layers = some L → SettledOK L) :
    ∀ k L, alookup k (eachBuiltinMap sweepLayer q).layers = some L →
      L.builtin = true → L.dirty = true →
      0 ≤ L.startIndex ∧ L.startIndex ≤ L.drawIndex ∧ L.drawIndex ≤ L.endIndex := by
  intro k L hlk hbL hdL
  have hlk2 : alookup k (modifyAll sweepLayer q.zlevelList q.layers) = some L := hlk
  by_cases hkz : k ∈ q.zlevelList
  · rw [alookup_modifyAll_mem hms.1 hkz] at hlk2
    cases hl0 : alookup k q.layers with
    | none =>
      rw [hl0] at hlk2
      exact absurd hlk2 (by simp)
    | some L0 =>
      rw [hl0] at hlk2
      simp only [Option.map_some'] at hlk2
      have hLd := hlk2
      by_cases hb0 : L0.builtin = true
      · rw [if_pos hb0] at hLd
        have hE : sweepLayer L0 = L := Option.some.inj hLd
        rw [← hE] at hdL ⊢
        exact sweepLayer_bounds L0 (hsettled k L0 hl0) hdL
      · rw [if_neg hb0] at hLd
        have hE : L0 = L := Option.some.inj hLd
        rw [← hE] at hbL
        exact absurd hbL hb0
  · rw [alookup_modifyAll_notMem hkz] at hlk2
    refine absurd ((hms.2 k).2 ?_) hkz
    rw [hlk2]
    rfl

theorem MapSync_reset_mc (p : Painter) (b : Bool) (f : Layer → Layer) (h : MapSync p) :
    MapSync { p with needsManuallyCompositing := b, layers := modifyAll f p.zlevelList p.layers } := by
  refine ⟨h.1, fun k => ?_⟩
  show k ∈ p.zlevelList ↔ (alookup k (modifyAll f p.zlevelList p.layers)).isSome = true
  rw [isSome_modifyAll]
  exact h.2 k

theorem classify_bounds (p : Painter) (list : List Element) (hwf : WF p) :
    ∀ k L, alookup k (updateLayerStatus p list).layers = some L →
      L.builtin = true → L.dirty = true →
      0 ≤ L.startIndex ∧ L.startIndex ≤ L.drawIndex ∧ L.drawIndex ≤ L.endIndex := by
  obtain ⟨hnd, hzs, hdom, hbuiltin⟩ := hwf
  have hms0 : MapSync p := MapSync_of_WF p ⟨hnd, hzs, hdom, hbuiltin⟩
  rw [updateLayerStatus_stages]
  dsimp only
  set pM : Painter := { p with needsManuallyCompositing := mcAfter p list, layers := modifyAll (fun L => { L with dirty := false, used := false }) p.zlevelList p.layers } with hpM
  set acc := classifyLoop { p := pM, prev := none, incCount := 0 } 0 list with hacc
  set pE : Painter := { acc.p with layers := updatePrevLayer acc.p.layers acc.prev (list.length : Int) } with hpE
  have hmsM : MapSync pM := by
    rw [hpM]
    exact MapSync_reset_mc p _ _ hms0
  have hmsAcc : MapSync acc.p := by
    rw [hacc]
    exact MapSync_classifyLoop list _ 0 hmsM
  have hmsE : MapSync pE := by
    rw [hpE]
    refine ⟨hmsAcc.1, fun k => ?_⟩
    show _ ↔ (alookup k (updatePrevLayer _ _ _)).isSome = true
    rw [isSome_updatePrevLayer]
    exact hmsAcc.2 k
  have hclean := reset_clean p hnd hdom hbuiltin
  have hinv0 : ClassInv { p := pM, prev := none, incCount := 0 } 0 := by
    refine classInv_initial pM ?_
    rw [hpM]
    exact hclean
  have hinv : ClassInv acc list.length := by
    rw [hacc]
    simpa using classifyLoop_inv list _ 0 hinv0
  have hsettledE : ∀ k L, alookup k pE.layers = some L → SettledOK L := by
    intro k L hlk
    refine settled_after_close acc list.length hinv k L ?_
    rw [hpE] at hlk
    exact hlk
  exact sweep_stage_bounds pE hmsE hsettledE

/-! ## C8: bounds on `__startIndex` / `__drawIndex` / `__endIndex` -/

/-- C8 counterexample (refuting the claim as stated): classify a single clean
(non-dirty) incremental element twice from an empty painter.  The second
`_updateLayerStatus` pass re-opens the run on the incremental layer and
stores the `-1` sentinel into `__drawIndex` (line 692); since the element is
clean, neither the per-element dirtying (lines 700–706) nor the final sweep
(line 718, which only repairs **dirty** layers) replaces the sentinel.  The
pass therefore ends with an engine-built layer violating
`__startIndex ≤ __drawIndex`: its fields are `start = 0`, `draw = -1`,
`end = 1`. -/
theorem c8_counterexample_clean_incremental_sentinel :
    ((alookup INCREMENTAL_INC
        (updateLayerStatus (updateLayerStatus blankPainter [cleanIncEl]) [cleanIncEl]).layers).map
      (fun L => (L.builtin, L.dirty, L.startIndex, L.drawIndex, L.endIndex))) =
      some (true, false, 0, -1, 1) ∧
    ((alookup INCREMENTAL_INC
        (updateLayerStatus (updateLayerStatus blankPainter [cleanIncEl]) [cleanIncEl]).layers).map
      (fun L => decide (L.startIndex ≤ L.drawIndex))) = some false := by
  constructor
  · decide
  · decide

/-- C8 (corrected): on a wellformed painter, (a) after a classification pass
every engine-built layer that ends up **dirty** satisfies
`0 ≤ __startIndex ≤ __drawIndex ≤ __endIndex` (non-dirty layers may keep the
`-1` sentinel, see the counterexample); (b) in a paint pass, every layer of
the repaint list whose stored indices are consistent (`start ≤ end`, and the
draw index is the `-1` sentinel or inside the range) gets its `__drawIndex`
replaced by a value again inside `[start, end]`, and with `paintAll` false a
non-sentinel draw index only moves forward — painting never moves it
backwards within the frame. -/
theorem c8_amended_draw_index_bounds (p : Painter) (list : List Element) (paintAll : Bool)
    (clock : Rat → Nat → Nat) (hwf : WF p) :
    (∀ k L, alookup k (updateLayerStatus p list).layers = some L →
      L.builtin = true → L.dirty = true →
      0 ≤ L.startIndex ∧ L.startIndex ≤ L.drawIndex ∧ L.drawIndex ≤ L.endIndex) ∧
    (∀ k L, k ∈ buildLayerList p paintAll → alookup k p.layers = some L →
      L.startIndex ≤ L.endIndex →
      (L.drawIndex = -1 ∨ (L.startIndex ≤ L.drawIndex ∧ L.drawIndex ≤ L.endIndex)) →
      alookup k (doPaintList p list paintAll clock).p.layers =
        some { L with drawIndex := layerPaintedDraw paintAll clock k L } ∧
      L.startIndex ≤ layerPaintedDraw paintAll clock k L ∧
      layerPaintedDraw paintAll clock k L ≤ L.endIndex ∧
      (paintAll = false → 0 ≤ L.drawIndex →
        L.drawIndex ≤ layerPaintedDraw paintAll clock k L)) := by
  constructor
  · exact classify_bounds p list hwf
  · intro k L hkz hlk hse hdr
    obtain ⟨h1, h2, h3, h4⟩ := doPaintList_spec p list paintAll clock hwf.1
    obtain ⟨b1, b2, b3⟩ := layerPaintedDraw_bounds paintAll clock k L hse hdr
    refine ⟨?_, b1, b2, b3⟩
    rw [h2 k hkz, hlk]
    rfl

theorem c8_witness :
    WF fixtureIncPainter ∧
    (alookup 0 (doPaintList fixtureIncPainter [incEl] false clkZero).p.layers =
      some { fixtureIncLayer with
        drawIndex := layerPaintedDraw false clkZero 0 fixtureIncLayer } ∧
     fixtureIncLayer.startIndex ≤ layerPaintedDraw false clkZero 0 fixtureIncLayer ∧
     layerPaintedDraw false clkZero 0 fixtureIncLayer ≤ fixtureIncLayer.endIndex ∧
     (false = false → 0 ≤ fixtureIncLayer.drawIndex →
       fixtureIncLayer.drawIndex ≤ layerPaintedDraw false clkZero 0 fixtureIncLayer)) :=
  ⟨by decide,
   (c8_amended_draw_index_bounds fixtureIncPainter [incEl] false clkZero (by decide)).2
     0 fixtureIncLayer (by decide) (by decide) (by decide) (by decide)⟩

/-! ## List lemmas about key occurrences (for the range characterisation) -/

theorem getD_mem_self {ks : List Rat} {j : Nat} (hj : j < ks.length) :
    ks.getD j 0 ∈ ks := by
  induction ks generalizing j with
  | nil => simp at hj
  | cons a rest ih =>
    cases j with
    | zero => exact List.mem_cons_self a rest
    | succ j =>
      simp only [List.length_cons, Nat.succ_lt_succ_iff] at hj
      exact List.mem_cons.2 (Or.inr (ih hj))

theorem mem_exists_getD {ks : List Rat} {k : Rat} (h : k ∈ ks) :
    ∃ j, j < ks.length ∧ ks.getD j 0 = k := by
  induction ks with
  | nil => simp at h
  | cons a rest ih =>
    rcases List.mem_cons.1 h with h1 | h2
    · exact ⟨0, by simp, h1.symm⟩
    · obtain ⟨j, hj, hg⟩ := ih h2
      exact ⟨j + 1, by simpa using hj, hg⟩

theorem firstIdx_le_of_getD {ks : List Rat} {j : Nat} {k : Rat}
    (hj : j < ks.length) (h : ks.getD j 0 = k) : firstIdx k ks ≤ j := by
  induction ks generalizing j with
  | nil => simp at hj
  | cons a rest ih =>
    unfold firstIdx
    by_cases ha : a = k
    · rw [if_pos ha]
      exact Nat.zero_le j
    · rw [if_neg ha]
      cases j with
      | zero => exact absurd h ha
      | succ j =>
        simp only [List.length_cons, Nat.succ_lt_succ_iff] at hj
        exact Nat.succ_le_succ (ih hj h)

theorem le_lastIdx_of_getD {ks : List Rat} {j : Nat} {k : Rat}
    (hj : j < ks.length) (h : ks.getD j 0 = k) : j ≤ lastIdx k ks := by
  induction ks generalizing j with
  | nil => simp at hj
  | cons a rest ih =>
    cases j with
    | zero => exact Nat.zero_le _
    | succ j =>
      simp only [List.length_cons, Nat.succ_lt_succ_iff] at hj
      have hmem : k ∈ rest := h ▸ getD_mem_self hj
      unfold lastIdx
      rw [if_pos hmem]
      exact Nat.succ_le_succ (ih hj h)

theorem getD_lastIdx {ks : List Rat} {k : Rat} (h : k ∈ ks) :
    ks.getD (lastIdx k ks) 0 = k := by
  induction ks with
  | nil => simp at h
  | cons a rest ih =>
    unfold lastIdx
    by_cases hm : k ∈ rest
    · rw [if_pos hm]
      exact ih hm
    · rw [if_neg hm]
      rcases List.mem_cons.1 h with h1 | h2
      · exact h1.symm
      · exact absurd h2 hm

theorem lastIdx_lt_length {ks : List Rat} {k : Rat} (h : k ∈ ks) :
    lastIdx k ks < ks.length := by
  induction ks with
  | nil => simp at h
  | cons a rest ih =>
    unfold lastIdx
    by_cases hm : k ∈ rest
    · rw [if_pos hm]
      simpa using ih hm
    · rw [if_neg hm]
      simp

theorem firstIdx_append_first {kpre : List Rat} {k : Rat} (t : List Rat)
    (h : k ∉ kpre) : firstIdx k (kpre ++ k :: t) = kpre.length := by
  induction kpre with
  | nil =>
    show firstIdx k (k :: t) = 0
    unfold firstIdx
    rw [if_pos rfl]
  | cons a pre ih =>
    have ha : a ≠ k := fun he => h (by simp [he])
    show firstIdx k (a :: (pre ++ k :: t)) = pre.length + 1
    unfold firstIdx
    rw [if_neg ha, ih (fun hm => h (List.mem_cons.2 (Or.inr hm)))]

theorem getD_append_self (kpre : List Rat) (key : Rat) (t : List Rat) :
    (kpre ++ key :: t).getD kpre.length 0 = key := by
  induction kpre with
  | nil => rfl
  | cons a pre ih => simpa using ih

theorem getD_append_left {kpre : List Rat} {j : Nat} (rest : List Rat)
    (hj : j < kpre.length) : (kpre ++ rest).getD j 0 = kpre.getD j 0 := by
  induction kpre generalizing j with
  | nil => simp at hj
  | cons a pre ih =>
    cases j with
    | zero => rfl
    | succ j =>
      simp only [List.length_cons, Nat.succ_lt_succ_iff] at hj
      simpa using ih hj

theorem getLast_eq_getD (l : List Rat) (h : l ≠ []) :
    l.getLast? = some (l.getD (l.length - 1) 0) := by
  induction l with
  | nil => exact absurd rfl h
  | cons a rest ih =>
    cases hr : rest with
    | nil => rfl
    | cons b t =>
      subst hr
      have hne : b :: t ≠ [] := fun he => List.noConfusion he
      rw [show (a :: b :: t).getLast? = (b :: t).getLast? from rfl, ih hne]
      have h1 : (a :: b :: t).length - 1 = t.length + 1 := by simp
      have h2 : (b :: t).length - 1 = t.length := by simp
      rw [h1, h2]
      rfl

theorem getLast_mem {l : List Rat} {a : Rat} (h : l.getLast? = some a) : a ∈ l := by
  induction l with
  | nil => exact absurd h (by simp)
  | cons x rest ih =>
    cases hr : rest with
    | nil =>
      rw [hr] at h
      simp only [List.getLast?_singleton, Option.some.injEq] at h
      simp [h]
    | cons b t =>
      rw [hr] at h ih
      rw [show (x :: b :: t).getLast? = (b :: t).getLast? from rfl] at h
      exact List.mem_cons.2 (Or.inr (ih h))

theorem prev_eq_of_mem_contig (kpre : List Rat) (key : Rat) (t : List Rat)
    (hcontig : Contig (kpre ++ key :: t)) (hin : key ∈ kpre) :
    kpre.getLast? = some key := by
  have hne : kpre ≠ [] := by
    intro he
    rw [he] at hin
    simp at hin
  have hnpos : 0 < kpre.length := List.length_pos.2 hne
  obtain ⟨j0, hj0, hg0⟩ := mem_exists_getD hin
  have hlen : kpre.length < (kpre ++ key :: t).length := by
    simp
  have hgall0 : (kpre ++ key :: t).getD j0 0 = key := by
    rw [getD_append_left _ hj0, hg0]
  have hgalln : (kpre ++ key :: t).getD kpre.length 0 = key :=
    getD_append_self kpre key t
  have hf : firstIdx key (kpre ++ key :: t) ≤ j0 :=
    firstIdx_le_of_getD (lt_trans hj0 hlen) hgall0
  have hl : kpre.length ≤ lastIdx key (kpre ++ key :: t) :=
    le_lastIdx_of_getD hlen hgalln
  have hmem : key ∈ kpre ++ key :: t := by simp
  have hcont := hcontig key hmem (kpre.length - 1)
    (List.mem_range.2 (by omega))
    (by omega) (by omega)
  rw [getD_append_left (key :: t) (by omega)] at hcont
  rw [getLast_eq_getD kpre hne, hcont]

theorem lastIdx_prev_close (kpre : List Rat) (k key : Rat) (t : List Rat)
    (hcontig : Contig (kpre ++ key :: t)) (hlast : kpre.getLast? = some k)
    (hne : k ≠ key) : lastIdx k (kpre ++ key :: t) + 1 = kpre.length := by
  have hnil : kpre ≠ [] := by
    intro he
    rw [he] at hlast
    exact absurd hlast (by simp)
  have hnpos : 0 < kpre.length := List.length_pos.2 hnil
  have hgk : kpre.getD (kpre.length - 1) 0 = k := by
    rw [getLast_eq_getD kpre hnil] at hlast
    exact Option.some.inj hlast
  have hlen : kpre.length < (kpre ++ key :: t).length := by simp
  have hgall : (kpre ++ key :: t).getD (kpre.length - 1) 0 = k := by
    rw [getD_append_left (key :: t) (by omega), hgk]
  have hge : kpre.length - 1 ≤ lastIdx k (kpre ++ key :: t) :=
    le_lastIdx_of_getD (by omega) hgall
  have hmem : k ∈ kpre ++ key :: t := hgall ▸ getD_mem_self (by omega)
  have hlt : lastIdx k (kpre ++ key :: t) < kpre.length := by
    by_contra hcon
    push_neg at hcon
    have hcont := hcontig k hmem kpre.length
      (List.mem_range.2 hlen)
      (le_trans (firstIdx_le_of_getD (by omega) hgall) (by omega)) hcon
    rw [getD_append_self kpre key t] at hcont
    exact hne hcont.symm
  omega

/-! ## Field-preservation lemmas for the walk's layer mutations -/

theorem stepLayerUpd_run_fields (acc : CAcc) (i : Nat) (el : Element) (L : Layer)
    (hrun : some (stepKey acc el) ≠ acc.prev) :
    (stepLayerUpd acc i el L).used = true ∧
    (stepLayerUpd acc i el L).startIndex = (i : Int) ∧
    (stepLayerUpd acc i el L).builtin = L.builtin ∧
    (stepLayerUpd acc i el L).endIndex = L.endIndex := by
  unfold stepLayerUpd runOpenUpd elDirtyUpd
  dsimp only
  rw [if_pos hrun]
  split_ifs <;> simp

theorem stepLayerUpd_norun_fields (acc : CAcc) (i : Nat) (el : Element) (L : Layer)
    (hrun : ¬some (stepKey acc el) ≠ acc.prev) :
    (stepLayerUpd acc i el L).used = L.used ∧
    (stepLayerUpd acc i el L).startIndex = L.startIndex ∧
    (stepLayerUpd acc i el L).builtin = L.builtin ∧
    (stepLayerUpd acc i el L).endIndex = L.endIndex := by
  unfold stepLayerUpd elDirtyUpd
  dsimp only
  rw [if_neg hrun]
  split_ifs <;> simp

theorem closeUpd_fields (idx : Int) (L : Layer) :
    (closeUpd idx L).used = L.used ∧ (closeUpd idx L).builtin = L.builtin ∧
    (closeUpd idx L).startIndex = L.startIndex ∧ (closeUpd idx L).endIndex = idx := by
  unfold closeUpd
  exact ⟨rfl, rfl, rfl, rfl⟩

theorem sweepLayer_used_fields (L : Layer) :
    (sweepLayer L).used = L.used ∧ (sweepLayer L).builtin = L.builtin ∧
    (L.used = true → (sweepLayer L).startIndex = L.startIndex ∧
      (sweepLayer L).endIndex = L.endIndex) := by
  unfold sweepLayer Layer.getElementCount
  dsimp only
  split_ifs <;> ((try dsimp only at *); simp_all)

theorem classifyStep_flags (acc : CAcc) (i : Nat) (el : Element) :
    (classifyStep acc i el).p.singleCanvas = acc.p.singleCanvas ∧
    (classifyStep acc i el).p.needsManuallyCompositing = acc.p.needsManuallyCompositing := by
  obtain ⟨zs, ls, h⟩ := classifyStep_shape acc i el
  rw [h]
  exact ⟨rfl, rfl⟩

theorem stepKey_eq_elKey (acc : CAcc) (el : Element) :
    stepKey acc el = elKey acc.p.singleCanvas acc.p.needsManuallyCompositing
      (decide (acc.incCount > 0)) el := by
  unfold stepKey elKey
  dsimp only
  by_cases hpos : acc.incCount > 0
  · simp [hpos]
  · simp [hpos]

theorem elKeys_length (s m : Bool) : ∀ (seen : Bool) (l : List Element),
    (elKeys s m seen l).length = l.length := by
  intro seen l
  induction l generalizing seen with
  | nil => rfl
  | cons el rest ih =>
    show (elKeys s m seen (el :: rest)).length = rest.length + 1
    unfold elKeys
    rw [List.length_cons, ih]

theorem reset_fields (p : Painter) (hnd : p.zlevelList.Nodup)
    (hdom : ∀ e ∈ p.layers, e.1 ∈ p.zlevelList)
    (hbuiltin : ∀ e ∈ p.layers, e.2.builtin = true) :
    ∀ k L, alookup k (modifyAll (fun L => { L with dirty := false, used := false })
      p.zlevelList p.layers) = some L → L.used = false ∧ L.builtin = true := by
  intro k L hlk
  by_cases hkz : k ∈ p.zlevelList
  · rw [alookup_modifyAll_mem hnd hkz] at hlk
    cases hl0 : alookup k p.layers with
    | none =>
      rw [hl0] at hlk
      exact absurd hlk (by simp)
    | some L0 =>
      rw [hl0] at hlk
      have hb0 : L0.builtin = true := hbuiltin (k, L0) (alookup_mem hl0)
      simp only [Option.map_some'] at hlk
      have hL := Option.some.inj hlk
      rw [if_pos hb0] at hL
      rw [← hL]
      exact ⟨rfl, hb0⟩
  · rw [alookup_modifyAll_notMem hkz] at hlk
    exact absurd (hdom (k, L) (alookup_mem hlk)) hkz

/-! ## One classification step updates exactly the current key's range -/

theorem c1_step (acc : CAcc) (kpre keysAll : List Rat) (el : Element) (key : Rat)
    (t : List Rat)
    (hsk : stepKey acc el = key)
    (hprev : acc.prev = kpre.getLast?)
    (hk : keysAll = kpre ++ key :: t)
    (hcontig : Contig keysAll)
    (hinv : C1Inv acc.p.layers acc.prev kpre keysAll) :
    C1Inv (classifyStep acc kpre.length el).p.layers
      (classifyStep acc kpre.length el).prev (kpre ++ [key]) keysAll := by
  have hprev' : (classifyStep acc kpre.length el).prev = some key := by
    rw [classifyStep_prev, hsk]
    by_cases hrun : some key ≠ acc.prev
    · rw [if_pos hrun]
    · rw [if_neg hrun]
      exact (not_not.1 hrun).symm
  have hmemprev : ∀ x, acc.prev = some x → x ∈ kpre := by
    intro x hx
    exact getLast_mem (hprev ▸ hx)
  intro k
  constructor
  · intro hmem
    by_cases hkeq : k = key
    · subst hkeq
      rw [classifyStep_lookup, hsk, if_pos rfl]
      by_cases hpo : acc.prev = some k
      · have hin : k ∈ kpre := hmemprev k hpo
        obtain ⟨L0, hL0, hb0, hu0, hs0, _⟩ := (hinv k).1 hin
        have hrun : ¬some (stepKey acc el) ≠ acc.prev := by
          rw [hsk, hpo]
          exact fun hc => hc rfl
        have hbase : (alookup k acc.p.layers).getD
            (createdLayer acc.p k acc.p.needsManuallyCompositing) = L0 := by
          rw [hL0]
          rfl
        obtain ⟨hu', hs', hb', he'⟩ := stepLayerUpd_norun_fields acc kpre.length el L0 hrun
        refine ⟨_, rfl, ?_, ?_, ?_, ?_⟩
        · rw [hbase, hb', hb0]
        · rw [hbase, hu', hu0]
        · rw [hbase, hs', hs0]
        · intro hne
          rw [hprev'] at hne
          exact absurd rfl hne
      · have hrun : some (stepKey acc el) ≠ acc.prev := by
          rw [hsk]
          exact fun he => hpo he.symm
        have hnotin : k ∉ kpre := fun hin =>
          hpo (hprev.trans (prev_eq_of_mem_contig kpre k t (hk ▸ hcontig) hin))
        obtain ⟨hu', hs', hb', he'⟩ := stepLayerUpd_run_fields acc kpre.length el
          ((alookup k acc.p.layers).getD
            (createdLayer acc.p k acc.p.needsManuallyCompositing)) hrun
        have hbb : ((alookup k acc.p.layers).getD
            (createdLayer acc.p k acc.p.needsManuallyCompositing)).builtin = true := by
          cases hl0 : alookup k acc.p.layers with
          | some L0 =>
            exact ((hinv k).2 hnotin L0 hl0).2
          | none =>
            exact (createdLayer_fields acc.p k acc.p.needsManuallyCompositing).1
        refine ⟨_, rfl, ?_, ?_, ?_, ?_⟩
        · rw [hb']
          exact hbb
        · exact hu'
        · rw [hs', hk, firstIdx_append_first t hnotin]
        · intro hne
          rw [hprev'] at hne
          exact absurd rfl hne
    · have hin : k ∈ kpre := by
        rcases List.mem_append.1 hmem with h1 | h2
        · exact h1
        · exact absurd (List.mem_singleton.1 h2) hkeq
      obtain ⟨L0, hL0, hb0, hu0, hs0, hend0⟩ := (hinv k).1 hin
      rw [classifyStep_lookup, hsk, if_neg hkeq]
      by_cases hpo : acc.prev = some k
      · have hrun : some key ≠ acc.prev := by
          rw [hpo]
          exact fun he => hkeq (Option.some.inj he).symm
        rw [if_pos (show (some key ≠ acc.prev) ∧ acc.prev = some k from ⟨hrun, hpo⟩), hL0]
        refine ⟨closeUpd (kpre.length : Int) L0, rfl, ?_, ?_, ?_, ?_⟩
        · rw [(closeUpd_fields (kpre.length : Int) L0).2.1, hb0]
        · rw [(closeUpd_fields (kpre.length : Int) L0).1, hu0]
        · rw [(closeUpd_fields (kpre.length : Int) L0).2.2.1, hs0]
        · intro _
          rw [(closeUpd_fields (kpre.length : Int) L0).2.2.2]
          have hnat := lastIdx_prev_close kpre k key t (hk ▸ hcontig)
            (hprev.symm.trans hpo) hkeq
          rw [hk]
          omega
      · rw [if_neg (fun hc : (some key ≠ acc.prev) ∧ acc.prev = some k => hpo hc.2)]
        exact ⟨L0, hL0, hb0, hu0, hs0, fun _ => hend0 hpo⟩
  · intro hnot
    have hkeq : k ≠ key := fun he => hnot (by rw [he]; exact List.mem_append.2 (Or.inr (by simp)))
    have hnin : k ∉ kpre := fun hin => hnot (List.mem_append.2 (Or.inl hin))
    intro L hlk
    rw [classifyStep_lookup, hsk, if_neg hkeq] at hlk
    have hpo : acc.prev ≠ some k := fun he => hnin (hmemprev k he)
    rw [if_neg (fun hc : (some key ≠ acc.prev) ∧ acc.prev = some k => hpo hc.2)] at hlk
    exact (hinv k).2 hnin L hlk

theorem getLast_append_singleton (l : List Rat) (a : Rat) :
    (l ++ [a]).getLast? = some a := by
  induction l with
  | nil => rfl
  | cons x rest ih =>
    show (x :: (rest ++ [a])).getLast? = some a
    cases hr : rest ++ [a] with
    | nil => exact absurd hr (by simp)
    | cons b t =>
      rw [hr] at ih
      rw [show ((x : Rat) :: b :: t).getLast? = ((b :: t) : List Rat).getLast? from rfl]
      exact ih

theorem c1_walk (rest : List Element) :
    ∀ (acc : CAcc) (kpre keysAll : List Rat) (s m seen : Bool),
      acc.p.singleCanvas = s →
      acc.p.needsManuallyCompositing = m →
      decide (acc.incCount > 0) = seen →
      acc.prev = kpre.getLast? →
      keysAll = kpre ++ elKeys s m seen rest →
      Contig keysAll →
      C1Inv acc.p.layers acc.prev kpre keysAll →
      C1Inv (classifyLoop acc kpre.length rest).p.layers
        (classifyLoop acc kpre.length rest).prev keysAll keysAll ∧
      (classifyLoop acc kpre.length rest).prev = keysAll.getLast? := by
  induction rest with
  | nil =>
    intro acc kpre keysAll s m seen hs hm hseen hprev hkeys hcontig hinv
    have hke : keysAll = kpre := by
      rw [hkeys]
      show kpre ++ [] = kpre
      rw [List.append_nil]
    subst hke
    exact ⟨hinv, hprev⟩
  | cons el rest' ih =>
    intro acc kpre keysAll s m seen hs hm hseen hprev hkeys hcontig hinv
    have hsk : stepKey acc el = elKey s m seen el := by
      rw [stepKey_eq_elKey, hs, hm, hseen]
    have hkeys' : keysAll =
        (kpre ++ [elKey s m seen el]) ++ elKeys s m (seen || el.incremental) rest' := by
      rw [hkeys, List.append_assoc]
      rfl
    have hstep := c1_step acc kpre keysAll el (elKey s m seen el)
      (elKeys s m (seen || el.incremental) rest') hsk hprev
      (by rw [hkeys]; rfl) hcontig hinv
    have hflags := classifyStep_flags acc kpre.length el
    have hpr : (classifyStep acc kpre.length el).prev = some (elKey s m seen el) := by
      rw [classifyStep_prev, hsk]
      by_cases hrun : some (elKey s m seen el) ≠ acc.prev
      · rw [if_pos hrun]
      · rw [if_neg hrun]
        exact (not_not.1 hrun).symm
    have hprevstep : (classifyStep acc kpre.length el).prev =
        (kpre ++ [elKey s m seen el]).getLast? := by
      rw [hpr, getLast_append_singleton]
    have hseen' : decide ((classifyStep acc kpre.length el).incCount > 0) =
        (seen || el.incremental) := by
      rw [classifyStep_incCount]
      cases hinc : el.incremental
      · simp only [Bool.false_eq_true, if_false, Bool.or_false]
        exact hseen
      · simp only [if_true, Bool.or_true]
        rfl
    have happ := ih (classifyStep acc kpre.length el) (kpre ++ [elKey s m seen el]) keysAll
      s m (seen || el.incremental) (hflags.1.trans hs) (hflags.2.trans hm) hseen'
      hprevstep hkeys' hcontig hstep
    have hlen : (kpre ++ [elKey s m seen el]).length = kpre.length + 1 := by simp
    rw [hlen] at happ
    exact happ

theorem sweepLayer_unused_empty (L : Layer) :
    (sweepLayer L).used = false → (sweepLayer L).endIndex ≤ (sweepLayer L).startIndex := by
  unfold sweepLayer Layer.getElementCount
  dsimp only
  split_ifs <;> intro h <;> ((try dsimp only at *); (try simp_all); (try omega))

theorem updateLayerStatus_ranges (p : Painter) (list : List Element) (hwf : WF p)
    (hcontig : Contig (elKeys p.singleCanvas (mcAfter p list) false list)) :
    (∀ k, k ∈ elKeys p.singleCanvas (mcAfter p list) false list →
      ∃ L, alookup k (updateLayerStatus p list).layers = some L ∧
        L.builtin = true ∧ L.used = true ∧
        L.startIndex = (firstIdx k (elKeys p.singleCanvas (mcAfter p list) false list) : Int) ∧
        L.endIndex = (lastIdx k (elKeys p.singleCanvas (mcAfter p list) false list) : Int) + 1) ∧
    (∀ k L, k ∉ elKeys p.singleCanvas (mcAfter p list) false list →
      alookup k (updateLayerStatus p list).layers = some L → L.used = false) ∧
    (∀ k L, alookup k (updateLayerStatus p list).layers = some L →
      L.builtin = true ∧ (L.used = false → L.endIndex ≤ L.startIndex)) := by
  obtain ⟨hnd, hzs, hdom, hbuiltin⟩ := hwf
  have hms0 : MapSync p := MapSync_of_WF p ⟨hnd, hzs, hdom, hbuiltin⟩
  rw [updateLayerStatus_stages]
  dsimp only
  set pM : Painter := { p with needsManuallyCompositing := mcAfter p list, layers := modifyAll (fun L => { L with dirty := false, used := false }) p.zlevelList p.layers } with hpM
  set acc := classifyLoop { p := pM, prev := none, incCount := 0 } 0 list with hacc
  set pE : Painter := { acc.p with layers := updatePrevLayer acc.p.layers acc.prev (list.length : Int) } with hpE
  have hmsM : MapSync pM := by
    rw [hpM]
    exact MapSync_reset_mc p _ _ hms0
  have hmsAcc : MapSync acc.p := by
    rw [hacc]
    exact MapSync_classifyLoop list _ 0 hmsM
  have hmsE : MapSync pE := by
    rw [hpE]
    refine ⟨hmsAcc.1, fun k => ?_⟩
    show _ ↔ (alookup k (updatePrevLayer _ _ _)).isSome = true
    rw [isSome_updatePrevLayer]
    exact hmsAcc.2 k
  have hinv0 : C1Inv pM.layers none []
      (elKeys p.singleCanvas (mcAfter p list) false list) := by
    intro k
    refine ⟨fun hm => absurd hm (List.not_mem_nil k), fun _ L hlk => ?_⟩
    refine reset_fields p hnd hdom hbuiltin k L ?_
    rw [hpM] at hlk
    exact hlk
  have hwalk := c1_walk list { p := pM, prev := none, incCount := 0 } []
    (elKeys p.singleCanvas (mcAfter p list) false list)
    p.singleCanvas (mcAfter p list) false
    (by rw [hpM]) (by rw [hpM]) rfl rfl (List.nil_append _).symm hcontig hinv0
  have hinvFull : C1Inv acc.p.layers acc.prev
      (elKeys p.singleCanvas (mcAfter p list) false list)
      (elKeys p.singleCanvas (mcAfter p list) false list) := by
    rw [hacc]
    exact hwalk.1
  have hprevLast : acc.prev =
      (elKeys p.singleCanvas (mcAfter p list) false list).getLast? := by
    rw [hacc]
    exact hwalk.2
  have hN : (elKeys p.singleCanvas (mcAfter p list) false list).length = list.length :=
    elKeys_length p.singleCanvas (mcAfter p list) false list
  have hransE : ∀ k, k ∈ elKeys p.singleCanvas (mcAfter p list) false list →
      ∃ L, alookup k pE.layers = some L ∧ L.builtin = true ∧ L.used = true ∧
        L.startIndex = (firstIdx k (elKeys p.singleCanvas (mcAfter p list) false list) : Int) ∧
        L.endIndex = (lastIdx k (elKeys p.singleCanvas (mcAfter p list) false list) : Int) + 1 := by
    intro k hkmem
    obtain ⟨L0, hL0, hb0, hu0, hs0, hend0⟩ := (hinvFull k).1 hkmem
    have hlkE : alookup k pE.layers =
        alookup k (updatePrevLayer acc.p.layers acc.prev (list.length : Int)) := by
      rw [hpE]
    rw [hlkE, alookup_updatePrevLayer]
    by_cases hp : acc.prev = some k
    · rw [if_pos hp, hL0]
      refine ⟨closeUpd (list.length : Int) L0, rfl, ?_, ?_, ?_, ?_⟩
      · rw [(closeUpd_fields _ L0).2.1, hb0]
      · rw [(closeUpd_fields _ L0).1, hu0]
      · rw [(closeUpd_fields _ L0).2.2.1, hs0]
      · rw [(closeUpd_fields _ L0).2.2.2]
        have hne : elKeys p.singleCanvas (mcAfter p list) false list ≠ [] := by
          intro h0
          rw [h0] at hprevLast
          rw [hp] at hprevLast
          exact absurd hprevLast (by simp)
        have hpos : 0 < (elKeys p.singleCanvas (mcAfter p list) false list).length :=
          List.length_pos.2 hne
        have hklast : (elKeys p.singleCanvas (mcAfter p list) false list).getD
            ((elKeys p.singleCanvas (mcAfter p list) false list).length - 1) 0 = k := by
          have := hprevLast.symm.trans hp
          rw [getLast_eq_getD _ hne] at this
          exact Option.some.inj this
        have h1 : (elKeys p.singleCanvas (mcAfter p list) false list).length - 1 ≤
            lastIdx k (elKeys p.singleCanvas (mcAfter p list) false list) :=
          le_lastIdx_of_getD (by omega) hklast
        have h2 : lastIdx k (elKeys p.singleCanvas (mcAfter p list) false list) <
            (elKeys p.singleCanvas (mcAfter p list) false list).length :=
          lastIdx_lt_length hkmem
        omega
    · rw [if_neg hp]
      exact ⟨L0, hL0, hb0, hu0, hs0, hend0 hp⟩
  have hunusedE : ∀ k L, k ∉ elKeys p.singleCanvas (mcAfter p list) false list →
      alookup k pE.layers = some L → L.used = false ∧ L.builtin = true := by
    intro k L hkn hlk
    have hlkE : alookup k pE.layers =
        alookup k (updatePrevLayer acc.p.layers acc.prev (list.length : Int)) := by
      rw [hpE]
    rw [hlkE, alookup_updatePrevLayer] at hlk
    by_cases hp : acc.prev = some k
    · exact absurd (getLast_mem (hprevLast ▸ hp)) hkn
    · rw [if_neg hp] at hlk
      exact (hinvFull k).2 hkn L hlk
  refine ⟨?_, ?_, ?_⟩
  · intro k hkmem
    obtain ⟨L0, hL0, hb0, hu0, hs0, he0⟩ := hransE k hkmem
    have hkz : k ∈ pE.zlevelList := (hmsE.2 k).2 (by rw [hL0]; rfl)
    have hlkR : alookup k (eachBuiltinMap sweepLayer pE).layers =
        alookup k (modifyAll sweepLayer pE.zlevelList pE.layers) := rfl
    rw [hlkR, alookup_modifyAll_mem hmsE.1 hkz, hL0]
    simp only [Option.map_some']
    rw [if_pos hb0]
    obtain ⟨hsu, hsb, hsf⟩ := sweepLayer_used_fields L0
    obtain ⟨hss, hse⟩ := hsf hu0
    refine ⟨sweepLayer L0, rfl, ?_, ?_, ?_, ?_⟩
    · rw [hsb, hb0]
    · rw [hsu, hu0]
    · rw [hss, hs0]
    · rw [hse, he0]
  · intro k L hkn hlk
    have hlkR : alookup k (eachBuiltinMap sweepLayer pE).layers =
        alookup k (modifyAll sweepLayer pE.zlevelList pE.layers) := rfl
    rw [hlkR] at hlk
    by_cases hkz : k ∈ pE.zlevelList
    · rw [alookup_modifyAll_mem hmsE.1 hkz] at hlk
      cases hl0 : alookup k pE.layers with
      | none =>
        rw [hl0] at hlk
        exact absurd hlk (by simp)
      | some L0 =>
        rw [hl0] at hlk
        simp only [Option.map_some'] at hlk
        obtain ⟨hu0, hb0⟩ := hunusedE k L0 hkn hl0
        rw [if_pos hb0] at hlk
        have hL := Option.some.inj hlk
        rw [← hL, (sweepLayer_used_fields L0).1]
        exact hu0
    · rw [alookup_modifyAll_notMem hkz] at hlk
      exact absurd ((hmsE.2 k).2 (by rw [hlk]; rfl)) hkz
  · intro k L hlk
    have hlkR : alookup k (eachBuiltinMap sweepLayer pE).layers =
        alookup k (modifyAll sweepLayer pE.zlevelList pE.layers) := rfl
    rw [hlkR] at hlk
    by_cases hkz : k ∈ pE.zlevelList
    · rw [alookup_modifyAll_mem hmsE.1 hkz] at hlk
      cases hl0 : alookup k pE.layers with
      | none =>
        rw [hl0] at hlk
        exact absurd hlk (by simp)
      | some L0 =>
        rw [hl0] at hlk
        simp only [Option.map_some'] at hlk
        have hb0 : L0.builtin = true := by
          by_cases hkm : k ∈ elKeys p.singleCanvas (mcAfter p list) false list
          · obtain ⟨L2, hL2, hb2, _⟩ := hransE k hkm
            rw [hl0] at hL2
            rw [Option.some.inj hL2]
            exact hb2
          · exact (hunusedE k L0 hkm hl0).2
        rw [if_pos hb0] at hlk
        have hLe := Option.some.inj hlk
        constructor
        · rw [← hLe, (sweepLayer_used_fields L0).2.1]
          exact hb0
        · intro huf
          rw [← hLe] at huf ⊢
          exact sweepLayer_unused_empty L0 huf
    · rw [alookup_modifyAll_notMem hkz] at hlk
      exact absurd ((hmsE.2 k).2 (by rw [hlk]; rfl)) hkz

/-! ## C1: the assigned ranges tile the display list -/

/-- C1 counterexample (refuting the claim as stated): classify the display
list `[incremental, plain, incremental]`, all at z-level 0, on an empty
multi-canvas painter.  The resolved keys are `[1/1000, 1/100, 1/1000]`
(the fractional-offset scheme of lines 668–676), so the incremental layer's
run is opened twice: its final range is `[2, 3)`, the plain layer's is
`[1, 2)`, and index 0 of the three-element list is covered by **no** used
engine-built layer — the ranges do not cover `[0, 3)`.  (The code's own TODO
at line 679 acknowledges the problem.) -/
theorem c1_counterexample_fractional_keys_gap :
    ((alookup INCREMENTAL_INC (updateLayerStatus blankPainter gapList).layers).map
      (fun L => (L.builtin, L.used, L.startIndex, L.endIndex)) = some (true, true, 2, 3)) ∧
    ((alookup EL_AFTER_INCREMENTAL_INC (updateLayerStatus blankPainter gapList).layers).map
      (fun L => (L.builtin, L.used, L.startIndex, L.endIndex)) = some (true, true, 1, 2)) ∧
    gapList.length = 3 ∧
    ((updateLayerStatus blankPainter gapList).layers.all
      (fun e => !(e.2.builtin && e.2.used &&
        decide (e.2.startIndex ≤ 0) && decide (0 < e.2.endIndex))) = true) := by
  refine ⟨by decide, by decide, by decide, by decide⟩

/-- C1 (corrected): on a wellformed painter, **when the resolved key sequence
of the display list is contiguous** (each layer's elements are adjacent —
the fractional-offset key scheme can break this, see the counterexample),
the ranges assigned by `_updateLayerStatus` tile the list exactly:
every resolved key owns a used engine-built layer whose range is
`[first occurrence, last occurrence + 1)`; every index of the list is
covered by exactly one used layer; and every used layer's range stays
inside `[0, list.length)`. -/
theorem c1_amended_contiguous_ranges_tile (p : Painter) (list : List Element)
    (hwf : WF p)
    (hcontig : Contig (elKeys p.singleCanvas (mcAfter p list) false list)) :
    (∀ k, k ∈ elKeys p.singleCanvas (mcAfter p list) false list →
      ∃ L, alookup k (updateLayerStatus p list).layers = some L ∧
        L.builtin = true ∧ L.used = true ∧
        L.startIndex = (firstIdx k (elKeys p.singleCanvas (mcAfter p list) false list) : Int) ∧
        L.endIndex = (lastIdx k (elKeys p.singleCanvas (mcAfter p list) false list) : Int) + 1) ∧
    (∀ j : Nat, j < list.length →
      ∃ k L, alookup k (updateLayerStatus p list).layers = some L ∧ L.used = true ∧
        L.startIndex ≤ (j : Int) ∧ (j : Int) < L.endIndex ∧
        ∀ k' L', alookup k' (updateLayerStatus p list).layers = some L' →
          L'.used = true → L'.startIndex ≤ (j : Int) → (j : Int) < L'.endIndex → k' = k) ∧
    (∀ k L, alookup k (updateLayerStatus p list).layers = some L → L.used = true →
      0 ≤ L.startIndex ∧ L.endIndex ≤ (list.length : Int)) := by
  obtain ⟨hA, hC, _⟩ := updateLayerStatus_ranges p list hwf hcontig
  have hN : (elKeys p.singleCanvas (mcAfter p list) false list).length = list.length :=
    elKeys_length p.singleCanvas (mcAfter p list) false list
  refine ⟨hA, ?_, ?_⟩
  · intro j hj
    have hjk : j < (elKeys p.singleCanvas (mcAfter p list) false list).length := by
      rw [hN]
      exact hj
    obtain ⟨L, hL, hb, hu, hs, he⟩ :=
      hA ((elKeys p.singleCanvas (mcAfter p list) false list).getD j 0) (getD_mem_self hjk)
    refine ⟨(elKeys p.singleCanvas (mcAfter p list) false list).getD j 0, L, hL, hu, ?_, ?_, ?_⟩
    · rw [hs]
      have := firstIdx_le_of_getD hjk rfl
      omega
    · rw [he]
      have := le_lastIdx_of_getD hjk rfl
      omega
    · intro k' L' hL' hu' hs' he'
      by_cases hk'mem : k' ∈ elKeys p.singleCanvas (mcAfter p list) false list
      · obtain ⟨L2, hL2, _, _, hs2, he2⟩ := hA k' hk'mem
        have hL2e : L2 = L' := Option.some.inj (hL2.symm.trans hL')
        rw [hL2e] at hs2 he2
        have hf : firstIdx k' (elKeys p.singleCanvas (mcAfter p list) false list) ≤ j := by
          rw [hs2] at hs'
          omega
        have hlast : j ≤ lastIdx k' (elKeys p.singleCanvas (mcAfter p list) false list) := by
          rw [he2] at he'
          omega
        exact (hcontig k' hk'mem j (List.mem_range.2 hjk) hf hlast).symm
      · have := hC k' L' hk'mem hL'
        rw [this] at hu'
        exact absurd hu' (by simp)
  · intro k L hL hu
    by_cases hkmem : k ∈ elKeys p.singleCanvas (mcAfter p list) false list
    · obtain ⟨L2, hL2, _, _, hs2, he2⟩ := hA k hkmem
      have hL2e : L2 = L := Option.some.inj (hL2.symm.trans hL)
      rw [hL2e] at hs2 he2
      have hlt := lastIdx_lt_length hkmem
      constructor
      · rw [hs2]
        omega
      · rw [he2]
        omega
    · have := hC k L hkmem hL
      rw [this] at hu
      exact absurd hu (by simp)

theorem c1_witness :
    WF blankPainter ∧
    Contig (elKeys blankPainter.singleCanvas (mcAfter blankPainter [incEl]) false [incEl]) ∧
    (∃ L, alookup INCREMENTAL_INC (updateLayerStatus blankPainter [incEl]).layers = some L ∧
      L.builtin = true ∧ L.used = true ∧
      L.startIndex = (firstIdx INCREMENTAL_INC
        (elKeys blankPainter.singleCanvas (mcAfter blankPainter [incEl]) false [incEl]) : Int) ∧
      L.endIndex = (lastIdx INCREMENTAL_INC
        (elKeys blankPainter.singleCanvas (mcAfter blankPainter [incEl]) false [incEl]) : Int) + 1) :=
  ⟨by decide, by decide,
   (c1_amended_contiguous_ranges_tile blankPainter [incEl] (by decide) (by decide)).1
     INCREMENTAL_INC (by decide)⟩

/-! ## A second classification pass over an unchanged list stays clean -/

theorem stepLayerUpd_norun_dirty (acc : CAcc) (i : Nat) (el : Element) (L : Layer)
    (hrun : ¬some (stepKey acc el) ≠ acc.prev) (hel : el.dirty = false) :
    (stepLayerUpd acc i el L).dirty = L.dirty := by
  unfold stepLayerUpd
  dsimp only
  rw [if_neg hrun, hel]
  simp only [Bool.false_eq_true, if_false]
  cases hinc : el.incremental <;> simp

theorem stepLayerUpd_run_dirty (acc : CAcc) (i : Nat) (el : Element) (L : Layer)
    (hrun : some (stepKey acc el) ≠ acc.prev) (hel : el.dirty = false)
    (hstart : L.startIndex = (i : Int)) :
    (stepLayerUpd acc i el L).dirty = L.dirty := by
  unfold stepLayerUpd runOpenUpd
  dsimp only
  rw [if_pos hrun, hel]
  simp only [Bool.false_eq_true, if_false]
  cases hinc : el.incremental <;> simp_all <;> (try (split_ifs <;> rfl))

theorem closeUpd_dirty_eq (idx : Int) (L : Layer) (he : L.endIndex = idx) :
    (closeUpd idx L).dirty = L.dirty := by
  unfold closeUpd
  dsimp only
  rw [if_neg (fun hc => hc he)]

theorem sweepLayer_clean (L : Layer) (hd : L.dirty = false)
    (hcase : L.used = true ∨ L.endIndex ≤ L.startIndex) :
    (sweepLayer L).dirty = false ∧ sweepLayer L = L := by
  unfold sweepLayer Layer.getElementCount
  dsimp only
  split_ifs <;> ((try dsimp only at *); (try simp_all); (try omega))

theorem updateLayerStatus_flags (p : Painter) (list : List Element) :
    (updateLayerStatus p list).singleCanvas = p.singleCanvas ∧
    (updateLayerStatus p list).needsManuallyCompositing = mcAfter p list := by
  rw [updateLayerStatus_stages]
  dsimp only
  set pM : Painter := { p with needsManuallyCompositing := mcAfter p list, layers := modifyAll (fun L => { L with dirty := false, used := false }) p.zlevelList p.layers } with hpM
  obtain ⟨zs, ls, h⟩ := classifyLoop_shape list { p := pM, prev := none, incCount := 0 } 0
  show ((classifyLoop { p := pM, prev := none, incCount := 0 } 0 list).p).singleCanvas
      = p.singleCanvas ∧
    ((classifyLoop { p := pM, prev := none, incCount := 0 } 0 list).p).needsManuallyCompositing
      = mcAfter p list
  rw [h, hpM]
  exact ⟨rfl, rfl⟩

theorem mcAfter_stable (p q : Painter) (list : List Element)
    (hs : q.singleCanvas = p.singleCanvas)
    (hm : q.needsManuallyCompositing = mcAfter p list) :
    mcAfter q list = mcAfter p list := by
  unfold mcAfter at hm ⊢
  rw [hs, hm, Bool.or_assoc, Bool.or_self]

theorem doPaintList_fields (p : Painter) (list : List Element) (paintAll : Bool)
    (clock : Rat → Nat → Nat) (hnd : p.zlevelList.Nodup) :
    ∀ k L, alookup k (doPaintList p list paintAll clock).p.layers = some L →
      ∃ L0, alookup k p.layers = some L0 ∧ L.builtin = L0.builtin ∧
        L.dirty = L0.dirty ∧ L.used = L0.used ∧
        L.startIndex = L0.startIndex ∧ L.endIndex = L0.endIndex := by
  intro k L hlk
  obtain ⟨h1, h2, _, _⟩ := doPaintList_spec p list paintAll clock hnd
  by_cases hkb : k ∈ buildLayerList p paintAll
  · rw [h2 k hkb] at hlk
    cases hl0 : alookup k p.layers with
    | none =>
      rw [hl0] at hlk
      exact absurd hlk (by simp)
    | some L0 =>
      rw [hl0] at hlk
      simp only [Option.map_some'] at hlk
      have := Option.some.inj hlk
      exact ⟨L0, rfl, by rw [← this], by rw [← this], by rw [← this], by rw [← this],
        by rw [← this]⟩
  · rw [h1 k hkb] at hlk
    exact ⟨L, hlk, rfl, rfl, rfl, rfl, rfl⟩

theorem MapSync_doPaintList (p : Painter) (list : List Element) (paintAll : Bool)
    (clock : Rat → Nat → Nat) (h : MapSync p) :
    MapSync (doPaintList p list paintAll clock).p := by
  obtain ⟨ls, hshape⟩ := doPaintList_shape p list paintAll clock
  obtain ⟨h1, h2, _, _⟩ := doPaintList_spec p list paintAll clock h.1
  refine ⟨by rw [hshape]; exact h.1, fun k => ?_⟩
  have hzl : (doPaintList p list paintAll clock).p.zlevelList = p.zlevelList := by
    rw [hshape]
  rw [hzl]
  by_cases hkb : k ∈ buildLayerList p paintAll
  · rw [h2 k hkb, isSome_map_eq]
    exact h.2 k
  · rw [h1 k hkb]
    exact h.2 k

theorem c4_step (acc : CAcc) (kpre keysAll : List Rat) (el : Element) (key : Rat)
    (t : List Rat)
    (hsk : stepKey acc el = key)
    (hel : el.dirty = false)
    (hprev : acc.prev = kpre.getLast?)
    (hk : keysAll = kpre ++ key :: t)
    (hcontig : Contig keysAll)
    (hinv : CleanInv acc.p.layers kpre keysAll) :
    CleanInv (classifyStep acc kpre.length el).p.layers (kpre ++ [key]) keysAll := by
  have hmemprev : ∀ x, acc.prev = some x → x ∈ kpre := fun x hx => getLast_mem (hprev ▸ hx)
  have hkeymem : key ∈ keysAll := by
    rw [hk]
    simp
  intro k
  constructor
  · intro hkmem
    obtain ⟨L0, hL0, hb0, hd0, hs0, he0, hu0⟩ := (hinv k).1 hkmem
    by_cases hkeq : k = key
    · subst hkeq
      have hbase : (alookup k acc.p.layers).getD
          (createdLayer acc.p k acc.p.needsManuallyCompositing) = L0 := by
        rw [hL0]
        rfl
      rw [classifyStep_lookup, hsk, if_pos rfl, hbase]
      by_cases hpo : acc.prev = some k
      · have hin : k ∈ kpre := hmemprev k hpo
        have hrun : ¬some (stepKey acc el) ≠ acc.prev := by
          rw [hsk, hpo]
          exact fun hc => hc rfl
        obtain ⟨hu', hs', hb', he'⟩ := stepLayerUpd_norun_fields acc kpre.length el L0 hrun
        have hd' := stepLayerUpd_norun_dirty acc kpre.length el L0 hrun hel
        refine ⟨_, rfl, ?_, ?_, ?_, ?_, fun _ => ?_⟩
        · rw [hb']
          exact hb0
        · rw [hd']
          exact hd0
        · rw [hs']
          exact hs0
        · rw [he']
          exact he0
        · rw [hu']
          exact hu0 hin
      · have hrun : some (stepKey acc el) ≠ acc.prev := by
          rw [hsk]
          exact fun he => hpo he.symm
        have hnotin : k ∉ kpre := fun hin =>
          hpo (hprev.trans (prev_eq_of_mem_contig kpre k t (hk ▸ hcontig) hin))
        have hfi : firstIdx k keysAll = kpre.length := by
          rw [hk]
          exact firstIdx_append_first t hnotin
        obtain ⟨hu', hs', hb', he'⟩ := stepLayerUpd_run_fields acc kpre.length el L0 hrun
        have hd' := stepLayerUpd_run_dirty acc kpre.length el L0 hrun hel (by rw [hs0, hfi])
        refine ⟨_, rfl, ?_, ?_, ?_, ?_, fun _ => hu'⟩
        · rw [hb']
          exact hb0
        · rw [hd']
          exact hd0
        · rw [hs', hfi]
        · rw [he']
          exact he0
    · rw [classifyStep_lookup, hsk, if_neg hkeq]
      by_cases hpo : acc.prev = some k
      · have hin : k ∈ kpre := hmemprev k hpo
        have hrun : some key ≠ acc.prev := by
          rw [hpo]
          exact fun he => hkeq (Option.some.inj he).symm
        rw [if_pos (show (some key ≠ acc.prev) ∧ acc.prev = some k from ⟨hrun, hpo⟩), hL0]
        have hle : lastIdx k keysAll + 1 = kpre.length := by
          rw [hk]
          exact lastIdx_prev_close kpre k key t (hk ▸ hcontig) (hprev.symm.trans hpo) hkeq
        have hee : L0.endIndex = (kpre.length : Int) := by
          rw [he0]
          omega
        refine ⟨closeUpd (kpre.length : Int) L0, rfl, ?_, ?_, ?_, ?_, fun _ => ?_⟩
        · rw [(closeUpd_fields _ L0).2.1]
          exact hb0
        · rw [closeUpd_dirty_eq _ L0 hee]
          exact hd0
        · rw [(closeUpd_fields _ L0).2.2.1]
          exact hs0
        · rw [(closeUpd_fields _ L0).2.2.2]
          omega
        · rw [(closeUpd_fields _ L0).1]
          exact hu0 hin
      · rw [if_neg (fun hc : (some key ≠ acc.prev) ∧ acc.prev = some k => hpo hc.2)]
        refine ⟨L0, hL0, hb0, hd0, hs0, he0, ?_⟩
        intro hmem2
        rcases List.mem_append.1 hmem2 with h1 | h2
        · exact hu0 h1
        · exact absurd (List.mem_singleton.1 h2) hkeq
  · intro hknot L hlk
    have hkeq : k ≠ key := fun he => hknot (he ▸ hkeymem)
    have hpo : acc.prev ≠ some k := by
      intro he
      apply hknot
      rw [hk]
      exact List.mem_append.2 (Or.inl (hmemprev k he))
    rw [classifyStep_lookup, hsk, if_neg hkeq,
      if_neg (fun hc : (some key ≠ acc.prev) ∧ acc.prev = some k => hpo hc.2)] at hlk
    exact (hinv k).2 hknot L hlk

theorem c4_walk (rest : List Element) :
    ∀ (acc : CAcc) (kpre keysAll : List Rat) (s m seen : Bool),
      acc.p.singleCanvas = s →
      acc.p.needsManuallyCompositing = m →
      decide (acc.incCount > 0) = seen →
      acc.prev = kpre.getLast? →
      keysAll = kpre ++ elKeys s m seen rest →
      Contig keysAll →
      (∀ el ∈ rest, el.dirty = false) →
      CleanInv acc.p.layers kpre keysAll →
      CleanInv (classifyLoop acc kpre.length rest).p.layers keysAll keysAll ∧
      (classifyLoop acc kpre.length rest).prev = keysAll.getLast? := by
  induction rest with
  | nil =>
    intro acc kpre keysAll s m seen hs hm hseen hprev hkeys hcontig hclean hinv
    have hke : keysAll = kpre := by
      rw [hkeys]
      show kpre ++ [] = kpre
      rw [List.append_nil]
    subst hke
    exact ⟨hinv, hprev⟩
  | cons el rest' ih =>
    intro acc kpre keysAll s m seen hs hm hseen hprev hkeys hcontig hclean hinv
    have hsk : stepKey acc el = elKey s m seen el := by
      rw [stepKey_eq_elKey, hs, hm, hseen]
    have hkeys' : keysAll =
        (kpre ++ [elKey s m seen el]) ++ elKeys s m (seen || el.incremental) rest' := by
      rw [hkeys, List.append_assoc]
      rfl
    have hstep := c4_step acc kpre keysAll el (elKey s m seen el)
      (elKeys s m (seen || el.incremental) rest') hsk
      (hclean el (List.mem_cons_self el rest')) hprev
      (by rw [hkeys]; rfl) hcontig hinv
    have hflags := classifyStep_flags acc kpre.length el
    have hpr : (classifyStep acc kpre.length el).prev = some (elKey s m seen el) := by
      rw [classifyStep_prev, hsk]
      by_cases hrun : some (elKey s m seen el) ≠ acc.prev
      · rw [if_pos hrun]
      · rw [if_neg hrun]
        exact (not_not.1 hrun).symm
    have hprevstep : (classifyStep acc kpre.length el).prev =
        (kpre ++ [elKey s m seen el]).getLast? := by
      rw [hpr, getLast_append_singleton]
    have hseen' : decide ((classifyStep acc kpre.length el).incCount > 0) =
        (seen || el.incremental) := by
      rw [classifyStep_incCount]
      cases hinc : el.incremental
      · simp only [Bool.false_eq_true, if_false, Bool.or_false]
        exact hseen
      · simp only [if_true, Bool.or_true]
        rfl
    have happ := ih (classifyStep acc kpre.length el) (kpre ++ [elKey s m seen el]) keysAll
      s m (seen || el.incremental) (hflags.1.trans hs) (hflags.2.trans hm) hseen'
      hprevstep hkeys' hcontig (fun e he => hclean e (List.mem_cons.2 (Or.inr he))) hstep
    have hlen : (kpre ++ [elKey s m seen el]).length = kpre.length + 1 := by simp
    rw [hlen] at happ
    exact happ

theorem second_pass_clean (p0 : Painter) (list : List Element) (hwf : WF p0)
    (hcontig : Contig (elKeys p0.singleCanvas (mcAfter p0 list) false list))
    (hclean : ∀ el ∈ list, el.dirty = false)
    (clock1 : Rat → Nat → Nat) :
    ∀ k L, alookup k (updateLayerStatus
      (doPaintList (updateLayerStatus p0 list) list false clock1).p list).layers = some L →
      L.dirty = false := by
  set u1 := updateLayerStatus p0 list with hu1
  set q1 := doPaintList u1 list false clock1 with hq1
  obtain ⟨hA1, hC1, hBU1⟩ := updateLayerStatus_ranges p0 list hwf hcontig
  have hmsU1 : MapSync u1 := by
    rw [hu1]
    exact MapSync_updateLayerStatus p0 list (MapSync_of_WF p0 hwf)
  have hmsQ1 : MapSync q1.p := by
    rw [hq1]
    exact MapSync_doPaintList u1 list false clock1 hmsU1
  have hflagsU1 := updateLayerStatus_flags p0 list
  obtain ⟨lsq, hshq⟩ := doPaintList_shape u1 list false clock1
  have hsQ1 : q1.p.singleCanvas = p0.singleCanvas := by
    rw [hq1, hshq]
    exact hflagsU1.1
  have hmQ1 : q1.p.needsManuallyCompositing = mcAfter p0 list := by
    rw [hq1, hshq]
    exact hflagsU1.2
  have hmc2 : mcAfter q1.p list = mcAfter p0 list := mcAfter_stable p0 q1.p list hsQ1 hmQ1
  have htrans : ∀ k L1, alookup k u1.layers = some L1 →
      ∃ L2, alookup k q1.p.layers = some L2 ∧ L2.builtin = L1.builtin ∧
        L2.used = L1.used ∧ L2.startIndex = L1.startIndex ∧
        L2.endIndex = L1.endIndex ∧ L2.dirty = L1.dirty := by
    intro k L1 hL1
    obtain ⟨h1, h2, _, _⟩ := doPaintList_spec u1 list false clock1 hmsU1.1
    by_cases hkb : k ∈ buildLayerList u1 false
    · rw [hq1, h2 k hkb, hL1]
      exact ⟨_, rfl, rfl, rfl, rfl, rfl, rfl⟩
    · rw [hq1, h1 k hkb]
      exact ⟨L1, hL1, rfl, rfl, rfl, rfl, rfl⟩
  rw [updateLayerStatus_stages]
  dsimp only
  set pM2 : Painter := { q1.p with needsManuallyCompositing := mcAfter q1.p list, layers := modifyAll (fun L => { L with dirty := false, used := false }) q1.p.zlevelList q1.p.layers } with hpM2
  set acc2 := classifyLoop { p := pM2, prev := none, incCount := 0 } 0 list with hacc2
  set pE2 : Painter := { acc2.p with layers := updatePrevLayer acc2.p.layers acc2.prev (list.length : Int) } with hpE2
  have hmsM2 : MapSync pM2 := by
    rw [hpM2]
    exact MapSync_reset_mc q1.p _ _ hmsQ1
  have hmsAcc2 : MapSync acc2.p := by
    rw [hacc2]
    exact MapSync_classifyLoop list _ 0 hmsM2
  have hmsE2 : MapSync pE2 := by
    rw [hpE2]
    refine ⟨hmsAcc2.1, fun k => ?_⟩
    show _ ↔ (alookup k (updatePrevLayer _ _ _)).isSome = true
    rw [isSome_updatePrevLayer]
    exact hmsAcc2.2 k
  have hpM2look : ∀ k, alookup k pM2.layers =
      alookup k (modifyAll (fun L => { L with dirty := false, used := false })
        q1.p.zlevelList q1.p.layers) := by
    intro k
    rw [hpM2]
  have hinv0 : CleanInv pM2.layers []
      (elKeys p0.singleCanvas (mcAfter p0 list) false list) := by
    intro k
    constructor
    · intro hkmem
      obtain ⟨L1, hL1, hb1, hu1k, hs1, he1⟩ := hA1 k hkmem
      obtain ⟨L2, hL2, hb2, hu2, hs2, he2, hd2⟩ := htrans k L1 hL1
      have hkz : k ∈ q1.p.zlevelList := (hmsQ1.2 k).2 (by rw [hL2]; rfl)
      have hb2t : L2.builtin = true := by rw [hb2]; exact hb1
      refine ⟨{ L2 with dirty := false, used := false }, ?_, ?_, rfl, ?_, ?_,
        fun hm => absurd hm (List.not_mem_nil k)⟩
      · rw [hpM2look k, alookup_modifyAll_mem hmsQ1.1 hkz, hL2]
        simp only [Option.map_some']
        rw [if_pos hb2t]
      · show L2.builtin = true
        exact hb2t
      · show L2.startIndex = _
        rw [hs2]
        exact hs1
      · show L2.endIndex = _
        rw [he2]
        exact he1
    · intro hknot L hlk
      rw [hpM2look k] at hlk
      by_cases hkz : k ∈ q1.p.zlevelList
      · rw [alookup_modifyAll_mem hmsQ1.1 hkz] at hlk
        cases hl2 : alookup k q1.p.layers with
        | none =>
          rw [hl2] at hlk
          exact absurd hlk (by simp)
        | some L2 =>
          rw [hl2] at hlk
          simp only [Option.map_some'] at hlk
          -- recover the u1-layer behind L2
          obtain ⟨L1, hL1, hb21, hd21, hu21, hs21, he21⟩ := by
            rw [hq1] at hl2
            exact doPaintList_fields u1 list false clock1 hmsU1.1 k L2 hl2
          have hb2t : L2.builtin = true := by
            rw [hb21]
            exact (hBU1 k L1 hL1).1
          rw [if_pos hb2t] at hlk
          have hLe := Option.some.inj hlk
          have hu1f : L1.used = false := hC1 k L1 hknot hL1
          have hcnt : L1.endIndex ≤ L1.startIndex := (hBU1 k L1 hL1).2 hu1f
          refine ⟨?_, ?_, ?_, ?_⟩
          · rw [← hLe]
            show L2.builtin = true
            exact hb2t
          · rw [← hLe]
          · rw [← hLe]
          · rw [← hLe]
            show L2.endIndex ≤ L2.startIndex
            rw [he21, hs21]
            exact hcnt
      · rw [alookup_modifyAll_notMem hkz] at hlk
        exact absurd ((hmsQ1.2 k).2 (by rw [hlk]; rfl)) hkz
  have hwalk := c4_walk list { p := pM2, prev := none, incCount := 0 } []
    (elKeys p0.singleCanvas (mcAfter p0 list) false list)
    p0.singleCanvas (mcAfter p0 list) false
    (by rw [hpM2]; exact hsQ1) (by rw [hpM2]; exact hmc2) rfl rfl
    (List.nil_append _).symm hcontig hclean hinv0
  have hinvF : CleanInv acc2.p.layers
      (elKeys p0.singleCanvas (mcAfter p0 list) false list)
      (elKeys p0.singleCanvas (mcAfter p0 list) false list) := by
    rw [hacc2]
    exact hwalk.1
  have hprevF : acc2.prev =
      (elKeys p0.singleCanvas (mcAfter p0 list) false list).getLast? := by
    rw [hacc2]
    exact hwalk.2
  have hN : (elKeys p0.singleCanvas (mcAfter p0 list) false list).length = list.length :=
    elKeys_length p0.singleCanvas (mcAfter p0 list) false list
  have hcleanE : ∀ k L, alookup k pE2.layers = some L →
      L.dirty = false ∧ L.builtin = true ∧
      (L.used = true ∨ L.endIndex ≤ L.startIndex) := by
    intro k L hlk
    have hlkE : alookup k pE2.layers =
        alookup k (updatePrevLayer acc2.p.layers acc2.prev (list.length : Int)) := by
      rw [hpE2]
    rw [hlkE, alookup_updatePrevLayer] at hlk
    by_cases hp : acc2.prev = some k
    · rw [if_pos hp] at hlk
      have hkmem : k ∈ elKeys p0.singleCanvas (mcAfter p0 list) false list :=
        getLast_mem (hprevF ▸ hp)
      obtain ⟨L0, hL0, hb0, hd0, hs0, he0, hu0⟩ := (hinvF k).1 hkmem
      rw [hL0] at hlk
      simp only [Option.map_some'] at hlk
      have hLe := Option.some.inj hlk
      have hne : elKeys p0.singleCanvas (mcAfter p0 list) false list ≠ [] := by
        intro h0
        rw [h0] at hprevF
        rw [hp] at hprevF
        exact absurd hprevF (by simp)
      have hpos : 0 < (elKeys p0.singleCanvas (mcAfter p0 list) false list).length :=
        List.length_pos.2 hne
      have hklast : (elKeys p0.singleCanvas (mcAfter p0 list) false list).getD
          ((elKeys p0.singleCanvas (mcAfter p0 list) false list).length - 1) 0 = k := by
        have := hprevF.symm.trans hp
        rw [getLast_eq_getD _ hne] at this
        exact Option.some.inj this
      have h1 : (elKeys p0.singleCanvas (mcAfter p0 list) false list).length - 1 ≤
          lastIdx k (elKeys p0.singleCanvas (mcAfter p0 list) false list) :=
        le_lastIdx_of_getD (by omega) hklast
      have h2 : lastIdx k (elKeys p0.singleCanvas (mcAfter p0 list) false list) <
          (elKeys p0.singleCanvas (mcAfter p0 list) false list).length :=
        lastIdx_lt_length hkmem
      have hee : L0.endIndex = (list.length : Int) := by
        rw [he0]
        omega
      refine ⟨?_, ?_, Or.inl ?_⟩
      · rw [← hLe, closeUpd_dirty_eq _ L0 hee]
        exact hd0
      · rw [← hLe, (closeUpd_fields _ L0).2.1]
        exact hb0
      · rw [← hLe, (closeUpd_fields _ L0).1]
        exact hu0 hkmem
    · rw [if_neg hp] at hlk
      by_cases hkmem : k ∈ elKeys p0.singleCanvas (mcAfter p0 list) false list
      · obtain ⟨L0, hL0, hb0, hd0, _, _, hu0⟩ := (hinvF k).1 hkmem
        rw [hL0] at hlk
        have hLe := Option.some.inj hlk
        rw [← hLe]
        exact ⟨hd0, hb0, Or.inl (hu0 hkmem)⟩
      · obtain ⟨hb0, hd0, hu0, hcnt⟩ := (hinvF k).2 hkmem L hlk
        exact ⟨hd0, hb0, Or.inr hcnt⟩
  intro k L hlk
  have hlkR : alookup k (eachBuiltinMap sweepLayer pE2).layers =
      alookup k (modifyAll sweepLayer pE2.zlevelList pE2.layers) := rfl
  rw [hlkR] at hlk
  by_cases hkz : k ∈ pE2.zlevelList
  · rw [alookup_modifyAll_mem hmsE2.1 hkz] at hlk
    cases hl0 : alookup k pE2.layers with
    | none =>
      rw [hl0] at hlk
      exact absurd hlk (by simp)
    | some L0 =>
      rw [hl0] at hlk
      simp only [Option.map_some'] at hlk
      obtain ⟨hd0, hb0, hcase⟩ := hcleanE k L0 hl0
      rw [if_pos hb0] at hlk
      have hLe := Option.some.inj hlk
      rw [← hLe]
      exact (sweepLayer_clean L0 hd0 hcase).1
  · rw [alookup_modifyAll_notMem hkz] at hlk
    exact absurd ((hmsE2.2 k).2 (by rw [hlk]; rfl)) hkz

/-- C4 counterexample (refuting the claim as stated): take the clean display
list `[incremental, plain, incremental]` (all z-level 0, nothing dirty) and
run `refresh(false)` to completion — the first conjunct records that it
finishes.  Because the resolved keys `[1/1000, 1/100, 1/1000]` are not
contiguous, the incremental layer's stored `__startIndex` ends at 2; the next
classification re-opens its run at index 0 and line 688
(`layer.__startIndex !== i`) marks it dirty again even though no element
changed.  The second `refresh(false)` therefore repaints: element 2 is
painted again. -/
theorem doPaintList_empty (p : Painter) (list : List Element) (paintAll : Bool)
    (clock : Rat → Nat → Nat) (h : buildLayerList p paintAll = []) :
    doPaintList p list paintAll clock = { p := p, evs := [], finished := true } := by
  unfold doPaintList
  rw [h]
  rfl

theorem c4_counterexample_noncontiguous_redirty :
    (refresh blankPainter cleanGapList 1 false clocksZero 2).2.2 = true ∧
    ((alookup INCREMENTAL_INC (updateLayerStatus
        (refresh blankPainter cleanGapList 1 false clocksZero 2).1 cleanGapList).layers).map
      (fun L => L.dirty)) = some true ∧
    PaintEv.paintEl 2 ∈
      (refresh (refresh blankPainter cleanGapList 1 false clocksZero 2).1 cleanGapList 2 false
        clocksZero 2).2.1 := by
  refine ⟨by decide, by decide, by decide⟩

/-- C4 (corrected): after a completed `refresh(false)` over a display list
whose resolved key sequence is **contiguous** (see C1 — the fractional-offset
keys can break this) and whose elements are all clean, a second
classification pass leaves every layer non-dirty, the repaint list of the
second `_doPaintList` is empty, and the second paint pass changes nothing and
emits no paint events.  Without contiguity the classifier moves
`__startIndex` back to each key's first block and re-dirties the layer
(line 688), so the second call repaints — see the counterexample. -/
theorem c4_amended_second_refresh_paints_nothing (p0 : Painter) (list : List Element)
    (hwf : WF p0)
    (hcontig : Contig (elKeys p0.singleCanvas (mcAfter p0 list) false list))
    (hclean : ∀ el ∈ list, el.dirty = false)
    (clock1 clock2 : Rat → Nat → Nat) :
    (∀ k L, alookup k (updateLayerStatus
        (doPaintList (updateLayerStatus p0 list) list false clock1).p list).layers = some L →
      L.dirty = false) ∧
    buildLayerList (updateLayerStatus
      (doPaintList (updateLayerStatus p0 list) list false clock1).p list) false = [] ∧
    doPaintList (updateLayerStatus
        (doPaintList (updateLayerStatus p0 list) list false clock1).p list) list false clock2 =
      { p := updateLayerStatus
          (doPaintList (updateLayerStatus p0 list) list false clock1).p list,
        evs := [], finished := true } := by
  have hclean2 := second_pass_clean p0 list hwf hcontig hclean clock1
  have hbl : buildLayerList (updateLayerStatus
      (doPaintList (updateLayerStatus p0 list) list false clock1).p list) false = [] := by
    unfold buildLayerList
    rw [List.filter_eq_nil_iff]
    intro z hz
    cases hLz : alookup z (updateLayerStatus
        (doPaintList (updateLayerStatus p0 list) list false clock1).p list).layers with
    | none => simp
    | some L =>
      have := hclean2 z L hLz
      simp [this]
  exact ⟨hclean2, hbl, doPaintList_empty _ list false clock2 hbl⟩

theorem c4_witness :
    WF blankPainter ∧
    Contig (elKeys blankPainter.singleCanvas (mcAfter blankPainter [cleanIncEl])
      false [cleanIncEl]) ∧
    (∀ el ∈ [cleanIncEl], el.dirty = false) ∧
    buildLayerList (updateLayerStatus
      (doPaintList (updateLayerStatus blankPainter [cleanIncEl]) [cleanIncEl] false clkZero).p
      [cleanIncEl]) false = [] :=
  ⟨by decide, by decide, by decide,
   (c4_amended_second_refresh_paints_nothing blankPainter [cleanIncEl] (by decide) (by decide)
     (by decide) clkZero clkZero).2.1⟩
